import Mathlib

/-!
# Collaborative canvas: the server-side drawing state (`src/server/drawing-state.js`)

A shallow embedding of `createDrawingState` and the functions in its closure.

Modelling conventions.

* The closure variables `ops`, `activeCompletedStrokeIds`, `redoStrokeIds`,
  `inProgressBySocket`, `version` and the counter `next` of
  `createStrokeIdFactory` are the fields of `State`; every function of the closure
  takes the state and returns the new state together with its result.
* `inProgressBySocket` is a JavaScript `Map`; it is an association list kept in
  insertion order, which is the order `Map.prototype.entries` iterates in.
* Finite JavaScript numbers are rationals.  The code only compares, clamps
  (`Math.min`, `Math.max`) and adds one to numbers, all of which are exact on
  doubles, so no rounding is involved.  `maxStrokes` enters a subtraction whose
  result is truncated by `Array.prototype.slice`; it is an integer here, and a
  fractional capacity is outside the model.  `maxPointsPerStroke` is only compared
  with a length and is an integer as well.  `createDrawingState` takes the two
  values after the defaulting of `opts`.
* The fields `t`, `startedAt` and `endedAt` hold readings of `Date.now()`.  No
  decision of the ledger reads them; they are left out, so equality of logs is
  equality up to timestamps.
-/

namespace DrawingState

/-! ## JavaScript values -/

/-- A JavaScript value, as far as the ledger inspects one: a finite number, a
non-finite number (`NaN`, `Infinity`, `-Infinity`), a string, an object (given by
what its properties `x` and `y` read as), or anything else (`undefined`, `null`,
booleans, functions, ...).  A missing property reads as `other` (`undefined`). -/
inductive JSVal
  | number (q : ℚ)
  | nonFinite
  | string (s : String)
  | object (x y : JSVal)
  | other
  deriving DecidableEq

/-- A normalized point. -/
structure Point where
  x : ℚ
  y : ℚ
  deriving DecidableEq

/-- Source: `ALLOWED_TOOLS`. -/
def ALLOWED_TOOLS : List String := ["brush", "eraser"]

/-- Source: `isFiniteNumber`. -/
def isFiniteNumber : JSVal → Bool
  | .number _ => true
  | _ => false

/-- Source: `sanitizeCoord01`; `none` is the source's `null`. -/
def sanitizeCoord01 : JSVal → Option ℚ
  | .number n => some (min 1 (max 0 n))
  | _ => none

/-- Source: `clampWidth`. -/
def clampWidth (w : JSVal) (lo hi : ℚ) : ℚ :=
  match w with
  | .number n => min hi (max lo n)
  | _ => lo

/-- The character class `[0-9a-fA-F]`. -/
def isHexDigit (c : Char) : Bool :=
  ('0' ≤ c ∧ c ≤ '9') ∨ ('a' ≤ c ∧ c ≤ 'f') ∨ ('A' ≤ c ∧ c ≤ 'F')

/-- Source: `isValidColorString`, the test against `/^#[0-9a-fA-F]{6}$/`. -/
def isValidColorString : JSVal → Bool
  | .string s =>
    match s.data with
    | '#' :: ds => ds.length == 6 && ds.all isHexDigit
    | _ => false
  | _ => false

/-- Source: `sanitizeTool`; `none` is the source's `null`. -/
def sanitizeTool : JSVal → Option String
  | .string t => if t ∈ ALLOWED_TOOLS then some t else none
  | _ => none

/-- Source: `sanitizePoint`. -/
def sanitizePoint : JSVal → Option Point
  | .object px py =>
    match sanitizeCoord01 px, sanitizeCoord01 py with
    | some x, some y => some ⟨x, y⟩
    | _, _ => none
  | _ => none

/-- Source: the function returned by `createStrokeIdFactory`, applied at the
current value of its counter `next`: the template string
`socketId + ":" + next`. -/
def makeStrokeId (socketId : String) (next : Nat) : String :=
  socketId ++ ":" ++ toString next

/-! ## Strokes and operations -/

/-- An in-progress stroke object (timestamps left out). -/
structure Stroke where
  id : String
  userId : String
  tool : String
  color : String
  width : ℚ
  points : List Point
  deriving DecidableEq

/-- The header object stored in a `start` operation. -/
structure StrokeHeader where
  id : String
  userId : String
  tool : String
  color : String
  width : ℚ
  deriving DecidableEq

/-- The header of a stroke, as `startStroke` copies it into the log. -/
def Stroke.header (st : Stroke) : StrokeHeader :=
  ⟨st.id, st.userId, st.tool, st.color, st.width⟩

/-- Source: `serializeStroke`; it copies the stroke, so it is the identity on
values. -/
def serializeStroke (stroke : Stroke) : Stroke := stroke

/-- A log entry: `{type: "start", stroke, point}`, `{type: "point", strokeId,
point}` or `{type: "end", strokeId}`. -/
inductive Op
  | start (stroke : StrokeHeader) (point : Point)
  | point (strokeId : String) (point : Point)
  | fin (strokeId : String)
  deriving DecidableEq

/-- Source: `opStrokeId`.  Every log entry is one of the three records with a string
id, so the `null` branches are never taken on the log. -/
def opStrokeId : Op → Option String
  | .start stroke _ => some stroke.id
  | .point strokeId _ => some strokeId
  | .fin strokeId => some strokeId

/-- The test `sid ? set.has(sid) : dflt` on the result `sid` of `opStrokeId`: `null`
and the empty string are falsy. -/
def sidIn (ids : List String) (dflt : Bool) (op : Op) : Bool :=
  match opStrokeId op with
  | some sid => if sid != "" then decide (sid ∈ ids) else dflt
  | none => dflt

/-! ## The ledger state -/

/-- The closure variables of `createDrawingState`. -/
structure State where
  maxStrokes : Int
  maxPointsPerStroke : Int
  next : Nat
  ops : List Op
  activeCompletedStrokeIds : List String
  redoStrokeIds : List String
  inProgressBySocket : List (String × Stroke)
  version : Nat
  deriving DecidableEq

/-- Source: `createDrawingState`, the initial values of the closure variables. -/
def createDrawingState (maxStrokes maxPointsPerStroke : Int) : State :=
  { maxStrokes := maxStrokes
    maxPointsPerStroke := maxPointsPerStroke
    next := 1
    ops := []
    activeCompletedStrokeIds := []
    redoStrokeIds := []
    inProgressBySocket := []
    version := 0 }

/-- Default options of `createDrawingState`. -/
def createDrawingStateDefault : State := createDrawingState 1000 10000

/-- Source: `Map.prototype.get`. -/
def mapGet (m : List (String × Stroke)) (k : String) : Option Stroke :=
  (m.find? (fun e => e.1 == k)).map Prod.snd

/-- Source: `Map.prototype.has`. -/
def mapHas (m : List (String × Stroke)) (k : String) : Bool :=
  m.any (fun e => e.1 == k)

/-- Source: `Map.prototype.delete`. -/
def mapDelete (m : List (String × Stroke)) (k : String) : List (String × Stroke) :=
  m.filter (fun e => e.1 != k)

/-- Source: `Map.prototype.set`: an existing key keeps its position, a new key goes
last. -/
def mapSet (m : List (String × Stroke)) (k : String) (v : Stroke) :
    List (String × Stroke) :=
  if mapHas m k then m.map (fun e => if e.1 == k then (k, v) else e) else m ++ [(k, v)]

/-- Source: `bumpVersion`. -/
def bumpVersion (s : State) : State := { s with version := s.version + 1 }

/-- Source: `getVersion`. -/
def getVersion (s : State) : Nat := s.version

/-- Source: `getVisibleOps`. -/
def getVisibleOps (s : State) : List Op :=
  let active := s.activeCompletedStrokeIds ++ s.inProgressBySocket.map (fun e => e.2.id)
  s.ops.filter (fun op => sidIn active false op)

/-- The object returned by `getSnapshot`. -/
structure Snapshot where
  version : Nat
  ops : List Op
  deriving DecidableEq

/-- Source: `getSnapshot`. -/
def getSnapshot (s : State) : Snapshot := ⟨s.version, getVisibleOps s⟩

/-- Source: `pruneRedoOpsIfRedoCleared`; the set `toRemove` has size 0 exactly when
the array it is built from is empty. -/
def pruneRedoOpsIfRedoCleared (s : State) (previousRedoIds : List String) : State :=
  if previousRedoIds.isEmpty then s
  else { s with ops := s.ops.filter (fun op => !sidIn previousRedoIds false op) }

/-- Source: `enforceMaxStrokes`.  `overflow` is a positive integer on the second
branch; `slice` clamps it to the length of the array. -/
def enforceMaxStrokes (s : State) : State :=
  if (s.activeCompletedStrokeIds.length : Int) ≤ s.maxStrokes then s
  else
    let overflow : Nat := ((s.activeCompletedStrokeIds.length : Int) - s.maxStrokes).toNat
    let evicted := s.activeCompletedStrokeIds.take overflow
    { s with
      activeCompletedStrokeIds := s.activeCompletedStrokeIds.drop overflow
      redoStrokeIds := s.redoStrokeIds.filter (fun id => !decide (id ∈ evicted))
      ops := s.ops.filter (fun op => !sidIn evicted false op) }

/-- One iteration of the loop of `forceEndAllInProgress`, run over the entries in
insertion order; `ended` is `endedStrokeIds`. -/
def forceEndLoop : List (String × Stroke) → State → List String → State × List String
  | [], s, ended => (s, ended)
  | (socketId, stroke) :: rest, s, ended =>
    let s1 := { s with inProgressBySocket := mapDelete s.inProgressBySocket socketId }
    if 2 ≤ stroke.points.length then
      forceEndLoop rest
        { s1 with
          activeCompletedStrokeIds := s1.activeCompletedStrokeIds ++ [stroke.id]
          ops := s1.ops ++ [Op.fin stroke.id] }
        (ended ++ [stroke.id])
    else forceEndLoop rest s1 ended

/-- Source: `forceEndAllInProgress`; returns the new state and `endedStrokeIds`. -/
def forceEndAllInProgress (s : State) : State × List String :=
  let previousRedoIds := s.redoStrokeIds
  let r := forceEndLoop s.inProgressBySocket s []
  if 0 < r.2.length then
    (bumpVersion (enforceMaxStrokes
      (pruneRedoOpsIfRedoCleared { r.1 with redoStrokeIds := [] } previousRedoIds)), r.2)
  else r

/-! ## Results -/

/-- Result of `startStroke`: `{ok: false, error}` or `{ok: true, stroke, version}`. -/
inductive StartResult
  | rejected (error : String)
  | accepted (stroke : Stroke) (version : Nat)
  deriving DecidableEq

/-- Result of `addPoint`: `{ok: false, error}` or `{ok: true, point, version}`. -/
inductive PointResult
  | rejected (error : String)
  | accepted (point : Option Point) (version : Nat)
  deriving DecidableEq

/-- Result of `endStroke`: `{ok: false, error}` or `{ok: true, committed, version}`. -/
inductive EndResult
  | rejected (error : String)
  | accepted (committed : Option Stroke) (version : Nat)
  deriving DecidableEq

/-- Result of `handleDisconnect`: `{endedStroke, version}`. -/
structure DisconnectResult where
  endedStroke : Option Stroke
  version : Nat
  deriving DecidableEq

/-- Result of `undo` and `redo`: `{ok, changed, version, reason}`. -/
structure HistoryResult where
  ok : Bool
  changed : Bool
  version : Nat
  reason : Option String
  deriving DecidableEq

/-! ## The operations -/

/-- Source: `startStroke`. -/
def startStroke (s : State) (socketId userId : String) (tool color width point : JSVal) :
    State × StartResult :=
  match sanitizeTool tool with
  | none => (s, .rejected "Invalid tool.")
  | some safeTool =>
    let safeColor : JSVal := if safeTool = "eraser" then .string "#000000" else color
    if safeTool ≠ "eraser" ∧ !isValidColorString safeColor then
      (s, .rejected "Invalid color.")
    else
      let safeWidth := clampWidth width 1 60
      match sanitizePoint point with
      | none => (s, .rejected "Invalid point.")
      | some p0 =>
        if mapHas s.inProgressBySocket socketId then
          (s, .rejected "Stroke already in progress.")
        else
          let previousRedoIds := s.redoStrokeIds
          let s1 := pruneRedoOpsIfRedoCleared { s with redoStrokeIds := [] } previousRedoIds
          let stroke : Stroke :=
            { id := makeStrokeId socketId s1.next
              userId := userId
              tool := safeTool
              color := match safeColor with
                | .string c => c
                | _ => ""
              width := safeWidth
              points := [p0] }
          let s2 := bumpVersion
            { s1 with
              next := s1.next + 1
              inProgressBySocket := mapSet s1.inProgressBySocket socketId stroke
              ops := s1.ops ++ [Op.start stroke.header p0] }
          (s2, .accepted (serializeStroke stroke) s2.version)

/-- Source: `addPoint`. -/
def addPoint (s : State) (socketId : String) (strokeId point : JSVal) :
    State × PointResult :=
  match mapGet s.inProgressBySocket socketId with
  | none => (s, .rejected "No stroke in progress.")
  | some stroke =>
    if JSVal.string stroke.id ≠ strokeId then (s, .rejected "Stroke id mismatch.")
    else
      match sanitizePoint point with
      | none => (s, .rejected "Invalid point.")
      | some p =>
        if s.maxPointsPerStroke ≤ (stroke.points.length : Int) then
          (s, .rejected "Too many points in stroke.")
        else if stroke.points.getLast? = some p then (s, .accepted none s.version)
        else
          let stroke1 := { stroke with points := stroke.points ++ [p] }
          let s1 := bumpVersion
            { s with
              inProgressBySocket := mapSet s.inProgressBySocket socketId stroke1
              ops := s.ops ++ [Op.point stroke.id p] }
          (s1, .accepted (some p) s1.version)

/-- Source: `endStroke`. -/
def endStroke (s : State) (socketId : String) (strokeId : JSVal) : State × EndResult :=
  match mapGet s.inProgressBySocket socketId with
  | none => (s, .rejected "No stroke in progress.")
  | some stroke =>
    if JSVal.string stroke.id ≠ strokeId then (s, .rejected "Stroke id mismatch.")
    else
      let s1 := { s with inProgressBySocket := mapDelete s.inProgressBySocket socketId }
      if stroke.points.length < 2 then
        let s2 := bumpVersion
          { s1 with ops := s1.ops.filter (fun op => opStrokeId op != some stroke.id) }
        (s2, .accepted none s2.version)
      else
        let s2 := enforceMaxStrokes
          { s1 with activeCompletedStrokeIds := s1.activeCompletedStrokeIds ++ [stroke.id] }
        let s3 := bumpVersion { s2 with ops := s2.ops ++ [Op.fin stroke.id] }
        (s3, .accepted (some (serializeStroke stroke)) s3.version)

/-- Source: `handleDisconnect`. -/
def handleDisconnect (s : State) (socketId : String) : State × DisconnectResult :=
  match mapGet s.inProgressBySocket socketId with
  | none => (s, ⟨none, s.version⟩)
  | some stroke =>
    let s1 := { s with inProgressBySocket := mapDelete s.inProgressBySocket socketId }
    if stroke.points.length < 2 then
      let s2 := bumpVersion
        { s1 with ops := s1.ops.filter (fun op => opStrokeId op != some stroke.id) }
      (s2, ⟨none, s2.version⟩)
    else
      let s2 := { s1 with activeCompletedStrokeIds := s1.activeCompletedStrokeIds ++ [stroke.id] }
      let previousRedoIds := s2.redoStrokeIds
      let s3 := enforceMaxStrokes
        (pruneRedoOpsIfRedoCleared { s2 with redoStrokeIds := [] } previousRedoIds)
      let s4 := bumpVersion { s3 with ops := s3.ops ++ [Op.fin stroke.id] }
      (s4, ⟨some (serializeStroke stroke), s4.version⟩)

/-- Source: `undo`. -/
def undo (s : State) : State × HistoryResult :=
  let s1 := (forceEndAllInProgress s).1
  if s1.activeCompletedStrokeIds.length == 0 then
    (s1, ⟨false, false, s1.version, some "Nothing to undo."⟩)
  else
    match s1.activeCompletedStrokeIds.getLast? with
    | none => (s1, ⟨false, false, s1.version, some "Nothing to undo."⟩)
    | some lastId =>
      let s2 := bumpVersion
        { s1 with
          activeCompletedStrokeIds := s1.activeCompletedStrokeIds.dropLast
          redoStrokeIds := s1.redoStrokeIds ++ [lastId] }
      (s2, ⟨true, true, s2.version, none⟩)

/-- Source: `redo`. -/
def redo (s : State) : State × HistoryResult :=
  let s1 := (forceEndAllInProgress s).1
  if s1.redoStrokeIds.length == 0 then
    (s1, ⟨false, false, s1.version, some "Nothing to redo."⟩)
  else
    match s1.redoStrokeIds.getLast? with
    | none => (s1, ⟨false, false, s1.version, some "Nothing to redo."⟩)
    | some id =>
      let s2 := bumpVersion (enforceMaxStrokes
        { s1 with
          redoStrokeIds := s1.redoStrokeIds.dropLast
          activeCompletedStrokeIds := s1.activeCompletedStrokeIds ++ [id] })
      (s2, ⟨true, true, s2.version, none⟩)

/-- Source: `getUsersInProgressStroke`. -/
def getUsersInProgressStroke (s : State) (socketId : String) : Option Stroke :=
  (mapGet s.inProgressBySocket socketId).map serializeStroke

/-- Source: `hasInProgress`. -/
def hasInProgress (s : State) (socketId : String) : Bool :=
  mapHas s.inProgressBySocket socketId

/-! ## Calls, traces and reachable states -/

/-- A call of one of the six mutating functions exported by `createDrawingState`,
with its arguments. -/
inductive Call
  | startStroke (socketId userId : String) (tool color width point : JSVal)
  | addPoint (socketId : String) (strokeId point : JSVal)
  | endStroke (socketId : String) (strokeId : JSVal)
  | handleDisconnect (socketId : String)
  | undo
  | redo
  deriving DecidableEq

/-- What a call returns. -/
inductive Result
  | start (r : StartResult)
  | point (r : PointResult)
  | fin (r : EndResult)
  | disconnect (r : DisconnectResult)
  | history (r : HistoryResult)
  deriving DecidableEq

/-- Run one call: the new state and the returned value. -/
def exec (s : State) : Call → State × Result
  | .startStroke socketId userId tool color width point =>
    ((startStroke s socketId userId tool color width point).1,
      .start (startStroke s socketId userId tool color width point).2)
  | .addPoint socketId strokeId point =>
    ((addPoint s socketId strokeId point).1, .point (addPoint s socketId strokeId point).2)
  | .endStroke socketId strokeId =>
    ((endStroke s socketId strokeId).1, .fin (endStroke s socketId strokeId).2)
  | .handleDisconnect socketId =>
    ((handleDisconnect s socketId).1, .disconnect (handleDisconnect s socketId).2)
  | .undo => ((undo s).1, .history (undo s).2)
  | .redo => ((redo s).1, .history (redo s).2)

/-- The state after one call. -/
def step (s : State) (c : Call) : State := (exec s c).1

/-- The state after a sequence of calls, applied in arrival order. -/
def run (s : State) : List Call → State
  | [] => s
  | c :: cs => run (step s c) cs

/-- The states a ledger can be in: those reached from a freshly created ledger by
some sequence of calls. -/
inductive Reachable : State → Prop
  | init (maxStrokes maxPointsPerStroke : Int) :
      Reachable (createDrawingState maxStrokes maxPointsPerStroke)
  | step {s : State} (c : Call) : Reachable s → Reachable (step s c)

/-- Ids of the strokes in progress, in insertion order of their connections. -/
def inProgressIds (s : State) : List String :=
  s.inProgressBySocket.map (fun e => e.2.id)

/-- Every id the ledger tracks: in progress, visible, or undone. -/
def liveIds (s : State) : List String :=
  inProgressIds s ++ (s.activeCompletedStrokeIds ++ s.redoStrokeIds)

/-- The id was handed out by the id factory at an earlier value of its counter. -/
def Issued (s : State) (id : String) : Prop :=
  ∃ socketId n, n < s.next ∧ id = makeStrokeId socketId n

/-- The log entries that reference stroke `id`, in log order. -/
def opsOf (id : String) (ops : List Op) : List Op :=
  ops.filter (fun op => opStrokeId op == some id)

/-- Invariant of the reachable states. -/
structure Inv (s : State) : Prop where
  nodup : (liveIds s).Nodup
  issued : ∀ id ∈ liveIds s, Issued s id
  opsIssued : ∀ op ∈ s.ops, ∀ id, opStrokeId op = some id → Issued s id
  redoIdle : s.redoStrokeIds ≠ [] → s.inProgressBySocket = []
  capacity : ((s.activeCompletedStrokeIds.length + s.redoStrokeIds.length : Nat) : Int)
    ≤ max 0 s.maxStrokes
  keys : (s.inProgressBySocket.map Prod.fst).Nodup

/-- Ids of the in-progress strokes that force-completion commits: those with at least
two points, in insertion order. -/
def commitIds (m : List (String × Stroke)) : List String :=
  (m.filter (fun e => decide (2 ≤ e.2.points.length))).map (fun e => e.2.id)

/-- The value of `overflow` in `enforceMaxStrokes` for a history `ids` (zero when the
history fits the capacity). -/
def overflow (ids : List String) (maxStrokes : Int) : Nat :=
  ((ids.length : Int) - maxStrokes).toNat

/-- Where the ids of a successor state `t` of `s` come from: the id counter does not go
back, an id in progress in `t` was in progress in `s` or is the id made at the current
counter, and an id in the visible history or the redo list of `t` was already in one of
them in `s` or belongs to a stroke in progress in `s` with at least two points. -/
def StepSources (s t : State) : Prop :=
  s.next ≤ t.next ∧
  (∀ a ∈ inProgressIds t, a ∈ inProgressIds s ∨ ∃ sock, a = makeStrokeId sock s.next) ∧
  (∀ a ∈ t.activeCompletedStrokeIds ++ t.redoStrokeIds,
    a ∈ s.activeCompletedStrokeIds ++ s.redoStrokeIds ∨
    ∃ e ∈ s.inProgressBySocket, e.2.id = a ∧ 2 ≤ e.2.points.length)

/-- The stroke a call reports as committed: the field `committed` of `endStroke`, the
field `endedStroke` of `handleDisconnect`. -/
def committedStroke : Result → Option Stroke
  | .fin (.accepted (some st) _) => some st
  | .disconnect r => r.endedStroke
  | _ => none

/-- The id of the stroke call `c` reports as committed in state `s`, if any. -/
def stepCompleted (s : State) (c : Call) : List String :=
  match committedStroke (exec s c).2 with
  | some st => [st.id]
  | none => []

/-- The ids of the strokes reported as committed along a sequence of calls, in completion
order. -/
def completedIds (s : State) : List Call → List String
  | [] => []
  | c :: cs => stepCompleted s c ++ completedIds (step s c) cs

/-- The call is `undo` or `redo`. -/
def isHistoryCall : Call → Bool
  | .undo => true
  | .redo => true
  | _ => false

/-- Invariant of the traces without `undo` and `redo` on a ledger of capacity at least
one, relative to the list `done` of the ids completed so far: the visible history is the
last `maxStrokes` completed ids, and the log holds no operation of a completed id that
left the visible history. -/
structure CapInv (s : State) (done : List String) : Prop where
  inv : Inv s
  redoNil : s.redoStrokeIds = []
  capPos : 1 ≤ s.maxStrokes
  active : s.activeCompletedStrokeIds = done.drop (done.length - s.maxStrokes.toNat)
  nodup : done.Nodup
  issued : ∀ id ∈ done, Issued s id
  notInProgress : ∀ id ∈ done, id ∉ inProgressIds s
  purged : ∀ id ∈ done, id ∉ s.activeCompletedStrokeIds →
    ∀ op ∈ s.ops, opStrokeId op ≠ some id

/-- The points call `c` reports as recorded for stroke `X` in state `s`: the first point
of the stroke returned by an accepted `startStroke` that created `X`, or the applied
point of an accepted, non-duplicate `addPoint` addressed to `X`. -/
def stepRecorded (X : String) (s : State) (c : Call) : List Point :=
  match c, (exec s c).2 with
  | .startStroke _ _ _ _ _ _, .start (.accepted st _) => if st.id = X then st.points else []
  | .addPoint _ strokeId _, .point (.accepted (some p) _) =>
    if strokeId = .string X then [p] else []
  | _, _ => []

/-- The points recorded for stroke `X` along a sequence of calls, in call order. -/
def recordedPoints (X : String) (s : State) : List Call → List Point
  | [] => []
  | c :: cs => stepRecorded X s c ++ recordedPoints X (step s c) cs

/-- Invariant relating the log to the points `pts` recorded so far for stroke `X`: while
`X` is in progress its stroke object holds exactly `pts` and its log entries are the
start followed by the points; once `X` is in the visible history or the redo list its
log entries are the start, at least one point, and the end. -/
structure TrackInv (X : String) (s : State) (pts : List Point) : Prop where
  inv : Inv s
  fresh : ¬ Issued s X → pts = []
  inProgress : ∀ e ∈ s.inProgressBySocket, e.2.id = X →
    e.2.points = pts ∧ ∃ hdr p1 ps, hdr.id = X ∧ pts = p1 :: ps ∧
      opsOf X s.ops = Op.start hdr p1 :: ps.map (Op.point X)
  completed : X ∈ s.activeCompletedStrokeIds ++ s.redoStrokeIds →
    ∃ hdr p1 ps, hdr.id = X ∧ ps ≠ [] ∧ pts = p1 :: ps ∧
      opsOf X s.ops = Op.start hdr p1 :: ps.map (Op.point X) ++ [Op.fin X]

/-- The value is a string made of `#` followed by exactly six hexadecimal digits. -/
def IsHexColor (color : JSVal) : Prop :=
  ∃ ds : List Char, color = .string ⟨'#' :: ds⟩ ∧ ds.length = 6 ∧ ∀ c ∈ ds, isHexDigit c = true

/-- The value is an object whose `x` and `y` are finite numbers. -/
def IsFinitePoint (point : JSVal) : Prop :=
  ∃ x y : ℚ, point = .object (.number x) (.number y)

end DrawingState

/-!
# Collaborative canvas: the client sync controller (`src/client/canvas.js`)

A shallow embedding of the local-stroke part of `createCanvasController`: the closure
variables `enabled`, `toolState`, `localStrokeId`, `localStartPoint`,
`localBufferedPoints`, `localStrokeToken`, `pendingStrokeToken`, `pendingShouldEnd`,
`isPointerDown`, `activePointerId`, the pointer handlers, `abortLocalDrawing` and
`beginStrokeAt`.

Modelling conventions.

* Every handler takes the controller state and returns the new state together with the
  requests it hands to the callbacks `onStrokeStart`, `onStrokePoint`, `onStrokeEnd`, in
  call order.
* `beginStrokeAt` is an `async` function with one `await`.  The part before the `await`
  is `beginStrokeAt`; the part after it runs as a later step of the event loop, once the
  acknowledgment resolves, and is `resumeStroke`, which takes the captured `myToken` and
  the resolved value.
* A pointer event carries the point `normalizePointFromEvent` computes from it; the
  floating-point normalization itself, the replay of `ops` on the canvas, and the
  cursor overlay (`scheduleCursorSend`, which only touches `pendingCursor` and
  `cursorRaf`) are outside the model.  `localPreviewLast` and `localStrokeStyle` are
  only ever assigned `null` and are left out.
-/

namespace CanvasController

open DrawingState (Point)

/-- A pointer event as the handlers read it: `pointerId`, `button` (`none` when the
property is `undefined`) and the normalized point. -/
structure PointerEvent where
  pointerId : Int
  button : Option Int
  point : Point
  deriving DecidableEq

/-- The object `toolState`. -/
structure ToolState where
  tool : String
  color : String
  width : ℚ
  deriving DecidableEq

/-- The value the acknowledgment of a start request resolves to, as `beginStrokeAt`
reads it: `accepted strokeId` when `res.ok === true` and `res.strokeId` is a string,
`rejected` for every other value. -/
inductive StartAck
  | accepted (strokeId : String)
  | rejected
  deriving DecidableEq

/-- A call of one of the callbacks `onStrokeStart`, `onStrokePoint`, `onStrokeEnd`.  The
token of a start request is not part of its payload: it is the `myToken` captured by
the continuation that will read the acknowledgment. -/
inductive Request
  | strokeStart (token : Nat) (tool color : String) (width : ℚ) (point : Point)
  | strokePoint (strokeId : String) (point : Point)
  | strokeEnd (strokeId : String)
  deriving DecidableEq

/-- The closure variables of the local stroke. -/
structure Controller where
  enabled : Bool
  toolState : ToolState
  localStrokeId : Option String
  localStartPoint : Option Point
  localBufferedPoints : List Point
  localStrokeToken : Nat
  pendingStrokeToken : Nat
  pendingShouldEnd : Bool
  isPointerDown : Bool
  activePointerId : Option Int
  deriving DecidableEq

/-- Source: `createCanvasController`, the initial values of the closure variables. -/
def createCanvasController : Controller :=
  { enabled := false
    toolState := ⟨"brush", "#2563eb", 6⟩
    localStrokeId := none
    localStartPoint := none
    localBufferedPoints := []
    localStrokeToken := 0
    pendingStrokeToken := 0
    pendingShouldEnd := false
    isPointerDown := false
    activePointerId := none }

/-- JavaScript truthiness of `localStrokeId`: `null` and the empty string are falsy. -/
def truthyId : Option String → Bool
  | some sid => sid != ""
  | none => false

/-- Source: `setEnabled`. -/
def setEnabled (c : Controller) (v : Bool) : Controller := { c with enabled := v }

/-- Source: `setToolState`; a field absent from `next` keeps its value. -/
def setToolState (c : Controller) (tool color : Option String) (width : Option ℚ) :
    Controller :=
  { c with toolState :=
      ⟨tool.getD c.toolState.tool, color.getD c.toolState.color,
        width.getD c.toolState.width⟩ }

/-- Source: `abortLocalDrawing`. -/
def abortLocalDrawing (c : Controller) : Controller :=
  { c with
    isPointerDown := false
    activePointerId := none
    localStrokeToken := c.localStrokeToken + 1
    pendingStrokeToken := 0
    pendingShouldEnd := false
    localStrokeId := none
    localStartPoint := none
    localBufferedPoints := [] }

/-- Source: `setOps`, as far as the local stroke is concerned: it calls
`abortLocalDrawing` before replacing and replaying `ops`. -/
def setOps (c : Controller) : Controller := abortLocalDrawing c

/-- Source: `shouldHandlePointer`. -/
def shouldHandlePointer (c : Controller) (ev : PointerEvent) : Bool :=
  if !c.enabled then false
  else if c.activePointerId ≠ none ∧ some ev.pointerId ≠ c.activePointerId then false
  else true

/-- Source: `beginStrokeAt`, up to the `await`. -/
def beginStrokeAt (c : Controller) (point01 : Point) : Controller × List Request :=
  let myToken := c.localStrokeToken + 1
  ({ c with
      localStrokeToken := myToken
      pendingStrokeToken := myToken
      pendingShouldEnd := false
      localStrokeId := none
      localStartPoint := some point01
      localBufferedPoints := [] },
    [Request.strokeStart myToken c.toolState.tool c.toolState.color c.toolState.width point01])

/-- Source: `beginStrokeAt`, from the `await` on, with the captured `myToken` and the
value `res` the acknowledgment resolved to. -/
def resumeStroke (c : Controller) (myToken : Nat) (res : StartAck) :
    Controller × List Request :=
  if c.pendingStrokeToken ≠ myToken then (c, [])
  else
    match res with
    | .rejected =>
      ({ c with
          pendingStrokeToken := 0
          localStrokeId := none
          localStartPoint := none
          localBufferedPoints := [] }, [])
    | .accepted strokeId =>
      let c1 := { c with localStrokeId := some strokeId, pendingStrokeToken := 0 }
      let flushed := c1.localBufferedPoints.map (fun p => Request.strokePoint strokeId p)
      let c2 := { c1 with localBufferedPoints := [] }
      if c2.pendingShouldEnd then
        ({ c2 with pendingShouldEnd := false, localStrokeId := none, localStartPoint := none },
          flushed ++ [Request.strokeEnd strokeId])
      else (c2, flushed)

/-- Source: `onPointerDown`. -/
def onPointerDown (c : Controller) (ev : PointerEvent) : Controller × List Request :=
  if !c.enabled then (c, [])
  else if ev.button ≠ none ∧ ev.button ≠ some 0 then (c, [])
  else
    beginStrokeAt { c with isPointerDown := true, activePointerId := some ev.pointerId }
      ev.point

/-- Source: `onPointerMove`. -/
def onPointerMove (c : Controller) (ev : PointerEvent) : Controller × List Request :=
  if !shouldHandlePointer c ev then (c, [])
  else if !c.isPointerDown then (c, [])
  else if !truthyId c.localStrokeId then
    ({ c with localBufferedPoints := c.localBufferedPoints ++ [ev.point] }, [])
  else
    match c.localStrokeId with
    | some sid => (c, [Request.strokePoint sid ev.point])
    | none => (c, [])

/-- Source: `onPointerUp`. -/
def onPointerUp (c : Controller) (ev : PointerEvent) : Controller × List Request :=
  if !shouldHandlePointer c ev then (c, [])
  else
    let c1 := { c with isPointerDown := false }
    if c1.pendingStrokeToken ≠ 0 then
      ({ c1 with pendingShouldEnd := true, activePointerId := none }, [])
    else
      let out : List Request :=
        match c1.localStrokeId with
        | some sid => if truthyId (some sid) then [Request.strokeEnd sid] else []
        | none => []
      ({ c1 with
          localStrokeId := none
          localStartPoint := none
          localBufferedPoints := []
          activePointerId := none }, out)

/-- Source: `onPointerCancel`. -/
def onPointerCancel (c : Controller) (ev : PointerEvent) : Controller × List Request :=
  if !shouldHandlePointer c ev then (c, [])
  else ({ c with isPointerDown := false, pendingShouldEnd := true, activePointerId := none }, [])

/-- What can happen to the controller: a pointer event, a call of one of its methods, or
the acknowledgment of the start request issued under `token`. -/
inductive Event
  | pointerDown (ev : PointerEvent)
  | pointerMove (ev : PointerEvent)
  | pointerUp (ev : PointerEvent)
  | pointerCancel (ev : PointerEvent)
  | abortLocalDrawing
  | setOps
  | setEnabled (v : Bool)
  | setToolState (tool color : Option String) (width : Option ℚ)
  | ack (token : Nat) (res : StartAck)
  deriving DecidableEq

/-- Handle one event: the new state and the requests emitted. -/
def handle (c : Controller) : Event → Controller × List Request
  | .pointerDown ev => onPointerDown c ev
  | .pointerMove ev => onPointerMove c ev
  | .pointerUp ev => onPointerUp c ev
  | .pointerCancel ev => onPointerCancel c ev
  | .abortLocalDrawing => (abortLocalDrawing c, [])
  | .setOps => (setOps c, [])
  | .setEnabled v => (setEnabled c v, [])
  | .setToolState tool color width => (setToolState c tool color width, [])
  | .ack token res => resumeStroke c token res

/-- Handle a sequence of events in order: the final state and all requests emitted. -/
def runEvents (c : Controller) : List Event → Controller × List Request
  | [] => (c, [])
  | e :: es => ((runEvents (handle c e).1 es).1, (handle c e).2 ++ (runEvents (handle c e).1 es).2)

end CanvasController

namespace DrawingState

/-! ## The id factory hands out distinct, non-empty ids -/

theorem toDigitsCore_eq (fuel n : Nat) (acc : List Char) (h : n < fuel) :
    Nat.toDigitsCore 10 fuel n acc =
      (if n = 0 then ['0'] else (Nat.digits 10 n).reverse.map Nat.digitChar) ++ acc := by
  induction fuel generalizing n acc with
  | zero => omega
  | succ f ih =>
    unfold Nat.toDigitsCore
    by_cases h1 : n / 10 = 0
    · have hn : n < 10 := by omega
      by_cases h0 : n = 0
      · subst h0; simp; rfl
      · have : Nat.digits 10 n = [n] := Nat.digits_of_lt 10 n h0 hn
        simp [h1, h0, this, Nat.mod_eq_of_lt hn]
    · have hlt : n / 10 < f := by omega
      have h0 : n ≠ 0 := by omega
      have : Nat.digits 10 n = (n % 10) :: Nat.digits 10 (n / 10) := by
        rw [Nat.digits_def' (by norm_num) (by omega)]
      simp [h1, h0, ih _ _ hlt, this]

theorem toString_nat_data (n : Nat) : (toString n).data =
    if n = 0 then ['0'] else (Nat.digits 10 n).reverse.map Nat.digitChar := by
  show (Nat.repr n).data = _
  unfold Nat.repr Nat.toDigits
  rw [toDigitsCore_eq _ _ _ (Nat.lt_succ_self n)]
  simp [List.asString]

theorem digitChar_ne_colon (d : Nat) (h : d < 10) : Nat.digitChar d ≠ ':' := by
  interval_cases d <;> decide

theorem digitChar_inj (a b : Nat) (ha : a < 10) (hb : b < 10)
    (h : Nat.digitChar a = Nat.digitChar b) : a = b := by
  interval_cases a <;> interval_cases b <;> first | rfl | (exfalso; revert h; decide)

theorem toString_nat_no_colon (n : Nat) : ':' ∉ (toString n).data := by
  rw [toString_nat_data]
  split_ifs with h
  · decide
  · intro hm
    simp only [List.mem_map, List.mem_reverse] at hm
    obtain ⟨d, hd, he⟩ := hm
    exact digitChar_ne_colon d (Nat.digits_lt_base (by norm_num) hd) he

theorem map_digitChar_inj : ∀ l1 l2 : List Nat, (∀ x ∈ l1, x < 10) → (∀ x ∈ l2, x < 10) →
    l1.map Nat.digitChar = l2.map Nat.digitChar → l1 = l2 := by
  intro l1
  induction l1 with
  | nil => intro l2 _ _ h; cases l2 <;> simp_all
  | cons x xs ih =>
    intro l2 h1 h2 h
    cases l2 with
    | nil => simp at h
    | cons y ys =>
      simp only [List.map_cons, List.cons.injEq] at h
      have hxy := digitChar_inj x y (h1 x (by simp)) (h2 y (by simp)) h.1
      have := ih ys (fun z hz => h1 z (by simp [hz])) (fun z hz => h2 z (by simp [hz])) h.2
      rw [hxy, this]

theorem toString_nat_inj (a b : Nat) (h : (toString a).data = (toString b).data) :
    a = b := by
  have key : ∀ n : Nat, n ≠ 0 → ['0'] ≠ (Nat.digits 10 n).reverse.map Nat.digitChar := by
    intro n hn he
    have hlen : (Nat.digits 10 n).length = 1 := by
      have := congrArg List.length he
      simpa using this.symm
    obtain ⟨d, hd⟩ := List.length_eq_one.mp hlen
    have hlast := Nat.getLast_digit_ne_zero 10 hn
    have hd10 : d < 10 := Nat.digits_lt_base (by norm_num) (by rw [hd]; simp)
    simp only [hd, List.reverse_singleton, List.map_cons, List.map_nil, List.cons.injEq,
      and_true] at he
    have : d = 0 := (digitChar_inj 0 d (by norm_num) hd10 he).symm
    simp [hd, this] at hlast
  rw [toString_nat_data, toString_nat_data] at h
  by_cases ha : a = 0 <;> by_cases hb : b = 0
  · rw [ha, hb]
  · simp only [ha, hb, if_true, if_false] at h
    exact absurd h (key b hb)
  · simp only [ha, hb, if_true, if_false] at h
    exact absurd h.symm (key a ha)
  · simp only [ha, hb, if_false] at h
    have := map_digitChar_inj _ _
      (fun x hx => Nat.digits_lt_base (by norm_num) (List.mem_reverse.mp hx))
      (fun x hx => Nat.digits_lt_base (by norm_num) (List.mem_reverse.mp hx)) h
    exact Nat.digits.injective 10 (List.reverse_injective this)

theorem suffix_after_colon (l1 l2 r1 r2 : List Char) (h1 : ':' ∉ r1) (h2 : ':' ∉ r2)
    (h : l1 ++ ':' :: r1 = l2 ++ ':' :: r2) : r1 = r2 := by
  rcases List.append_eq_append_iff.mp h with ⟨a, _, ha⟩ | ⟨a, _, ha⟩
  · cases a with
    | nil => simpa using ha
    | cons c cs =>
      simp only [List.cons_append, List.cons.injEq] at ha
      exact absurd (by rw [ha.2]; simp) h1
  · cases a with
    | nil => simpa using ha.symm
    | cons c cs =>
      simp only [List.cons_append, List.cons.injEq] at ha
      exact absurd (by rw [ha.2]; simp) h2

/-- Two ids made at different values of the counter differ, whatever the socket
ids are. -/
theorem makeStrokeId_counter_inj (s t : String) (n m : Nat)
    (h : makeStrokeId s n = makeStrokeId t m) : n = m := by
  have h1 := congrArg String.data h
  simp only [makeStrokeId, String.data_append] at h1
  rw [List.append_assoc, List.append_assoc] at h1
  exact toString_nat_inj _ _
    (suffix_after_colon _ _ _ _ (toString_nat_no_colon n) (toString_nat_no_colon m) h1)

theorem makeStrokeId_ne_empty (s : String) (n : Nat) : makeStrokeId s n ≠ "" := by
  intro h
  have h1 := congrArg String.data h
  simp [makeStrokeId, String.data_append] at h1

/-! ## Issued ids -/

theorem Issued.mono {s t : State} {id : String} (h : s.next ≤ t.next) (hi : Issued s id) :
    Issued t id := by
  obtain ⟨sock, n, hn, rfl⟩ := hi
  exact ⟨sock, n, by omega, rfl⟩

theorem Issued.ne_empty {s : State} {id : String} (hi : Issued s id) : id ≠ "" := by
  obtain ⟨sock, n, _, rfl⟩ := hi
  exact makeStrokeId_ne_empty sock n

theorem not_issued_fresh (s : State) (socketId : String) :
    ¬ Issued s (makeStrokeId socketId s.next) := by
  rintro ⟨sock, n, hn, he⟩
  have := makeStrokeId_counter_inj _ _ _ _ he
  omega

theorem opStrokeId_isSome (op : Op) : ∃ id, opStrokeId op = some id := by
  cases op <;> exact ⟨_, rfl⟩

theorem sidIn_of_ne_empty {op : Op} {id : String} (ids : List String) (d : Bool)
    (h : opStrokeId op = some id) (hne : id ≠ "") : sidIn ids d op = decide (id ∈ ids) := by
  simp [sidIn, h, hne]

/-! ## The in-progress map -/

theorem mapGet_cons_eq {e : String × Stroke} {k : String} (es : List (String × Stroke))
    (h : e.1 = k) : mapGet (e :: es) k = some e.2 := by
  simp [mapGet, List.find?_cons_of_pos, h]

theorem mapGet_cons_ne {e : String × Stroke} {k : String} (es : List (String × Stroke))
    (h : e.1 ≠ k) : mapGet (e :: es) k = mapGet es k := by
  simp [mapGet, List.find?_cons_of_neg, h]

theorem mapDelete_cons_eq {e : String × Stroke} {k : String} (es : List (String × Stroke))
    (h : e.1 = k) : mapDelete (e :: es) k = mapDelete es k := by
  simp [mapDelete, List.filter_cons, h]

theorem mapDelete_cons_ne {e : String × Stroke} {k : String} (es : List (String × Stroke))
    (h : e.1 ≠ k) : mapDelete (e :: es) k = e :: mapDelete es k := by
  simp [mapDelete, List.filter_cons, h]

theorem mapGet_some_mem {m : List (String × Stroke)} {k : String} {st : Stroke}
    (h : mapGet m k = some st) : (k, st) ∈ m := by
  induction m with
  | nil => simp [mapGet] at h
  | cons e es ih =>
    by_cases he : e.1 = k
    · rw [mapGet_cons_eq es he] at h
      simp only [Option.some.injEq] at h
      subst h; subst he
      simp
    · rw [mapGet_cons_ne es he] at h
      exact List.mem_cons_of_mem _ (ih h)

theorem mapHas_iff (m : List (String × Stroke)) (k : String) :
    mapHas m k = true ↔ k ∈ m.map Prod.fst := by
  simp only [mapHas, List.any_eq_true, List.mem_map, beq_iff_eq]

theorem mapGet_eq_none_iff (m : List (String × Stroke)) (k : String) :
    mapGet m k = none ↔ mapHas m k = false := by
  induction m with
  | nil => simp [mapGet, mapHas]
  | cons e es ih =>
    by_cases he : e.1 = k
    · rw [mapGet_cons_eq es he]
      simp [mapHas, he]
    · rw [mapGet_cons_ne es he, ih]
      simp [mapHas, he]

theorem keys_mapDelete_nodup {m : List (String × Stroke)} (k : String)
    (h : (m.map Prod.fst).Nodup) : ((mapDelete m k).map Prod.fst).Nodup :=
  h.sublist ((List.filter_sublist m).map Prod.fst)

theorem count_ids_mapDelete_le (m : List (String × Stroke)) (k a : String) :
    ((mapDelete m k).map (fun e => e.2.id)).count a ≤ (m.map (fun e => e.2.id)).count a :=
  ((List.filter_sublist m).map _).count_le a

theorem count_ids_mapDelete_lt {m : List (String × Stroke)} {k : String} {st : Stroke}
    (h : mapGet m k = some st) :
    ((mapDelete m k).map (fun e => e.2.id)).count st.id + 1
      ≤ (m.map (fun e => e.2.id)).count st.id := by
  induction m with
  | nil => simp [mapGet] at h
  | cons e es ih =>
    by_cases he : e.1 = k
    · rw [mapGet_cons_eq es he] at h
      simp only [Option.some.injEq] at h
      have hle := count_ids_mapDelete_le es k st.id
      rw [mapDelete_cons_eq es he]
      simp only [List.map_cons, h, List.count_cons_self]
      omega
    · rw [mapGet_cons_ne es he] at h
      have := ih h
      rw [mapDelete_cons_ne es he]
      simp only [List.map_cons, List.count_cons]
      omega

theorem mapDelete_of_not_has {m : List (String × Stroke)} {k : String}
    (h : k ∉ m.map Prod.fst) : mapDelete m k = m := by
  simp only [mapDelete, List.filter_eq_self]
  intro e he
  simp only [bne_iff_ne, ne_eq]
  rintro rfl
  exact h (List.mem_map_of_mem Prod.fst he)

theorem mapSet_of_not_has {m : List (String × Stroke)} {k : String} (v : Stroke)
    (h : mapHas m k = false) : mapSet m k v = m ++ [(k, v)] := by
  simp [mapSet, h]

theorem keys_mapSet_of_has {m : List (String × Stroke)} {k : String} (v : Stroke)
    (h : mapHas m k = true) : (mapSet m k v).map Prod.fst = m.map Prod.fst := by
  simp only [mapSet, h, if_true, List.map_map]
  apply List.map_congr_left
  intro e _
  by_cases he : e.1 = k <;> simp [he]

theorem ids_mapSet_of_get {m : List (String × Stroke)} {k : String} {st v : Stroke}
    (hk : (m.map Prod.fst).Nodup) (hg : mapGet m k = some st) (hid : v.id = st.id) :
    (mapSet m k v).map (fun e => e.2.id) = m.map (fun e => e.2.id) := by
  have hhas : mapHas m k = true := by
    by_contra hc
    have := (mapGet_eq_none_iff m k).mpr (by simpa using hc)
    simp [this] at hg
  simp only [mapSet, hhas, if_true, List.map_map]
  apply List.map_congr_left
  intro e he
  by_cases hek : e.1 = k
  · have hmem := mapGet_some_mem hg
    have : e = (k, st) := by
      rcases e with ⟨k1, s1⟩
      simp only at hek
      subst hek
      have := List.inj_on_of_nodup_map hk he hmem rfl
      exact this
    simp [this, hid]
  · simp [hek]

/-! ## Pruning and eviction -/

theorem sidIn_nil (op : Op) : sidIn [] false op = false := by
  unfold sidIn
  cases opStrokeId op with
  | none => rfl
  | some sid => by_cases h : sid = "" <;> simp [h]

/-- The number of ids `enforceMaxStrokes` evicts. -/
theorem enforceMaxStrokes_eq (s : State) :
    enforceMaxStrokes s =
      { s with
        activeCompletedStrokeIds := s.activeCompletedStrokeIds.drop
          ((s.activeCompletedStrokeIds.length : Int) - s.maxStrokes).toNat
        redoStrokeIds := s.redoStrokeIds.filter (fun id => !decide (id ∈
          s.activeCompletedStrokeIds.take
            ((s.activeCompletedStrokeIds.length : Int) - s.maxStrokes).toNat))
        ops := s.ops.filter (fun op => !sidIn (s.activeCompletedStrokeIds.take
          ((s.activeCompletedStrokeIds.length : Int) - s.maxStrokes).toNat) false op) } := by
  unfold enforceMaxStrokes
  split_ifs with h
  · have h0 : ((s.activeCompletedStrokeIds.length : Int) - s.maxStrokes).toNat = 0 := by
      omega
    simp [h0, sidIn_nil]
  · rfl

theorem enforceMaxStrokes_of_le {s : State}
    (h : (s.activeCompletedStrokeIds.length : Int) ≤ s.maxStrokes) :
    enforceMaxStrokes s = s := by
  simp [enforceMaxStrokes, h]

theorem enforceMaxStrokes_length (s : State) :
    ((enforceMaxStrokes s).activeCompletedStrokeIds.length : Int) ≤ max 0 s.maxStrokes := by
  rw [enforceMaxStrokes_eq]
  simp only [List.length_drop]
  omega

theorem pruneRedoOpsIfRedoCleared_eq (s : State) (prev : List String) :
    pruneRedoOpsIfRedoCleared s prev =
      { s with ops := s.ops.filter (fun op => !sidIn prev false op) } := by
  unfold pruneRedoOpsIfRedoCleared
  split_ifs with h
  · have : prev = [] := by simpa using h
    subst this
    simp [sidIn_nil]
  · rfl

/-! ## The force-completion loop -/

/-- Ids of the entries the loop commits: those with at least two points. -/
theorem forceEndLoop_eq (l : List (String × Stroke)) (s : State) (ended : List String) :
    forceEndLoop l s ended =
      ({ s with
          inProgressBySocket := s.inProgressBySocket.filter
            (fun e => !decide (e.1 ∈ l.map Prod.fst))
          activeCompletedStrokeIds := s.activeCompletedStrokeIds ++
            (l.filter (fun e => decide (2 ≤ e.2.points.length))).map (fun e => e.2.id)
          ops := s.ops ++
            (l.filter (fun e => decide (2 ≤ e.2.points.length))).map (fun e => Op.fin e.2.id) },
        ended ++ (l.filter (fun e => decide (2 ≤ e.2.points.length))).map (fun e => e.2.id)) := by
  induction l generalizing s ended with
  | nil => simp [forceEndLoop]
  | cons e es ih =>
    obtain ⟨k, st⟩ := e
    unfold forceEndLoop
    have hfil : ∀ m : List (String × Stroke),
        (mapDelete m k).filter (fun e => !decide (e.1 ∈ es.map Prod.fst))
          = m.filter (fun e => !decide (e.1 ∈ ((k, st) :: es).map Prod.fst)) := by
      intro m
      simp only [mapDelete, List.filter_filter]
      apply List.filter_congr
      intro e _
      by_cases hk : e.1 = k <;> simp [hk, bne, Bool.and_comm]
    by_cases h2 : 2 ≤ st.points.length
    · simp only [h2, if_true]
      rw [ih]
      simp only [hfil, List.filter_cons, h2, decide_True, if_true, List.map_cons,
        List.append_assoc, List.singleton_append]
    · simp only [h2, if_false]
      rw [ih]
      simp only [hfil, List.filter_cons, h2, decide_False, if_false]
      simp

/-- Ids `forceEndAllInProgress` commits. -/
theorem forceEndAllInProgress_of_idle {s : State} (h : s.inProgressBySocket = []) :
    forceEndAllInProgress s = (s, []) := by
  simp [forceEndAllInProgress, h, forceEndLoop]


theorem forceEndLoop_all (s : State) :
    forceEndLoop s.inProgressBySocket s [] =
      ({ s with
          inProgressBySocket := []
          activeCompletedStrokeIds :=
            s.activeCompletedStrokeIds ++ commitIds s.inProgressBySocket
          ops := s.ops ++ (commitIds s.inProgressBySocket).map Op.fin },
        commitIds s.inProgressBySocket) := by
  rw [forceEndLoop_eq]
  have h1 : s.inProgressBySocket.filter
      (fun e => !decide (e.1 ∈ s.inProgressBySocket.map Prod.fst)) = [] := by
    rw [List.filter_eq_nil_iff]
    intro e he
    simp only [Bool.not_eq_true, Bool.not_eq_false_eq_eq_true, decide_eq_true_eq]
    exact List.mem_map_of_mem Prod.fst he
  simp [h1, commitIds, List.map_map, Function.comp_def]

theorem forceEndAllInProgress_eq (s : State) :
    forceEndAllInProgress s =
      if commitIds s.inProgressBySocket = [] then
        ({ s with inProgressBySocket := [] }, [])
      else
        (bumpVersion (enforceMaxStrokes (pruneRedoOpsIfRedoCleared
          { s with
            inProgressBySocket := []
            activeCompletedStrokeIds :=
              s.activeCompletedStrokeIds ++ commitIds s.inProgressBySocket
            ops := s.ops ++ (commitIds s.inProgressBySocket).map Op.fin
            redoStrokeIds := [] } s.redoStrokeIds)),
          commitIds s.inProgressBySocket) := by
  unfold forceEndAllInProgress
  simp only [forceEndLoop_all]
  split_ifs with h1 h2 h2
  · simp [h2] at h1
  · rfl
  · simp [h2]
  · exact absurd (List.length_pos.mpr h2) h1

theorem forceEndAllInProgress_idle (s : State) :
    (forceEndAllInProgress s).1.inProgressBySocket = [] := by
  rw [forceEndAllInProgress_eq]
  split_ifs
  · rfl
  · simp [bumpVersion, enforceMaxStrokes_eq, pruneRedoOpsIfRedoCleared_eq]

theorem count_commitIds_le (m : List (String × Stroke)) (a : String) :
    (commitIds m).count a ≤ (m.map (fun e => e.2.id)).count a :=
  ((List.filter_sublist m).map _).count_le a

/-! ## The invariant holds in every reachable state -/

theorem Inv.transfer {s t : State} (hs : Inv s) (hnext : s.next ≤ t.next)
    (hcount : ∀ a, (liveIds t).count a ≤ (liveIds s).count a)
    (hops : ∀ op ∈ t.ops, op ∈ s.ops ∨ ∃ id ∈ liveIds s, opStrokeId op = some id)
    (hredo : t.redoStrokeIds ≠ [] → t.inProgressBySocket = [])
    (hcap : ((t.activeCompletedStrokeIds.length + t.redoStrokeIds.length : Nat) : Int)
      ≤ max 0 t.maxStrokes)
    (hkeys : (t.inProgressBySocket.map Prod.fst).Nodup) : Inv t where
  nodup := by
    rw [List.nodup_iff_count_le_one]
    intro a
    exact le_trans (hcount a) (List.nodup_iff_count_le_one.mp hs.nodup a)
  issued := by
    intro id hid
    have h1 : 0 < (liveIds t).count id := List.count_pos_iff.mpr hid
    have h2 : 0 < (liveIds s).count id := lt_of_lt_of_le h1 (hcount id)
    exact (hs.issued id (List.count_pos_iff.mp h2)).mono hnext
  opsIssued := by
    intro op hop id hid
    rcases hops op hop with h | ⟨id2, hmem, he⟩
    · exact (hs.opsIssued op h id hid).mono hnext
    · rw [hid] at he
      cases he
      exact (hs.issued id hmem).mono hnext
  redoIdle := hredo
  capacity := hcap
  keys := hkeys

theorem inv_init (ms mp : Int) : Inv (createDrawingState ms mp) where
  nodup := by simp [liveIds, inProgressIds, createDrawingState]
  issued := by simp [liveIds, inProgressIds, createDrawingState]
  opsIssued := by simp [createDrawingState]
  redoIdle := by simp [createDrawingState]
  capacity := by simp [createDrawingState]
  keys := by simp [createDrawingState]


theorem count_ids_mapDelete_add {m : List (String × Stroke)} {k : String} {st : Stroke}
    (h : mapGet m k = some st) (a : String) :
    ((mapDelete m k).map (fun e => e.2.id)).count a + [st.id].count a
      ≤ (m.map (fun e => e.2.id)).count a := by
  by_cases ha : st.id = a
  · subst ha
    have := count_ids_mapDelete_lt h
    simpa using this
  · have := count_ids_mapDelete_le m k a
    simp [List.count_cons, ha]
    exact this

theorem mem_inProgressIds_of_get {s : State} {k : String} {st : Stroke}
    (h : mapGet s.inProgressBySocket k = some st) : st.id ∈ inProgressIds s :=
  List.mem_map_of_mem (fun e => e.2.id) (mapGet_some_mem h)

theorem mem_liveIds_of_get {s : State} {k : String} {st : Stroke}
    (h : mapGet s.inProgressBySocket k = some st) : st.id ∈ liveIds s :=
  List.mem_append_left _ (mem_inProgressIds_of_get h)

theorem redo_nil_of_get {s : State} (hs : Inv s) {k : String} {st : Stroke}
    (h : mapGet s.inProgressBySocket k = some st) : s.redoStrokeIds = [] := by
  by_contra hc
  have := hs.redoIdle hc
  simp [this, mapGet] at h

theorem inv_endStroke {s : State} (hs : Inv s) (socketId : String) (strokeId : JSVal) :
    Inv (endStroke s socketId strokeId).1 := by
  unfold endStroke
  cases hg : mapGet s.inProgressBySocket socketId with
  | none => exact hs
  | some st =>
    simp only
    split_ifs with h1 h2
    · exact hs
    · refine hs.transfer (le_refl _) ?_ ?_ ?_ hs.capacity (keys_mapDelete_nodup _ hs.keys)
      · intro a
        have := count_ids_mapDelete_le s.inProgressBySocket socketId a
        simp only [liveIds, inProgressIds, bumpVersion, List.count_append] at this ⊢
        omega
      · intro op hop
        simp only [bumpVersion, List.mem_filter] at hop
        exact Or.inl hop.1
      · intro h
        simp only [bumpVersion] at h
        exact absurd (redo_nil_of_get hs hg) h
    · have hredo := redo_nil_of_get hs hg
      refine hs.transfer (by simp [bumpVersion, enforceMaxStrokes_eq]) ?_ ?_ ?_ ?_ ?_
      · intro a
        have h3 := count_ids_mapDelete_add hg a
        have h4 := (List.drop_sublist (((s.activeCompletedStrokeIds ++ [st.id]).length : Int)
          - s.maxStrokes).toNat (s.activeCompletedStrokeIds ++ [st.id])).count_le a
        simp only [liveIds, inProgressIds, bumpVersion, enforceMaxStrokes_eq, hredo,
          List.count_append, List.filter_nil, List.count_nil] at h3 h4 ⊢
        omega
      · intro op hop
        simp only [bumpVersion, enforceMaxStrokes_eq, List.mem_append, List.mem_filter,
          List.mem_singleton] at hop
        rcases hop with h | h
        · exact Or.inl h.1
        · exact Or.inr ⟨st.id, mem_liveIds_of_get hg, by rw [h]; rfl⟩
      · simp [bumpVersion, enforceMaxStrokes_eq, hredo]
      · have := enforceMaxStrokes_length { s with
          inProgressBySocket := mapDelete s.inProgressBySocket socketId
          activeCompletedStrokeIds := s.activeCompletedStrokeIds ++ [st.id] }
        simp only [bumpVersion, enforceMaxStrokes_eq, hredo, List.filter_nil,
          List.length_nil] at this ⊢
        simpa using this
      · simpa [bumpVersion, enforceMaxStrokes_eq] using keys_mapDelete_nodup _ hs.keys


theorem inv_handleDisconnect {s : State} (hs : Inv s) (socketId : String) :
    Inv (handleDisconnect s socketId).1 := by
  unfold handleDisconnect
  cases hg : mapGet s.inProgressBySocket socketId with
  | none => exact hs
  | some st =>
    simp only
    split_ifs with h2
    · refine hs.transfer (le_refl _) ?_ ?_ ?_ hs.capacity (keys_mapDelete_nodup _ hs.keys)
      · intro a
        have := count_ids_mapDelete_le s.inProgressBySocket socketId a
        simp only [liveIds, inProgressIds, bumpVersion, List.count_append] at this ⊢
        omega
      · intro op hop
        simp only [bumpVersion, List.mem_filter] at hop
        exact Or.inl hop.1
      · intro h
        simp only [bumpVersion] at h
        exact absurd (redo_nil_of_get hs hg) h
    · have hredo := redo_nil_of_get hs hg
      refine hs.transfer
        (by simp [bumpVersion, enforceMaxStrokes_eq, pruneRedoOpsIfRedoCleared_eq]) ?_ ?_ ?_ ?_ ?_
      · intro a
        have h3 := count_ids_mapDelete_add hg a
        have h4 := (List.drop_sublist (((s.activeCompletedStrokeIds ++ [st.id]).length : Int)
          - s.maxStrokes).toNat (s.activeCompletedStrokeIds ++ [st.id])).count_le a
        simp only [liveIds, inProgressIds, bumpVersion, enforceMaxStrokes_eq,
          pruneRedoOpsIfRedoCleared_eq, hredo,
          List.count_append, List.filter_nil, List.count_nil] at h3 h4 ⊢
        omega
      · intro op hop
        simp only [bumpVersion, enforceMaxStrokes_eq, pruneRedoOpsIfRedoCleared_eq,
          List.mem_append, List.mem_filter, List.mem_singleton] at hop
        rcases hop with h | h
        · exact Or.inl h.1.1
        · exact Or.inr ⟨st.id, mem_liveIds_of_get hg, by rw [h]; rfl⟩
      · simp [bumpVersion, enforceMaxStrokes_eq, pruneRedoOpsIfRedoCleared_eq]
      · have := enforceMaxStrokes_length { s with
          inProgressBySocket := mapDelete s.inProgressBySocket socketId
          activeCompletedStrokeIds := s.activeCompletedStrokeIds ++ [st.id] }
        simp only [bumpVersion, enforceMaxStrokes_eq, pruneRedoOpsIfRedoCleared_eq,
          List.filter_nil, List.length_nil] at this ⊢
        simpa using this
      · simpa [bumpVersion, enforceMaxStrokes_eq, pruneRedoOpsIfRedoCleared_eq]
          using keys_mapDelete_nodup _ hs.keys

theorem mapHas_of_get {m : List (String × Stroke)} {k : String} {st : Stroke}
    (h : mapGet m k = some st) : mapHas m k = true := by
  by_contra hc
  have := (mapGet_eq_none_iff m k).mpr (by simpa using hc)
  simp [this] at h

/-- The three outcomes of `addPoint`: nothing recorded (a rejection or a duplicate,
state unchanged), or the point appended. -/
theorem addPoint_cases (s : State) (socketId : String) (strokeId point : JSVal) :
    ((addPoint s socketId strokeId point).1 = s ∧
      ∀ p v, (addPoint s socketId strokeId point).2 ≠ .accepted (some p) v) ∨
    ∃ st p, mapGet s.inProgressBySocket socketId = some st ∧ strokeId = .string st.id ∧
      sanitizePoint point = some p ∧ (st.points.length : Int) < s.maxPointsPerStroke ∧
      st.points.getLast? ≠ some p ∧
      addPoint s socketId strokeId point =
        (bumpVersion
          { s with
            inProgressBySocket := mapSet s.inProgressBySocket socketId
              { st with points := st.points ++ [p] }
            ops := s.ops ++ [Op.point st.id p] },
          .accepted (some p) (s.version + 1)) := by
  unfold addPoint
  cases hg : mapGet s.inProgressBySocket socketId with
  | none => left; simp
  | some st =>
    by_cases h1 : JSVal.string st.id ≠ strokeId
    · left; simp [h1]
    · cases hp : sanitizePoint point with
      | none => left; simp [h1]
      | some p =>
        by_cases h2 : s.maxPointsPerStroke ≤ (st.points.length : Int)
        · left; simp [h1, h2]
        · by_cases h3 : st.points.getLast? = some p
          · left; simp [h1, h2, h3]
          · right
            refine ⟨st, p, rfl, (not_not.mp h1).symm, rfl, by omega, h3, ?_⟩
            simp [h1, h2, h3, bumpVersion]

theorem inv_addPoint {s : State} (hs : Inv s) (socketId : String) (strokeId point : JSVal) :
    Inv (addPoint s socketId strokeId point).1 := by
  rcases addPoint_cases s socketId strokeId point with ⟨h, _⟩ | ⟨st, p, hg, _, _, _, _, h⟩
  · rw [h]; exact hs
  · rw [h]
    have hids : (mapSet s.inProgressBySocket socketId
        { st with points := st.points ++ [p] }).map (fun e => e.2.id)
        = s.inProgressBySocket.map (fun e => e.2.id) :=
      ids_mapSet_of_get hs.keys hg rfl
    have hkeys := keys_mapSet_of_has { st with points := st.points ++ [p] }
      (mapHas_of_get hg)
    refine hs.transfer (le_refl _) ?_ ?_ ?_ hs.capacity ?_
    · intro a
      simp only [liveIds, inProgressIds, bumpVersion, hids]
      exact le_refl _
    · intro op hop
      simp only [bumpVersion, List.mem_append, List.mem_singleton] at hop
      rcases hop with h | h
      · exact Or.inl h
      · exact Or.inr ⟨st.id, mem_liveIds_of_get hg, by rw [h]; rfl⟩
    · intro h
      simp only [bumpVersion] at h
      exact absurd (redo_nil_of_get hs hg) h
    · simp only [bumpVersion, hkeys]
      exact hs.keys

theorem inv_forceEndAllInProgress {s : State} (hs : Inv s) :
    Inv (forceEndAllInProgress s).1 := by
  by_cases hip : s.inProgressBySocket = []
  · rw [forceEndAllInProgress_of_idle hip]
    exact hs
  · have hredo : s.redoStrokeIds = [] := by
      by_contra hc
      exact hip (hs.redoIdle hc)
    rw [forceEndAllInProgress_eq]
    split_ifs with hc
    · refine hs.transfer (le_refl _) ?_ ?_ ?_ hs.capacity ?_
      · intro a
        simp only [liveIds, inProgressIds, List.count_append, List.map_nil, List.count_nil]
        omega
      · intro op hop
        exact Or.inl hop
      · intro _
        rfl
      · simp
    · refine hs.transfer
        (by simp [bumpVersion, enforceMaxStrokes_eq, pruneRedoOpsIfRedoCleared_eq]) ?_ ?_ ?_ ?_ ?_
      · intro a
        have h3 := count_commitIds_le s.inProgressBySocket a
        have h4 := (List.drop_sublist
          (((s.activeCompletedStrokeIds ++ commitIds s.inProgressBySocket).length : Int)
          - s.maxStrokes).toNat
          (s.activeCompletedStrokeIds ++ commitIds s.inProgressBySocket)).count_le a
        simp only [liveIds, inProgressIds, bumpVersion, enforceMaxStrokes_eq,
          pruneRedoOpsIfRedoCleared_eq, hredo, List.map_nil,
          List.count_append, List.filter_nil, List.count_nil] at h3 h4 ⊢
        omega
      · intro op hop
        simp only [bumpVersion, enforceMaxStrokes_eq, pruneRedoOpsIfRedoCleared_eq,
          List.mem_append, List.mem_filter, List.mem_map] at hop
        rcases hop.1.1 with h | ⟨id, hid, rfl⟩
        · exact Or.inl h
        · refine Or.inr ⟨id, ?_, rfl⟩
          have : 0 < (commitIds s.inProgressBySocket).count id := List.count_pos_iff.mpr hid
          exact List.mem_append_left _ (List.count_pos_iff.mp
            (lt_of_lt_of_le this (count_commitIds_le _ _)))
      · simp [bumpVersion, enforceMaxStrokes_eq, pruneRedoOpsIfRedoCleared_eq]
      · have := enforceMaxStrokes_length { s with
          inProgressBySocket := []
          activeCompletedStrokeIds :=
            s.activeCompletedStrokeIds ++ commitIds s.inProgressBySocket }
        simp only [bumpVersion, enforceMaxStrokes_eq, pruneRedoOpsIfRedoCleared_eq,
          List.filter_nil, List.length_nil] at this ⊢
        simpa using this
      · simp [bumpVersion, enforceMaxStrokes_eq, pruneRedoOpsIfRedoCleared_eq]


/-- The stroke object `startStroke` creates once its arguments are validated. -/
theorem startStroke_cases (s : State) (socketId userId : String)
    (tool color width point : JSVal) :
    ((startStroke s socketId userId tool color width point).1 = s ∧
      ∃ e, (startStroke s socketId userId tool color width point).2 = .rejected e) ∨
    ∃ safeTool col p0, sanitizeTool tool = some safeTool ∧ sanitizePoint point = some p0 ∧
      mapHas s.inProgressBySocket socketId = false ∧
      ((safeTool = "eraser" ∧ col = "#000000") ∨
        (safeTool ≠ "eraser" ∧ color = .string col ∧ isValidColorString color = true)) ∧
      startStroke s socketId userId tool color width point =
        ({ s with
            redoStrokeIds := []
            next := s.next + 1
            inProgressBySocket := s.inProgressBySocket ++
              [(socketId, ⟨makeStrokeId socketId s.next, userId, safeTool, col,
                clampWidth width 1 60, [p0]⟩)]
            ops := s.ops.filter (fun op => !sidIn s.redoStrokeIds false op) ++
              [Op.start ⟨makeStrokeId socketId s.next, userId, safeTool, col,
                clampWidth width 1 60⟩ p0]
            version := s.version + 1 },
          .accepted ⟨makeStrokeId socketId s.next, userId, safeTool, col,
            clampWidth width 1 60, [p0]⟩ (s.version + 1)) := by
  unfold startStroke
  cases ht : sanitizeTool tool with
  | none => left; simp
  | some safeTool =>
    by_cases he : safeTool = "eraser"
    · cases hp : sanitizePoint point with
      | none => left; simp [he]
      | some p0 =>
        cases hh : mapHas s.inProgressBySocket socketId with
        | true => left; simp [he]
        | false =>
          right
          refine ⟨safeTool, "#000000", p0, rfl, rfl, rfl, Or.inl ⟨he, rfl⟩, ?_⟩
          simp [he, hh, pruneRedoOpsIfRedoCleared_eq, bumpVersion, mapSet, serializeStroke,
            Stroke.header]
    · by_cases hc : isValidColorString color = true
      · cases hp : sanitizePoint point with
        | none => left; simp [he, hc]
        | some p0 =>
          cases hh : mapHas s.inProgressBySocket socketId with
          | true => left; simp [he, hc]
          | false =>
            right
            obtain ⟨col, rfl⟩ : ∃ col, color = .string col := by
              cases color <;> simp [isValidColorString] at hc
              exact ⟨_, rfl⟩
            refine ⟨safeTool, col, p0, rfl, rfl, rfl, Or.inr ⟨he, rfl, hc⟩, ?_⟩
            simp [he, hc, hh, pruneRedoOpsIfRedoCleared_eq, bumpVersion, mapSet,
              serializeStroke, Stroke.header]
      · left; simp [he, hc]

theorem inv_startStroke {s : State} (hs : Inv s) (socketId userId : String)
    (tool color width point : JSVal) :
    Inv (startStroke s socketId userId tool color width point).1 := by
  rcases startStroke_cases s socketId userId tool color width point with
    ⟨h, _⟩ | ⟨safeTool, col, p0, _, _, hh, _, h⟩
  · rw [h]; exact hs
  · rw [h]
    have hfresh := not_issued_fresh s socketId
    have hnot : makeStrokeId socketId s.next ∉ liveIds s := fun hm => hfresh (hs.issued _ hm)
    have hcount : ∀ a, (liveIds s).count a ≤ 1 := List.nodup_iff_count_le_one.mp hs.nodup
    have hmono : ∀ id, Issued s id → Issued { s with next := s.next + 1 } id :=
      fun id hi => hi.mono (Nat.le_succ _)
    constructor
    · rw [List.nodup_iff_count_le_one]
      intro a
      have h1 := hcount a
      by_cases ha : a = makeStrokeId socketId s.next
      · subst ha
        have h0 := List.count_eq_zero_of_not_mem hnot
        simp only [liveIds, inProgressIds, List.count_append, List.map_append, List.map_cons,
          List.map_nil, List.count_cons_self, List.count_nil] at h0 ⊢
        omega
      · have hne : (makeStrokeId socketId s.next == a) = false := by
          simpa using fun h => ha h.symm
        simp only [liveIds, inProgressIds, List.count_append, List.map_append, List.map_cons,
          List.map_nil, List.count_cons, List.count_nil, hne] at h1 ⊢
        simp only [Bool.false_eq_true, if_false]
        omega
    · intro id hid
      simp only [liveIds, inProgressIds, List.map_append, List.map_cons, List.map_nil,
        List.mem_append, List.mem_singleton, List.append_nil, List.not_mem_nil,
        or_false] at hid
      rcases hid with (h1 | h1) | h1
      · exact (hs.issued id (List.mem_append_left _ h1)).mono (Nat.le_succ _)
      · exact ⟨socketId, s.next, Nat.lt_succ_self _, h1⟩
      · exact (hs.issued id (List.mem_append_right _ (List.mem_append_left _ h1))).mono
          (Nat.le_succ _)
    · intro op hop id hid
      simp only [List.mem_append, List.mem_filter, List.mem_singleton] at hop
      rcases hop with h1 | h1
      · exact (hs.opsIssued op h1.1 id hid).mono (Nat.le_succ _)
      · subst h1
        simp only [opStrokeId, Option.some.injEq] at hid
        exact ⟨socketId, s.next, Nat.lt_succ_self _, hid.symm⟩
    · intro h1
      exact absurd rfl h1
    · have := hs.capacity
      simp only [List.length_nil, Nat.add_zero] at this ⊢
      omega
    · simp only [List.map_append, List.map_cons, List.map_nil]
      rw [List.nodup_append]
      refine ⟨hs.keys, by simp, ?_⟩
      intro k hk1 hk2
      simp only [List.mem_singleton] at hk2
      subst hk2
      have := (mapHas_iff s.inProgressBySocket k).mpr hk1
      simp [this] at hh

theorem inv_undo {s : State} (hs : Inv s) : Inv (undo s).1 := by
  have h1 := inv_forceEndAllInProgress hs
  have hidle := forceEndAllInProgress_idle s
  unfold undo
  simp only
  generalize (forceEndAllInProgress s).1 = t at h1 hidle
  split_ifs with h0
  · exact h1
  · cases hl : t.activeCompletedStrokeIds.getLast? with
    | none => exact h1
    | some lastId =>
      simp only
      have hsplit : t.activeCompletedStrokeIds
          = t.activeCompletedStrokeIds.dropLast ++ [lastId] := by
        have hne : t.activeCompletedStrokeIds ≠ [] := by
          intro hc; simp [hc] at hl
        rw [List.getLast?_eq_getLast _ hne] at hl
        simp only [Option.some.injEq] at hl
        rw [← hl, List.dropLast_append_getLast]
      refine h1.transfer (le_refl _) ?_ ?_ ?_ ?_ ?_
      · intro a
        have : (liveIds t).count a = (inProgressIds t).count a +
            ((t.activeCompletedStrokeIds.dropLast ++ [lastId]).count a
              + t.redoStrokeIds.count a) := by
          rw [← hsplit]; simp [liveIds, List.count_append]
        rw [this]
        simp only [liveIds, inProgressIds, bumpVersion, List.count_append]
        omega
      · intro op hop
        exact Or.inl hop
      · intro _
        exact hidle
      · have hc := h1.capacity
        have hlen := congrArg List.length hsplit
        simp only [List.length_append, List.length_singleton] at hlen
        simp only [bumpVersion, List.length_append, List.length_singleton] at hc ⊢
        omega
      · simp only [bumpVersion]
        exact h1.keys

theorem inv_redo {s : State} (hs : Inv s) : Inv (redo s).1 := by
  have h1 := inv_forceEndAllInProgress hs
  have hidle := forceEndAllInProgress_idle s
  unfold redo
  simp only
  generalize (forceEndAllInProgress s).1 = t at h1 hidle
  split_ifs with h0
  · exact h1
  · cases hl : t.redoStrokeIds.getLast? with
    | none => exact h1
    | some id =>
      simp only
      have hsplit : t.redoStrokeIds = t.redoStrokeIds.dropLast ++ [id] := by
        have hne : t.redoStrokeIds ≠ [] := by
          intro hc; simp [hc] at hl
        rw [List.getLast?_eq_getLast _ hne] at hl
        simp only [Option.some.injEq] at hl
        rw [← hl, List.dropLast_append_getLast]
      have hlen := congrArg List.length hsplit
      simp only [List.length_append, List.length_singleton] at hlen
      refine h1.transfer (by simp [bumpVersion, enforceMaxStrokes_eq]) ?_ ?_ ?_ ?_ ?_
      · intro a
        have : (liveIds t).count a = (inProgressIds t).count a +
            (t.activeCompletedStrokeIds.count a
              + (t.redoStrokeIds.dropLast ++ [id]).count a) := by
          rw [← hsplit]; simp [liveIds, List.count_append]
        rw [this]
        have h4 := (List.drop_sublist (((t.activeCompletedStrokeIds ++ [id]).length : Int)
          - t.maxStrokes).toNat (t.activeCompletedStrokeIds ++ [id])).count_le a
        have h5 := (List.filter_sublist (p := fun x => !decide (x ∈
          (t.activeCompletedStrokeIds ++ [id]).take
            (((t.activeCompletedStrokeIds ++ [id]).length : Int) - t.maxStrokes).toNat))
          t.redoStrokeIds.dropLast).count_le a
        simp only [liveIds, inProgressIds, bumpVersion, enforceMaxStrokes_eq,
          List.count_append] at h4 h5 ⊢
        omega
      · intro op hop
        simp only [bumpVersion, enforceMaxStrokes_eq, List.mem_filter] at hop
        exact Or.inl hop.1
      · intro _
        simpa [bumpVersion, enforceMaxStrokes_eq] using hidle
      · have hc := h1.capacity
        have h5 := (List.filter_sublist (p := fun x => !decide (x ∈
          (t.activeCompletedStrokeIds ++ [id]).take
            (((t.activeCompletedStrokeIds ++ [id]).length : Int) - t.maxStrokes).toNat))
          t.redoStrokeIds.dropLast).length_le
        simp only [bumpVersion, enforceMaxStrokes_eq, List.length_drop, List.length_append,
          List.length_singleton] at hc h5 ⊢
        omega
      · simp only [bumpVersion, enforceMaxStrokes_eq]
        exact h1.keys

theorem inv_step {s : State} (hs : Inv s) (c : Call) : Inv (step s c) := by
  cases c with
  | startStroke socketId userId tool color width point =>
    exact inv_startStroke hs socketId userId tool color width point
  | addPoint socketId strokeId point => exact inv_addPoint hs socketId strokeId point
  | endStroke socketId strokeId => exact inv_endStroke hs socketId strokeId
  | handleDisconnect socketId => exact inv_handleDisconnect hs socketId
  | undo => exact inv_undo hs
  | redo => exact inv_redo hs

theorem Reachable.inv {s : State} (h : Reachable s) : Inv s := by
  induction h with
  | init ms mp => exact inv_init ms mp
  | step c _ ih => exact inv_step ih c

theorem Reachable.run {s : State} (h : Reachable s) (cs : List Call) :
    Reachable (run s cs) := by
  induction cs generalizing s with
  | nil => exact h
  | cons c cs ih => exact ih (Reachable.step c h)


/-! ## Undo and redo when no stroke is in progress -/

theorem undo_of_idle {s : State} {init : List String} {last : String}
    (hidle : s.inProgressBySocket = [])
    (hact : s.activeCompletedStrokeIds = init ++ [last]) :
    undo s =
      ({ s with
          activeCompletedStrokeIds := init
          redoStrokeIds := s.redoStrokeIds ++ [last]
          version := s.version + 1 },
        ⟨true, true, s.version + 1, none⟩) := by
  unfold undo
  simp [forceEndAllInProgress_of_idle hidle, hact, bumpVersion]

theorem redo_of_idle {s : State} {init : List String} {id : String}
    (hidle : s.inProgressBySocket = [])
    (hredo : s.redoStrokeIds = init ++ [id]) :
    redo s =
      (bumpVersion (enforceMaxStrokes
        { s with
          redoStrokeIds := init
          activeCompletedStrokeIds := s.activeCompletedStrokeIds ++ [id] }),
        ⟨true, true, s.version + 1, none⟩) := by
  unfold redo
  simp [forceEndAllInProgress_of_idle hidle, hredo, bumpVersion, enforceMaxStrokes_eq]

theorem undo_of_empty {s : State} (hidle : s.inProgressBySocket = [])
    (hact : s.activeCompletedStrokeIds = []) :
    undo s = (s, ⟨false, false, s.version, some "Nothing to undo."⟩) := by
  unfold undo
  simp [forceEndAllInProgress_of_idle hidle, hact]

theorem redo_of_empty {s : State} (hidle : s.inProgressBySocket = [])
    (hredo : s.redoStrokeIds = []) :
    redo s = (s, ⟨false, false, s.version, some "Nothing to redo."⟩) := by
  unfold redo
  simp [forceEndAllInProgress_of_idle hidle, hredo]

theorem eq_dropLast_append_getLast {α : Type} {l : List α} (h : l ≠ []) :
    l = l.dropLast ++ [l.getLast h] :=
  (List.dropLast_append_getLast h).symm

/-! ## Outcomes of the calls -/

theorem enforceMaxStrokes_eq_overflow (s : State) :
    enforceMaxStrokes s =
      { s with
        activeCompletedStrokeIds := s.activeCompletedStrokeIds.drop
          (overflow s.activeCompletedStrokeIds s.maxStrokes)
        redoStrokeIds := s.redoStrokeIds.filter (fun id => !decide (id ∈
          s.activeCompletedStrokeIds.take (overflow s.activeCompletedStrokeIds s.maxStrokes)))
        ops := s.ops.filter (fun op => !sidIn (s.activeCompletedStrokeIds.take
          (overflow s.activeCompletedStrokeIds s.maxStrokes)) false op) } :=
  enforceMaxStrokes_eq s

/-- The three outcomes of `endStroke`: a rejection, the discard of a stroke with fewer
than two points, or the commit of a stroke with at least two. -/
theorem endStroke_cases (s : State) (socketId : String) (strokeId : JSVal) :
    ((endStroke s socketId strokeId).1 = s ∧
      ∃ e, (endStroke s socketId strokeId).2 = .rejected e) ∨
    (∃ st, mapGet s.inProgressBySocket socketId = some st ∧ strokeId = .string st.id ∧
      st.points.length < 2 ∧
      endStroke s socketId strokeId =
        ({ s with
            inProgressBySocket := mapDelete s.inProgressBySocket socketId
            ops := s.ops.filter (fun op => opStrokeId op != some st.id)
            version := s.version + 1 },
          .accepted none (s.version + 1))) ∨
    (∃ st, mapGet s.inProgressBySocket socketId = some st ∧ strokeId = .string st.id ∧
      2 ≤ st.points.length ∧
      endStroke s socketId strokeId =
        ({ s with
            inProgressBySocket := mapDelete s.inProgressBySocket socketId
            activeCompletedStrokeIds := (s.activeCompletedStrokeIds ++ [st.id]).drop
              (overflow (s.activeCompletedStrokeIds ++ [st.id]) s.maxStrokes)
            redoStrokeIds := s.redoStrokeIds.filter (fun id => !decide (id ∈
              (s.activeCompletedStrokeIds ++ [st.id]).take
                (overflow (s.activeCompletedStrokeIds ++ [st.id]) s.maxStrokes)))
            ops := s.ops.filter (fun op => !sidIn ((s.activeCompletedStrokeIds ++ [st.id]).take
                (overflow (s.activeCompletedStrokeIds ++ [st.id]) s.maxStrokes)) false op)
              ++ [Op.fin st.id]
            version := s.version + 1 },
          .accepted (some st) (s.version + 1))) := by
  unfold endStroke
  cases hg : mapGet s.inProgressBySocket socketId with
  | none => left; simp
  | some st =>
    by_cases h1 : JSVal.string st.id ≠ strokeId
    · left; simp [h1]
    · by_cases h2 : st.points.length < 2
      · right; left
        refine ⟨st, rfl, (not_not.mp h1).symm, h2, ?_⟩
        simp [h1, h2, bumpVersion]
      · right; right
        refine ⟨st, rfl, (not_not.mp h1).symm, by omega, ?_⟩
        simp [h1, h2, bumpVersion, enforceMaxStrokes_eq_overflow, serializeStroke]

theorem handleDisconnect_of_none {s : State} {socketId : String}
    (h : mapGet s.inProgressBySocket socketId = none) :
    handleDisconnect s socketId = (s, ⟨none, s.version⟩) := by
  simp [handleDisconnect, h]

/-- In a state where the redo list is empty, `handleDisconnect` acts as `endStroke` with
the id of the connection's stroke. -/
theorem handleDisconnect_eq_endStroke {s : State} {socketId : String} {st : Stroke}
    (hredo : s.redoStrokeIds = [])
    (hg : mapGet s.inProgressBySocket socketId = some st) :
    (handleDisconnect s socketId).1 = (endStroke s socketId (.string st.id)).1 ∧
    (endStroke s socketId (.string st.id)).2 =
      .accepted (handleDisconnect s socketId).2.endedStroke
        (handleDisconnect s socketId).2.version := by
  unfold handleDisconnect endStroke
  simp only [hg, ne_eq, not_true_eq_false, if_false]
  split_ifs with h2
  · exact ⟨rfl, rfl⟩
  · simp only [hredo, pruneRedoOpsIfRedoCleared_eq, sidIn_nil, Bool.not_false,
      List.filter_true]
    exact ⟨trivial, trivial⟩

theorem undo_eq_undo_forceEnd (s : State) : undo s = undo (forceEndAllInProgress s).1 := by
  have h := forceEndAllInProgress_of_idle (forceEndAllInProgress_idle s)
  conv_rhs => unfold undo
  rw [h]
  rfl

theorem redo_eq_redo_forceEnd (s : State) : redo s = redo (forceEndAllInProgress s).1 := by
  have h := forceEndAllInProgress_of_idle (forceEndAllInProgress_idle s)
  conv_rhs => unfold redo
  rw [h]
  rfl

/-- In a state satisfying the invariant the force-completion step has no redo entries to
prune: either the redo list is empty or nothing is in progress. -/
theorem forceEndAllInProgress_of_inv {s : State} (hs : Inv s) :
    (forceEndAllInProgress s).1 =
      if commitIds s.inProgressBySocket = [] then { s with inProgressBySocket := [] }
      else
        { s with
          inProgressBySocket := []
          activeCompletedStrokeIds :=
            (s.activeCompletedStrokeIds ++ commitIds s.inProgressBySocket).drop
              (overflow (s.activeCompletedStrokeIds ++ commitIds s.inProgressBySocket)
                s.maxStrokes)
          redoStrokeIds := []
          ops := (s.ops ++ (commitIds s.inProgressBySocket).map Op.fin).filter
            (fun op => !sidIn ((s.activeCompletedStrokeIds ++
              commitIds s.inProgressBySocket).take
              (overflow (s.activeCompletedStrokeIds ++ commitIds s.inProgressBySocket)
                s.maxStrokes)) false op)
          version := s.version + 1 } := by
  rw [forceEndAllInProgress_eq]
  split_ifs with hc
  · rfl
  · have hip : s.inProgressBySocket ≠ [] := by
      intro h; simp [h, commitIds] at hc
    have hredo : s.redoStrokeIds = [] := by
      by_contra h; exact hip (hs.redoIdle h)
    simp [bumpVersion, enforceMaxStrokes_eq_overflow, pruneRedoOpsIfRedoCleared_eq, hredo,
      sidIn_nil]

/-- In a state satisfying the invariant with nothing in progress, `redo` evicts
nothing. -/
theorem redo_of_idle_inv {s : State} (hs : Inv s) {init : List String} {id : String}
    (hidle : s.inProgressBySocket = [])
    (hredo : s.redoStrokeIds = init ++ [id]) :
    redo s =
      ({ s with
          redoStrokeIds := init
          activeCompletedStrokeIds := s.activeCompletedStrokeIds ++ [id]
          version := s.version + 1 },
        ⟨true, true, s.version + 1, none⟩) := by
  rw [redo_of_idle hidle hredo]
  have hcap := hs.capacity
  rw [hredo] at hcap
  simp only [List.length_append, List.length_singleton] at hcap
  rw [enforceMaxStrokes_of_le (by simp only [List.length_append, List.length_singleton]; omega)]
  rfl

/-! ## Where ids come from -/

theorem StepSources.refl (s : State) : StepSources s s :=
  ⟨le_refl _, fun _ h => Or.inl h, fun _ h => Or.inl h⟩

theorem mem_commitIds {m : List (String × Stroke)} {a : String} (h : a ∈ commitIds m) :
    ∃ e ∈ m, e.2.id = a ∧ 2 ≤ e.2.points.length := by
  simp only [commitIds, List.mem_map, List.mem_filter, decide_eq_true_eq] at h
  obtain ⟨e, ⟨he, h2⟩, rfl⟩ := h
  exact ⟨e, he, rfl, h2⟩

theorem mem_ids_mapDelete {m : List (String × Stroke)} {k a : String}
    (h : a ∈ (mapDelete m k).map (fun e => e.2.id)) : a ∈ m.map (fun e => e.2.id) :=
  ((List.filter_sublist m).map _).subset h

theorem sources_startStroke (s : State) (socketId userId : String)
    (tool color width point : JSVal) :
    StepSources s (startStroke s socketId userId tool color width point).1 := by
  rcases startStroke_cases s socketId userId tool color width point with
    ⟨h, _⟩ | ⟨safeTool, col, p0, _, _, _, _, h⟩
  · rw [h]; exact StepSources.refl s
  · rw [h]
    refine ⟨Nat.le_succ _, ?_, ?_⟩
    · intro a ha
      simp only [inProgressIds, List.map_append, List.map_cons, List.map_nil, List.mem_append,
        List.mem_singleton] at ha
      rcases ha with ha | ha
      · exact Or.inl ha
      · exact Or.inr ⟨socketId, ha⟩
    · intro a ha
      simp only [List.append_nil] at ha
      exact Or.inl (List.mem_append_left _ ha)

theorem sources_addPoint {s : State} (hs : Inv s) (socketId : String)
    (strokeId point : JSVal) :
    StepSources s (addPoint s socketId strokeId point).1 := by
  rcases addPoint_cases s socketId strokeId point with ⟨h, _⟩ | ⟨st, p, hg, _, _, _, _, h⟩
  · rw [h]; exact StepSources.refl s
  · rw [h]
    have hids : (mapSet s.inProgressBySocket socketId
        { st with points := st.points ++ [p] }).map (fun e => e.2.id)
        = s.inProgressBySocket.map (fun e => e.2.id) :=
      ids_mapSet_of_get hs.keys hg rfl
    refine ⟨le_refl _, ?_, ?_⟩
    · intro a ha
      simp only [inProgressIds, bumpVersion, hids] at ha
      exact Or.inl ha
    · intro a ha
      exact Or.inl ha

theorem sources_endStroke (s : State) (socketId : String) (strokeId : JSVal) :
    StepSources s (endStroke s socketId strokeId).1 := by
  rcases endStroke_cases s socketId strokeId with
    ⟨h, _⟩ | ⟨st, hg, _, _, h⟩ | ⟨st, hg, _, h2, h⟩
  · rw [h]; exact StepSources.refl s
  · rw [h]
    exact ⟨le_refl _, fun a ha => Or.inl (mem_ids_mapDelete ha), fun a ha => Or.inl ha⟩
  · rw [h]
    refine ⟨le_refl _, fun a ha => Or.inl (mem_ids_mapDelete ha), ?_⟩
    intro a ha
    simp only [List.mem_append] at ha
    rcases ha with ha | ha
    · have := List.mem_of_mem_drop ha
      simp only [List.mem_append, List.mem_singleton] at this
      rcases this with h1 | h1
      · exact Or.inl (List.mem_append_left _ h1)
      · exact Or.inr ⟨(socketId, st), mapGet_some_mem hg, h1.symm, h2⟩
    · exact Or.inl (List.mem_append_right _ (List.mem_of_mem_filter ha))

theorem sources_handleDisconnect {s : State} (hs : Inv s) (socketId : String) :
    StepSources s (handleDisconnect s socketId).1 := by
  cases hg : mapGet s.inProgressBySocket socketId with
  | none => rw [handleDisconnect_of_none hg]; exact StepSources.refl s
  | some st =>
    rw [(handleDisconnect_eq_endStroke (redo_nil_of_get hs hg) hg).1]
    exact sources_endStroke s socketId _

theorem sources_forceEndAllInProgress {s : State} (hs : Inv s) :
    StepSources s (forceEndAllInProgress s).1 := by
  rw [forceEndAllInProgress_of_inv hs]
  split_ifs with hc
  · exact ⟨le_refl _, fun a ha => by simp [inProgressIds] at ha, fun a ha => Or.inl ha⟩
  · refine ⟨le_refl _, fun a ha => by simp [inProgressIds] at ha, ?_⟩
    intro a ha
    simp only [List.append_nil] at ha
    have := List.mem_of_mem_drop ha
    simp only [List.mem_append] at this
    rcases this with h1 | h1
    · exact Or.inl (List.mem_append_left _ h1)
    · exact Or.inr (mem_commitIds h1)

theorem sources_of_idle_perm {s t u : State} (h : StepSources s t)
    (hip : u.inProgressBySocket = []) (hnext : t.next ≤ u.next)
    (hmem : ∀ a ∈ u.activeCompletedStrokeIds ++ u.redoStrokeIds,
      a ∈ t.activeCompletedStrokeIds ++ t.redoStrokeIds) : StepSources s u :=
  ⟨le_trans h.1 hnext, fun a ha => by simp [inProgressIds, hip] at ha,
    fun a ha => h.2.2 a (hmem a ha)⟩

theorem sources_undo {s : State} (hs : Inv s) : StepSources s (undo s).1 := by
  have h1 := sources_forceEndAllInProgress hs
  have hidle := forceEndAllInProgress_idle s
  rw [undo_eq_undo_forceEnd]
  generalize (forceEndAllInProgress s).1 = t at h1 hidle
  by_cases hne : t.activeCompletedStrokeIds = []
  · rw [undo_of_empty hidle hne]; exact h1
  · rw [undo_of_idle hidle (eq_dropLast_append_getLast hne)]
    refine sources_of_idle_perm h1 hidle (le_refl _) ?_
    intro a ha
    have hsplit := eq_dropLast_append_getLast hne
    rw [hsplit]
    simp only [List.mem_append, List.mem_singleton] at ha ⊢
    tauto

theorem sources_redo {s : State} (hs : Inv s) : StepSources s (redo s).1 := by
  have h1 := sources_forceEndAllInProgress hs
  have hinv := inv_forceEndAllInProgress hs
  have hidle := forceEndAllInProgress_idle s
  rw [redo_eq_redo_forceEnd]
  generalize (forceEndAllInProgress s).1 = t at h1 hidle hinv
  by_cases hne : t.redoStrokeIds = []
  · rw [redo_of_empty hidle hne]; exact h1
  · rw [redo_of_idle_inv hinv hidle (eq_dropLast_append_getLast hne)]
    refine sources_of_idle_perm h1 hidle (le_refl _) ?_
    intro a ha
    have hsplit := eq_dropLast_append_getLast hne
    rw [hsplit]
    simp only [List.mem_append, List.mem_singleton] at ha ⊢
    tauto

theorem sources_step {s : State} (hs : Inv s) (c : Call) : StepSources s (step s c) := by
  cases c with
  | startStroke socketId userId tool color width point =>
    exact sources_startStroke s socketId userId tool color width point
  | addPoint socketId strokeId point => exact sources_addPoint hs socketId strokeId point
  | endStroke socketId strokeId => exact sources_endStroke s socketId strokeId
  | handleDisconnect socketId => exact sources_handleDisconnect hs socketId
  | undo => exact sources_undo hs
  | redo => exact sources_redo hs

/-- An id that was issued and is tracked nowhere stays so after any call. -/
theorem dead_step {s : State} (hs : Inv s) (c : Call) {X : String}
    (hiss : Issued s X) (hdead : X ∉ liveIds s) :
    Issued (step s c) X ∧ X ∉ liveIds (step s c) := by
  obtain ⟨hn, hip, hhist⟩ := sources_step hs c
  refine ⟨hiss.mono hn, ?_⟩
  intro hm
  simp only [liveIds, List.mem_append] at hm hdead
  rcases hm with hm | hm
  · rcases hip X hm with h | ⟨sock, h⟩
    · exact hdead (Or.inl h)
    · exact not_issued_fresh s sock (h ▸ hiss)
  · rcases hhist X (List.mem_append.mpr hm) with h | ⟨e, he, hid, _⟩
    · exact hdead (Or.inr (List.mem_append.mp h))
    · exact hdead (Or.inl (hid ▸ List.mem_map_of_mem (fun e => e.2.id) he))

theorem dead_run {s : State} (hs : Inv s) (cs : List Call) {X : String}
    (hiss : Issued s X) (hdead : X ∉ liveIds s) :
    Issued (run s cs) X ∧ X ∉ liveIds (run s cs) := by
  induction cs generalizing s with
  | nil => exact ⟨hiss, hdead⟩
  | cons c cs ih =>
    obtain ⟨h1, h2⟩ := dead_step hs c hiss hdead
    exact ih (inv_step hs c) h1 h2

/-- The snapshot only holds operations of ids that are visible or in progress. -/
theorem mem_getVisibleOps {s : State} {op : Op} {X : String} (h : op ∈ getVisibleOps s)
    (hid : opStrokeId op = some X) :
    X ∈ s.activeCompletedStrokeIds ∨ X ∈ inProgressIds s := by
  simp only [getVisibleOps, List.mem_filter] at h
  have h2 := h.2
  simp only [sidIn, hid] at h2
  split_ifs at h2 with h3
  · simpa [inProgressIds] using h2

/-! ## Capacity eviction along traces without undo and redo -/

theorem drop_overflow_append (done : List String) (X : String) (N : Int) (hN : 1 ≤ N) :
    (done.drop (done.length - N.toNat) ++ [X]).drop
        (overflow (done.drop (done.length - N.toNat) ++ [X]) N)
      = (done ++ [X]).drop ((done ++ [X]).length - N.toNat) := by
  obtain ⟨n, rfl⟩ : ∃ n : Nat, N = (n : Int) := ⟨N.toNat, by omega⟩
  have hn : 1 ≤ n := by omega
  simp only [overflow, Int.toNat_ofNat, List.length_append, List.length_drop,
    List.length_singleton]
  by_cases hlt : done.length < n
  · have h1 : done.length - n = 0 := by omega
    have h2 : (((done.length - (done.length - n) + 1 : Nat) : Int) - (n : Int)).toNat = 0 := by
      omega
    have h3 : done.length + 1 - n = 0 := by omega
    rw [h2, h1, h3]
    simp
  · have h2 : (((done.length - (done.length - n) + 1 : Nat) : Int) - (n : Int)).toNat = 1 := by
      omega
    rw [h2]
    have h3 : done.length + 1 - n = (done.length - n) + 1 := by omega
    rw [h3]
    have h4 : done.length - n + 1 ≤ done.length := by omega
    rw [List.drop_append_of_le_length h4]
    have h5 : 1 ≤ (done.drop (done.length - n)).length := by
      rw [List.length_drop]; omega
    rw [List.drop_append_of_le_length h5, List.drop_drop]

theorem capInv_startStroke {s : State} {done : List String} (h : CapInv s done)
    (socketId userId : String) (tool color width point : JSVal) :
    CapInv (startStroke s socketId userId tool color width point).1
      (done ++ stepCompleted s (.startStroke socketId userId tool color width point)) := by
  have hno : stepCompleted s (.startStroke socketId userId tool color width point) = [] := by
    simp [stepCompleted, exec, committedStroke]
  rw [hno, List.append_nil]
  have hinv := inv_startStroke h.inv socketId userId tool color width point
  rcases startStroke_cases s socketId userId tool color width point with
    ⟨h1, _⟩ | ⟨safeTool, col, p0, _, _, _, _, h1⟩
  · rw [h1]; exact h
  · rw [h1] at hinv ⊢
    refine ⟨hinv, rfl, h.capPos, h.active, h.nodup,
      fun id hid => (h.issued id hid).mono (Nat.le_succ _), ?_, ?_⟩
    · intro id hid hm
      simp only [inProgressIds, List.map_append, List.map_cons, List.map_nil, List.mem_append,
        List.mem_singleton] at hm
      rcases hm with hm | hm
      · exact h.notInProgress id hid hm
      · exact not_issued_fresh s socketId (hm ▸ h.issued id hid)
    · intro id hid hna op hop hop2
      simp only [List.mem_append, List.mem_filter, List.mem_singleton] at hop
      rcases hop with ⟨hop, _⟩ | hop
      · exact h.purged id hid hna op hop hop2
      · subst hop
        simp only [opStrokeId, Option.some.injEq] at hop2
        exact not_issued_fresh s socketId (hop2 ▸ h.issued id hid)

theorem capInv_addPoint {s : State} {done : List String} (h : CapInv s done)
    (socketId : String) (strokeId point : JSVal) :
    CapInv (addPoint s socketId strokeId point).1
      (done ++ stepCompleted s (.addPoint socketId strokeId point)) := by
  have hno : stepCompleted s (.addPoint socketId strokeId point) = [] := by
    simp [stepCompleted, exec, committedStroke]
  rw [hno, List.append_nil]
  have hinv := inv_addPoint h.inv socketId strokeId point
  rcases addPoint_cases s socketId strokeId point with ⟨h1, _⟩ | ⟨st, p, hg, _, _, _, _, h1⟩
  · rw [h1]; exact h
  · rw [h1] at hinv ⊢
    have hids : (mapSet s.inProgressBySocket socketId
        { st with points := st.points ++ [p] }).map (fun e => e.2.id)
        = s.inProgressBySocket.map (fun e => e.2.id) :=
      ids_mapSet_of_get h.inv.keys hg rfl
    refine ⟨hinv, h.redoNil, h.capPos, h.active, h.nodup, h.issued, ?_, ?_⟩
    · intro id hid hm
      simp only [inProgressIds, bumpVersion, hids] at hm
      exact h.notInProgress id hid hm
    · intro id hid hna op hop hop2
      simp only [bumpVersion, List.mem_append, List.mem_singleton] at hop
      rcases hop with hop | hop
      · exact h.purged id hid hna op hop hop2
      · subst hop
        simp only [opStrokeId, Option.some.injEq] at hop2
        exact h.notInProgress id hid (hop2 ▸ mem_inProgressIds_of_get hg)

theorem capInv_endStroke {s : State} {done : List String} (h : CapInv s done)
    (socketId : String) (strokeId : JSVal) :
    CapInv (endStroke s socketId strokeId).1
      (done ++ stepCompleted s (.endStroke socketId strokeId)) := by
  have hinv := inv_endStroke h.inv socketId strokeId
  rcases endStroke_cases s socketId strokeId with
    ⟨h1, e, h2⟩ | ⟨st, hg, _, _, h1⟩ | ⟨st, hg, _, hpts, h1⟩
  · have hno : stepCompleted s (.endStroke socketId strokeId) = [] := by
      simp [stepCompleted, exec, committedStroke, h2]
    rw [hno, List.append_nil, h1]; exact h
  · have hno : stepCompleted s (.endStroke socketId strokeId) = [] := by
      simp [stepCompleted, exec, committedStroke, h1]
    rw [hno, List.append_nil]
    rw [h1] at hinv ⊢
    refine ⟨hinv, h.redoNil, h.capPos, h.active, h.nodup, h.issued, ?_, ?_⟩
    · intro id hid hm
      exact h.notInProgress id hid (mem_ids_mapDelete hm)
    · intro id hid hna op hop hop2
      exact h.purged id hid hna op (List.mem_of_mem_filter hop) hop2
  · have hyes : stepCompleted s (.endStroke socketId strokeId) = [st.id] := by
      simp [stepCompleted, exec, committedStroke, h1]
    have hX : st.id ∈ inProgressIds s := mem_inProgressIds_of_get hg
    have hXd : st.id ∉ done := fun hm => h.notInProgress _ hm hX
    have hactive : (s.activeCompletedStrokeIds ++ [st.id]).drop
          (overflow (s.activeCompletedStrokeIds ++ [st.id]) s.maxStrokes)
        = (done ++ [st.id]).drop ((done ++ [st.id]).length - s.maxStrokes.toNat) := by
      rw [h.active]
      exact drop_overflow_append done st.id s.maxStrokes h.capPos
    rw [hyes]
    rw [h1] at hinv ⊢
    have hnd : (done ++ [st.id]).Nodup := by
      rw [List.nodup_append]
      refine ⟨h.nodup, List.nodup_singleton _, ?_⟩
      intro a ha hb
      simp only [List.mem_singleton] at hb
      exact hXd (hb ▸ ha)
    have hXnot : st.id ∉ (mapDelete s.inProgressBySocket socketId).map (fun e => e.2.id) := by
      intro hm
      have h1 := count_ids_mapDelete_lt hg
      have h2 : 0 < ((mapDelete s.inProgressBySocket socketId).map
          (fun e => e.2.id)).count st.id := List.count_pos_iff.mpr hm
      have h3 := List.nodup_iff_count_le_one.mp
        (List.nodup_append.mp h.inv.nodup).1 st.id
      simp only [inProgressIds] at h3
      omega
    refine ⟨hinv, by simp [h.redoNil], h.capPos, hactive, hnd, ?_, ?_, ?_⟩
    · intro id hid
      simp only [List.mem_append, List.mem_singleton] at hid
      rcases hid with hid | hid
      · exact h.issued id hid
      · rw [hid]; exact h.inv.issued _ (mem_liveIds_of_get hg)
    · intro id hid hm
      simp only [List.mem_append, List.mem_singleton] at hid
      rcases hid with hid | hid
      · exact h.notInProgress id hid (mem_ids_mapDelete hm)
      · exact hXnot (by rw [← hid]; exact hm)
    · intro id hid hna op hop hop2
      simp only at hna
      have hiss : Issued s id := by
        simp only [List.mem_append, List.mem_singleton] at hid
        rcases hid with hid | hid
        · exact h.issued id hid
        · rw [hid]; exact h.inv.issued _ (mem_liveIds_of_get hg)
      have hidX : id ≠ st.id := by
        intro heq
        apply hna
        rw [hactive, heq]
        have hk : (done ++ [st.id]).length - s.maxStrokes.toNat ≤ done.length := by
          have := h.capPos
          simp only [List.length_append, List.length_singleton]
          omega
        rw [List.drop_append_of_le_length hk]
        simp
      simp only [List.mem_append, List.mem_filter, List.mem_singleton] at hop
      rcases hop with ⟨hop, hkeep⟩ | hop
      · have hidD : id ∈ done := by
          simp only [List.mem_append, List.mem_singleton] at hid
          exact hid.resolve_right hidX
        by_cases hact : id ∈ s.activeCompletedStrokeIds
        · have hmem : id ∈ s.activeCompletedStrokeIds ++ [st.id] :=
            List.mem_append_left _ hact
          rw [← List.take_append_drop
            (overflow (s.activeCompletedStrokeIds ++ [st.id]) s.maxStrokes)
            (s.activeCompletedStrokeIds ++ [st.id]), List.mem_append] at hmem
          rcases hmem with hmem | hmem
          · rw [sidIn_of_ne_empty _ _ hop2 hiss.ne_empty] at hkeep
            simp [hmem] at hkeep
          · exact hna hmem
        · exact h.purged id hidD hact op hop hop2
      · subst hop
        simp only [opStrokeId, Option.some.injEq] at hop2
        exact hidX hop2.symm

theorem capInv_handleDisconnect {s : State} {done : List String} (h : CapInv s done)
    (socketId : String) :
    CapInv (handleDisconnect s socketId).1
      (done ++ stepCompleted s (.handleDisconnect socketId)) := by
  cases hg : mapGet s.inProgressBySocket socketId with
  | none =>
    have hno : stepCompleted s (.handleDisconnect socketId) = [] := by
      simp [stepCompleted, exec, committedStroke, handleDisconnect_of_none hg]
    rw [hno, List.append_nil, handleDisconnect_of_none hg]
    exact h
  | some st =>
    obtain ⟨h1, h2⟩ := handleDisconnect_eq_endStroke h.redoNil hg
    have hsame : stepCompleted s (.handleDisconnect socketId)
        = stepCompleted s (.endStroke socketId (.string st.id)) := by
      simp only [stepCompleted, exec, h2, committedStroke]
      cases (handleDisconnect s socketId).2.endedStroke <;> rfl
    rw [h1, hsame]
    exact capInv_endStroke h socketId _

theorem capInv_run {s : State} {done : List String} (h : CapInv s done) (cs : List Call)
    (hno : ∀ c ∈ cs, isHistoryCall c = false) :
    CapInv (run s cs) (done ++ completedIds s cs) := by
  induction cs generalizing s done with
  | nil => simpa [run, completedIds] using h
  | cons c cs ih =>
    have hc := hno c (List.mem_cons_self _ _)
    have hstep : CapInv (step s c) (done ++ stepCompleted s c) := by
      cases c with
      | startStroke socketId userId tool color width point =>
        exact capInv_startStroke h socketId userId tool color width point
      | addPoint socketId strokeId point => exact capInv_addPoint h socketId strokeId point
      | endStroke socketId strokeId => exact capInv_endStroke h socketId strokeId
      | handleDisconnect socketId => exact capInv_handleDisconnect h socketId
      | undo => simp [isHistoryCall] at hc
      | redo => simp [isHistoryCall] at hc
    have := ih hstep (fun c hc => hno c (List.mem_cons_of_mem _ hc))
    simpa [run, completedIds, List.append_assoc] using this

theorem capInv_init (N mp : Int) (hN : 1 ≤ N) : CapInv (createDrawingState N mp) [] where
  inv := inv_init N mp
  redoNil := rfl
  capPos := hN
  active := by simp [createDrawingState]
  nodup := List.nodup_nil
  issued := by simp
  notInProgress := by simp
  purged := by simp

/-! ## The configured capacity never changes -/

theorem forceEndAllInProgress_maxStrokes (s : State) :
    (forceEndAllInProgress s).1.maxStrokes = s.maxStrokes := by
  rw [forceEndAllInProgress_eq]
  split_ifs <;> simp [bumpVersion, enforceMaxStrokes_eq, pruneRedoOpsIfRedoCleared_eq]

theorem step_maxStrokes (s : State) (c : Call) : (step s c).maxStrokes = s.maxStrokes := by
  cases c with
  | startStroke socketId userId tool color width point =>
    rcases startStroke_cases s socketId userId tool color width point with
      ⟨h, _⟩ | ⟨_, _, _, _, _, _, _, h⟩ <;> simp [step, exec, h]
  | addPoint socketId strokeId point =>
    rcases addPoint_cases s socketId strokeId point with
      ⟨h, _⟩ | ⟨_, _, _, _, _, _, _, h⟩ <;> simp [step, exec, h, bumpVersion]
  | endStroke socketId strokeId =>
    rcases endStroke_cases s socketId strokeId with
      ⟨h, _⟩ | ⟨_, _, _, _, h⟩ | ⟨_, _, _, _, h⟩ <;> simp [step, exec, h]
  | handleDisconnect socketId =>
    simp only [step, exec, handleDisconnect]
    cases mapGet s.inProgressBySocket socketId with
    | none => rfl
    | some st =>
      simp only
      split_ifs <;>
        simp [bumpVersion, enforceMaxStrokes_eq, pruneRedoOpsIfRedoCleared_eq]
  | undo =>
    have h := forceEndAllInProgress_maxStrokes s
    simp only [step, exec, undo]
    split_ifs
    · exact h
    · cases (forceEndAllInProgress s).1.activeCompletedStrokeIds.getLast? with
      | none => exact h
      | some lastId => simpa [bumpVersion] using h
  | redo =>
    have h := forceEndAllInProgress_maxStrokes s
    simp only [step, exec, redo]
    split_ifs
    · exact h
    · cases (forceEndAllInProgress s).1.redoStrokeIds.getLast? with
      | none => exact h
      | some id => simpa [bumpVersion, enforceMaxStrokes_eq] using h

theorem run_maxStrokes (cs : List Call) (s : State) :
    (run s cs).maxStrokes = s.maxStrokes := by
  induction cs generalizing s with
  | nil => rfl
  | cons c cs ih => simp only [run]; rw [ih, step_maxStrokes]

/-! ## The log entries of one stroke -/

theorem opsOf_append (X : String) (l1 l2 : List Op) :
    opsOf X (l1 ++ l2) = opsOf X l1 ++ opsOf X l2 := by
  simp [opsOf]

theorem opsOf_eq_nil {X : String} {ops : List Op}
    (h : ∀ op ∈ ops, opStrokeId op ≠ some X) : opsOf X ops = [] := by
  simp only [opsOf, List.filter_eq_nil_iff, beq_iff_eq]
  exact h

theorem opsOf_filter_of_keep {X : String} {ops : List Op} {q : Op → Bool}
    (h : ∀ op ∈ ops, opStrokeId op = some X → q op = true) :
    opsOf X (ops.filter q) = opsOf X ops := by
  simp only [opsOf, List.filter_filter]
  apply List.filter_congr
  intro op hop
  by_cases hid : opStrokeId op = some X
  · simp [hid, h op hop hid]
  · simp [hid]

theorem opsOf_filter_not_sidIn {X : String} {ops : List Op} {ids : List String}
    (h : X ∉ ids) :
    opsOf X (ops.filter (fun op => !sidIn ids false op)) = opsOf X ops := by
  apply opsOf_filter_of_keep
  intro op _ hid
  simp only [sidIn, hid]
  split_ifs <;> simp [h]

theorem opsOf_filter_sidIn {X : String} {ops : List Op} {ids : List String}
    (h : X ∈ ids) (hne : X ≠ "") :
    opsOf X (ops.filter (fun op => sidIn ids false op)) = opsOf X ops := by
  apply opsOf_filter_of_keep
  intro op _ hid
  rw [sidIn_of_ne_empty _ _ hid hne]
  simpa using h

theorem opsOf_filter_ne {X Y : String} {ops : List Op} (h : X ≠ Y) :
    opsOf X (ops.filter (fun op => opStrokeId op != some Y)) = opsOf X ops := by
  apply opsOf_filter_of_keep
  intro op _ hid
  simp [hid, h]

theorem opsOf_map_fin_of_not_mem {X : String} {ids : List String} (h : X ∉ ids) :
    opsOf X (ids.map Op.fin) = [] := by
  apply opsOf_eq_nil
  intro op hop hid
  simp only [List.mem_map] at hop
  obtain ⟨a, ha, rfl⟩ := hop
  simp only [opStrokeId, Option.some.injEq] at hid
  exact h (hid ▸ ha)

theorem opsOf_cons (X : String) (op : Op) (l : List Op) :
    opsOf X (op :: l) = if opStrokeId op = some X then op :: opsOf X l else opsOf X l := by
  simp only [opsOf, List.filter_cons, beq_iff_eq]

theorem opsOf_map_fin_of_mem {X : String} {ids : List String} (hnd : ids.Nodup)
    (h : X ∈ ids) : opsOf X (ids.map Op.fin) = [Op.fin X] := by
  induction ids with
  | nil => simp at h
  | cons a l ih =>
    have hnd2 := List.nodup_cons.mp hnd
    rw [List.map_cons, opsOf_cons]
    by_cases ha : a = X
    · subst ha
      rw [opsOf_map_fin_of_not_mem hnd2.1]
      simp [opStrokeId]
    · have hX : X ∈ l := by
        simp only [List.mem_cons] at h
        exact h.resolve_left (fun h => ha h.symm)
      rw [ih hnd2.2 hX]
      simp [opStrokeId, ha]

/-! ## The recorded points of a stroke and its log entries -/

theorem Inv.inProgress_not_history {s : State} (hs : Inv s) {X : String}
    (h : X ∈ inProgressIds s) : X ∉ s.activeCompletedStrokeIds ++ s.redoStrokeIds := by
  intro hm
  have hnd := hs.nodup
  simp only [liveIds] at hnd
  exact (List.nodup_append.mp hnd).2.2 h hm

theorem Inv.active_not_redo {s : State} (hs : Inv s) {X : String}
    (h : X ∈ s.activeCompletedStrokeIds) : X ∉ s.redoStrokeIds := by
  intro hm
  have hnd := hs.nodup
  simp only [liveIds] at hnd
  exact (List.nodup_append.mp (List.nodup_append.mp hnd).2.1).2.2 h hm

theorem Inv.inProgress_nodup {s : State} (hs : Inv s) : (inProgressIds s).Nodup := by
  have hnd := hs.nodup
  simp only [liveIds] at hnd
  exact (List.nodup_append.mp hnd).1

theorem Inv.active_nodup {s : State} (hs : Inv s) : s.activeCompletedStrokeIds.Nodup := by
  have hnd := hs.nodup
  simp only [liveIds] at hnd
  exact (List.nodup_append.mp (List.nodup_append.mp hnd).2.1).1

theorem Inv.entry_unique {s : State} (hs : Inv s) {e1 e2 : String × Stroke}
    (h1 : e1 ∈ s.inProgressBySocket) (h2 : e2 ∈ s.inProgressBySocket)
    (hid : e1.2.id = e2.2.id) : e1 = e2 :=
  List.inj_on_of_nodup_map hs.inProgress_nodup h1 h2 hid

theorem opsOf_eq_nil_of_not_issued {s : State} (hs : Inv s) {X : String}
    (h : ¬ Issued s X) : opsOf X s.ops = [] :=
  opsOf_eq_nil (fun op hop hid => h (hs.opsIssued op hop X hid))

theorem track_startStroke {X : String} {s : State} {pts : List Point}
    (h : TrackInv X s pts) (socketId userId : String) (tool color width point : JSVal) :
    TrackInv X (startStroke s socketId userId tool color width point).1
      (pts ++ stepRecorded X s (.startStroke socketId userId tool color width point)) := by
  have hinv := inv_startStroke h.inv socketId userId tool color width point
  rcases startStroke_cases s socketId userId tool color width point with
    ⟨h1, e, h2⟩ | ⟨safeTool, col, p0, _, _, _, _, h1⟩
  · have hno : stepRecorded X s (.startStroke socketId userId tool color width point) = [] := by
      simp [stepRecorded, exec, h2]
    rw [hno, List.append_nil, h1]; exact h
  · have hrec : stepRecorded X s (.startStroke socketId userId tool color width point)
        = if makeStrokeId socketId s.next = X then [p0] else [] := by
      simp [stepRecorded, exec, h1]
    rw [hrec]
    rw [h1] at hinv ⊢
    have hfreshY := not_issued_fresh s socketId
    by_cases hY : makeStrokeId socketId s.next = X
    · subst hY
      have hpts : pts = [] := h.fresh hfreshY
      have hXlive : makeStrokeId socketId s.next ∉ liveIds s :=
        fun hm => hfreshY (h.inv.issued _ hm)
      simp only [if_true, hpts, List.nil_append]
      refine ⟨hinv, ?_, ?_, ?_⟩
      · intro hni
        exact absurd ⟨socketId, s.next, Nat.lt_succ_self _, rfl⟩ hni
      · intro e he hid
        simp only [List.mem_append, List.mem_singleton] at he
        rcases he with he | he
        · exact absurd (List.mem_append_left _
            (hid ▸ List.mem_map_of_mem (fun e => e.2.id) he)) hXlive
        · subst he
          refine ⟨rfl, ⟨makeStrokeId socketId s.next, userId, safeTool, col,
            clampWidth width 1 60⟩, p0, [], rfl, rfl, ?_⟩
          rw [opsOf_append, opsOf_eq_nil, opsOf_cons]
          · simp [opStrokeId, opsOf]
          · intro op hop hop2
            exact hfreshY (h.inv.opsIssued op (List.mem_of_mem_filter hop) _ hop2)
      · intro hm
        simp only [List.append_nil] at hm
        exact absurd (List.mem_append_right _ (List.mem_append_left _ hm)) hXlive
    · simp only [hY, if_false, List.append_nil]
      have hstart : opsOf X [Op.start ⟨makeStrokeId socketId s.next, userId, safeTool, col,
          clampWidth width 1 60⟩ p0] = [] := by
        apply opsOf_eq_nil
        intro op hop hop2
        simp only [List.mem_singleton] at hop
        subst hop
        simp only [opStrokeId, Option.some.injEq] at hop2
        exact hY hop2
      refine ⟨hinv, ?_, ?_, ?_⟩
      · intro hni
        exact h.fresh (fun hi => hni (hi.mono (Nat.le_succ _)))
      · intro e he hid
        simp only [List.mem_append, List.mem_singleton] at he
        rcases he with he | he
        · obtain ⟨hp, hdr, p1, ps, hh, hpp, hops⟩ := h.inProgress e he hid
          refine ⟨hp, hdr, p1, ps, hh, hpp, ?_⟩
          have hXip : X ∈ inProgressIds s := hid ▸ List.mem_map_of_mem (fun e => e.2.id) he
          have hXr : X ∉ s.redoStrokeIds := fun hm =>
            h.inv.inProgress_not_history hXip (List.mem_append_right _ hm)
          rw [opsOf_append, hstart, List.append_nil, opsOf_filter_not_sidIn hXr]
          exact hops
        · subst he
          exact absurd hid hY
      · intro hm
        simp only [List.append_nil] at hm
        obtain ⟨hdr, p1, ps, hh, hne, hpp, hops⟩ := h.completed (List.mem_append_left _ hm)
        refine ⟨hdr, p1, ps, hh, hne, hpp, ?_⟩
        rw [opsOf_append, hstart, List.append_nil,
          opsOf_filter_not_sidIn (h.inv.active_not_redo hm)]
        exact hops

theorem mem_mapSet {m : List (String × Stroke)} {k : String} {v : Stroke}
    {e : String × Stroke} (h : e ∈ mapSet m k v) : e = (k, v) ∨ (e ∈ m ∧ e.1 ≠ k) := by
  unfold mapSet at h
  split_ifs at h with hh
  · simp only [List.mem_map] at h
    obtain ⟨e0, he0, rfl⟩ := h
    by_cases hk : e0.1 = k
    · left; simp [hk]
    · right; simp [hk, he0]
  · simp only [List.mem_append, List.mem_singleton] at h
    rcases h with h | h
    · right
      refine ⟨h, ?_⟩
      intro hk
      exact hh ((mapHas_iff m k).mpr (hk ▸ List.mem_map_of_mem Prod.fst h))
    · left; exact h

theorem track_addPoint {X : String} {s : State} {pts : List Point}
    (h : TrackInv X s pts) (socketId : String) (strokeId point : JSVal) :
    TrackInv X (addPoint s socketId strokeId point).1
      (pts ++ stepRecorded X s (.addPoint socketId strokeId point)) := by
  have hinv := inv_addPoint h.inv socketId strokeId point
  rcases addPoint_cases s socketId strokeId point with
    ⟨h1, hno⟩ | ⟨st, p, hg, hsid, _, _, _, h1⟩
  · have hrec : stepRecorded X s (.addPoint socketId strokeId point) = [] := by
      simp only [stepRecorded, exec]
      cases hr : (addPoint s socketId strokeId point).2 with
      | rejected e => rfl
      | accepted q v =>
        cases q with
        | none => rfl
        | some q => exact absurd hr (hno q v)
    rw [hrec, List.append_nil, h1]; exact h
  · subst hsid
    have hrec : stepRecorded X s (.addPoint socketId (.string st.id) point)
        = if st.id = X then [p] else [] := by
      simp [stepRecorded, exec, h1]
    rw [hrec]
    rw [h1] at hinv ⊢
    have hmem := mapGet_some_mem hg
    have hXip : st.id ∈ inProgressIds s := mem_inProgressIds_of_get hg
    by_cases hY : st.id = X
    · subst hY
      simp only [if_true]
      obtain ⟨hp, hdr, p1, ps, hh, hpp, hops⟩ := h.inProgress (socketId, st) hmem rfl
      refine ⟨hinv, ?_, ?_, ?_⟩
      · intro hni
        exact absurd (h.inv.issued _ (List.mem_append_left _ hXip)) hni
      · intro e he hid
        simp only [bumpVersion] at he
        rcases mem_mapSet he with he | ⟨he, hk⟩
        · subst he
          have hp2 : st.points = pts := hp
          refine ⟨by simp [hp2], hdr, p1, ps ++ [p], hh, by simp [hpp], ?_⟩
          simp only [bumpVersion]
          rw [opsOf_append, hops, opsOf_cons]
          simp [opStrokeId, opsOf]
        · have := h.inv.entry_unique he hmem hid
          exact absurd (by rw [this]) hk
      · intro hm
        exact absurd hm (h.inv.inProgress_not_history hXip)
    · simp only [hY, if_false, List.append_nil]
      have hpoint : opsOf X [Op.point st.id p] = [] := by
        apply opsOf_eq_nil
        intro op hop hop2
        simp only [List.mem_singleton] at hop
        subst hop
        simp only [opStrokeId, Option.some.injEq] at hop2
        exact hY hop2
      refine ⟨hinv, h.fresh, ?_, ?_⟩
      · intro e he hid
        simp only [bumpVersion] at he
        rcases mem_mapSet he with he | ⟨he, _⟩
        · subst he
          exact absurd hid hY
        · obtain ⟨hp, hdr, p1, ps, hh, hpp, hops⟩ := h.inProgress e he hid
          refine ⟨hp, hdr, p1, ps, hh, hpp, ?_⟩
          simp only [bumpVersion]
          rw [opsOf_append, hpoint, List.append_nil]
          exact hops
      · intro hm
        obtain ⟨hdr, p1, ps, hh, hne, hpp, hops⟩ := h.completed hm
        refine ⟨hdr, p1, ps, hh, hne, hpp, ?_⟩
        simp only [bumpVersion]
        rw [opsOf_append, hpoint, List.append_nil]
        exact hops

theorem opsOf_fin_self (X : String) : opsOf X [Op.fin X] = [Op.fin X] := by
  simp [opsOf, opStrokeId]

theorem opsOf_fin_ne {X Y : String} (h : Y ≠ X) : opsOf X [Op.fin Y] = [] := by
  simp [opsOf, opStrokeId, h]

theorem mem_mapDelete {m : List (String × Stroke)} {k : String} {e : String × Stroke} :
    e ∈ mapDelete m k ↔ e ∈ m ∧ e.1 ≠ k := by
  simp [mapDelete]

theorem not_mem_take_of_mem_drop {l : List String} (hnd : l.Nodup) {n : Nat} {x : String}
    (h : x ∈ l.drop n) : x ∉ l.take n := by
  intro ht
  rw [← List.take_append_drop n l] at hnd
  exact (List.nodup_append.mp hnd).2.2 ht h

theorem Inv.active_append_nodup {s : State} (hs : Inv s) {X : String}
    (h : X ∈ inProgressIds s) : (s.activeCompletedStrokeIds ++ [X]).Nodup := by
  rw [List.nodup_append]
  refine ⟨hs.active_nodup, List.nodup_singleton _, ?_⟩
  intro a ha hb
  simp only [List.mem_singleton] at hb
  subst hb
  exact hs.inProgress_not_history h (List.mem_append_left _ ha)

theorem track_endStroke {X : String} {s : State} {pts : List Point}
    (h : TrackInv X s pts) (socketId : String) (strokeId : JSVal) :
    TrackInv X (endStroke s socketId strokeId).1
      (pts ++ stepRecorded X s (.endStroke socketId strokeId)) := by
  have hrec : stepRecorded X s (.endStroke socketId strokeId) = [] := rfl
  rw [hrec, List.append_nil]
  have hinv := inv_endStroke h.inv socketId strokeId
  rcases endStroke_cases s socketId strokeId with
    ⟨h1, _⟩ | ⟨st, hg, _, _, h1⟩ | ⟨st, hg, _, hpts, h1⟩
  · rw [h1]; exact h
  · rw [h1] at hinv ⊢
    have hmem := mapGet_some_mem hg
    have hXip : st.id ∈ inProgressIds s := mem_inProgressIds_of_get hg
    refine ⟨hinv, h.fresh, ?_, ?_⟩
    · intro e he hid
      simp only [mem_mapDelete] at he
      have hne : X ≠ st.id := by
        intro heq
        have := h.inv.entry_unique he.1 hmem (hid.trans heq)
        exact he.2 (by rw [this])
      obtain ⟨hp, hdr, p1, ps, hh, hpp, hops⟩ := h.inProgress e he.1 hid
      refine ⟨hp, hdr, p1, ps, hh, hpp, ?_⟩
      simp only
      rw [opsOf_filter_ne hne]
      exact hops
    · intro hm
      have hne : X ≠ st.id := by
        intro heq
        exact h.inv.inProgress_not_history hXip (heq ▸ hm)
      obtain ⟨hdr, p1, ps, hh, hnn, hpp, hops⟩ := h.completed hm
      refine ⟨hdr, p1, ps, hh, hnn, hpp, ?_⟩
      simp only
      rw [opsOf_filter_ne hne]
      exact hops
  · rw [h1] at hinv ⊢
    have hmem := mapGet_some_mem hg
    have hXip : st.id ∈ inProgressIds s := mem_inProgressIds_of_get hg
    have hredo := redo_nil_of_get h.inv hg
    have hAnd := h.inv.active_append_nodup hXip
    refine ⟨hinv, h.fresh, ?_, ?_⟩
    · intro e he hid
      simp only [mem_mapDelete] at he
      have hne : X ≠ st.id := by
        intro heq
        have := h.inv.entry_unique he.1 hmem (hid.trans heq)
        exact he.2 (by rw [this])
      have hXip2 : X ∈ inProgressIds s :=
        hid ▸ List.mem_map_of_mem (fun e => e.2.id) he.1
      have hnt : X ∉ (s.activeCompletedStrokeIds ++ [st.id]).take
          (overflow (s.activeCompletedStrokeIds ++ [st.id]) s.maxStrokes) := by
        intro hm
        have := List.mem_of_mem_take hm
        simp only [List.mem_append, List.mem_singleton] at this
        rcases this with h3 | h3
        · exact h.inv.inProgress_not_history hXip2 (List.mem_append_left _ h3)
        · exact hne h3
      obtain ⟨hp, hdr, p1, ps, hh, hpp, hops⟩ := h.inProgress e he.1 hid
      refine ⟨hp, hdr, p1, ps, hh, hpp, ?_⟩
      simp only
      rw [opsOf_append, opsOf_filter_not_sidIn hnt, opsOf_fin_ne hne.symm, List.append_nil]
      exact hops
    · intro hm
      simp only [hredo, List.filter_nil, List.append_nil] at hm
      have hnt := not_mem_take_of_mem_drop hAnd hm
      have hmA := List.mem_of_mem_drop hm
      simp only
      rw [opsOf_append, opsOf_filter_not_sidIn hnt]
      by_cases hY : st.id = X
      · subst hY
        obtain ⟨hp, hdr, p1, ps, hh, hpp, hops⟩ := h.inProgress (socketId, st) hmem rfl
        have hp2 : st.points = pts := hp
        have hps : ps ≠ [] := by
          intro hnil
          rw [← hp2] at hpp
          rw [hpp, hnil] at hpts
          simp at hpts
        refine ⟨hdr, p1, ps, hh, hps, hpp, ?_⟩
        rw [opsOf_fin_self, hops]
      · simp only [List.mem_append, List.mem_singleton] at hmA
        have hact : X ∈ s.activeCompletedStrokeIds :=
          hmA.resolve_right (fun h => hY h.symm)
        obtain ⟨hdr, p1, ps, hh, hnn, hpp, hops⟩ :=
          h.completed (List.mem_append_left _ hact)
        refine ⟨hdr, p1, ps, hh, hnn, hpp, ?_⟩
        rw [opsOf_fin_ne hY, List.append_nil]
        exact hops

theorem track_handleDisconnect {X : String} {s : State} {pts : List Point}
    (h : TrackInv X s pts) (socketId : String) :
    TrackInv X (handleDisconnect s socketId).1
      (pts ++ stepRecorded X s (.handleDisconnect socketId)) := by
  have hrec : stepRecorded X s (.handleDisconnect socketId) = [] := rfl
  rw [hrec, List.append_nil]
  cases hg : mapGet s.inProgressBySocket socketId with
  | none => rw [handleDisconnect_of_none hg]; exact h
  | some st =>
    rw [(handleDisconnect_eq_endStroke (redo_nil_of_get h.inv hg) hg).1]
    have := track_endStroke h socketId (.string st.id)
    have hrec2 : stepRecorded X s (.endStroke socketId (.string st.id)) = [] := rfl
    rw [hrec2, List.append_nil] at this
    exact this

theorem commitIds_sublist (m : List (String × Stroke)) :
    (commitIds m).Sublist (m.map (fun e => e.2.id)) :=
  (List.filter_sublist m).map _

theorem Inv.active_append_commitIds_nodup {s : State} (hs : Inv s) :
    (s.activeCompletedStrokeIds ++ commitIds s.inProgressBySocket).Nodup := by
  rw [List.nodup_append]
  refine ⟨hs.active_nodup, hs.inProgress_nodup.sublist (commitIds_sublist _), ?_⟩
  intro a ha hb
  exact hs.inProgress_not_history ((commitIds_sublist _).subset hb)
    (List.mem_append_left _ ha)

theorem track_forceEndAllInProgress {X : String} {s : State} {pts : List Point}
    (h : TrackInv X s pts) : TrackInv X (forceEndAllInProgress s).1 pts := by
  have hinv := inv_forceEndAllInProgress h.inv
  rw [forceEndAllInProgress_of_inv h.inv] at hinv ⊢
  split_ifs at hinv ⊢ with hc
  · exact ⟨hinv, h.fresh, fun e he => by simp at he, h.completed⟩
  · refine ⟨hinv, h.fresh, fun e he => by simp at he, ?_⟩
    intro hm
    simp only [List.append_nil] at hm
    have hAnd := h.inv.active_append_commitIds_nodup
    have hnt := not_mem_take_of_mem_drop hAnd hm
    have hmA := List.mem_of_mem_drop hm
    simp only
    rw [opsOf_filter_not_sidIn hnt, opsOf_append]
    simp only [List.mem_append] at hmA
    rcases hmA with hact | hC
    · have hXC : X ∉ commitIds s.inProgressBySocket := by
        intro hC
        exact h.inv.inProgress_not_history ((commitIds_sublist _).subset hC)
          (List.mem_append_left _ hact)
      obtain ⟨hdr, p1, ps, hh, hnn, hpp, hops⟩ :=
        h.completed (List.mem_append_left _ hact)
      refine ⟨hdr, p1, ps, hh, hnn, hpp, ?_⟩
      rw [opsOf_map_fin_of_not_mem hXC, List.append_nil]
      exact hops
    · obtain ⟨e, he, hid, h2⟩ := mem_commitIds hC
      obtain ⟨hp, hdr, p1, ps, hh, hpp, hops⟩ := h.inProgress e he hid
      have hps : ps ≠ [] := by
        intro hnil
        rw [hp, hpp, hnil] at h2
        simp at h2
      refine ⟨hdr, p1, ps, hh, hps, hpp, ?_⟩
      rw [opsOf_map_fin_of_mem (h.inv.inProgress_nodup.sublist (commitIds_sublist _)) hC,
        hops]

theorem track_undo {X : String} {s : State} {pts : List Point} (h : TrackInv X s pts) :
    TrackInv X (undo s).1 (pts ++ stepRecorded X s .undo) := by
  have hrec : stepRecorded X s .undo = [] := rfl
  rw [hrec, List.append_nil]
  have h1 := track_forceEndAllInProgress h
  have hidle := forceEndAllInProgress_idle s
  have hinv := inv_undo h.inv
  rw [undo_eq_undo_forceEnd] at hinv ⊢
  generalize (forceEndAllInProgress s).1 = t at h1 hidle hinv
  by_cases hne : t.activeCompletedStrokeIds = []
  · rw [undo_of_empty hidle hne]; exact h1
  · have hsplit := eq_dropLast_append_getLast hne
    rw [undo_of_idle hidle hsplit] at hinv ⊢
    refine ⟨hinv, h1.fresh, fun e he => by simp [hidle] at he, ?_⟩
    intro hm
    apply h1.completed
    rw [hsplit]
    simp only [List.mem_append, List.mem_singleton] at hm ⊢
    tauto

theorem track_redo {X : String} {s : State} {pts : List Point} (h : TrackInv X s pts) :
    TrackInv X (redo s).1 (pts ++ stepRecorded X s .redo) := by
  have hrec : stepRecorded X s .redo = [] := rfl
  rw [hrec, List.append_nil]
  have h1 := track_forceEndAllInProgress h
  have hidle := forceEndAllInProgress_idle s
  have hinv := inv_redo h.inv
  rw [redo_eq_redo_forceEnd] at hinv ⊢
  generalize (forceEndAllInProgress s).1 = t at h1 hidle hinv
  by_cases hne : t.redoStrokeIds = []
  · rw [redo_of_empty hidle hne]; exact h1
  · have hsplit := eq_dropLast_append_getLast hne
    rw [redo_of_idle_inv h1.inv hidle hsplit] at hinv ⊢
    refine ⟨hinv, h1.fresh, fun e he => by simp [hidle] at he, ?_⟩
    intro hm
    apply h1.completed
    rw [hsplit]
    simp only [List.mem_append, List.mem_singleton] at hm ⊢
    tauto

theorem track_step {X : String} {s : State} {pts : List Point} (h : TrackInv X s pts)
    (c : Call) : TrackInv X (step s c) (pts ++ stepRecorded X s c) := by
  cases c with
  | startStroke socketId userId tool color width point =>
    exact track_startStroke h socketId userId tool color width point
  | addPoint socketId strokeId point => exact track_addPoint h socketId strokeId point
  | endStroke socketId strokeId => exact track_endStroke h socketId strokeId
  | handleDisconnect socketId => exact track_handleDisconnect h socketId
  | undo => exact track_undo h
  | redo => exact track_redo h

theorem track_run {X : String} {s : State} {pts : List Point} (h : TrackInv X s pts)
    (cs : List Call) : TrackInv X (run s cs) (pts ++ recordedPoints X s cs) := by
  induction cs generalizing s pts with
  | nil => simpa [run, recordedPoints] using h
  | cons c cs ih =>
    have := ih (track_step h c)
    simpa [run, recordedPoints, List.append_assoc] using this

theorem track_init (X : String) (ms mp : Int) : TrackInv X (createDrawingState ms mp) [] where
  inv := inv_init ms mp
  fresh := fun _ => rfl
  inProgress := by simp [createDrawingState]
  completed := by simp [createDrawingState]

theorem undo_idle (s : State) : (undo s).1.inProgressBySocket = [] := by
  have hidle := forceEndAllInProgress_idle s
  unfold undo
  simp only
  split_ifs with h0
  · exact hidle
  · cases hl : (forceEndAllInProgress s).1.activeCompletedStrokeIds.getLast? with
    | none => exact hidle
    | some lastId => exact hidle

theorem undo_changed_redo_ne_nil (s : State) (h : (undo s).2.changed = true) :
    (undo s).1.redoStrokeIds ≠ [] := by
  revert h
  unfold undo
  simp only
  split_ifs with h0
  · simp
  · cases hl : (forceEndAllInProgress s).1.activeCompletedStrokeIds.getLast? with
    | none => simp
    | some lastId => simp [bumpVersion]

/-! ## Validation of the arguments of `startStroke` -/

theorem isValidColorString_iff (color : JSVal) :
    isValidColorString color = true ↔ IsHexColor color := by
  constructor
  · intro h
    cases color with
    | string s =>
      obtain ⟨data⟩ := s
      cases data with
      | nil => simp [isValidColorString] at h
      | cons c ds =>
        by_cases hc : c = '#'
        · subst hc
          simp only [isValidColorString, Bool.and_eq_true, beq_iff_eq, List.all_eq_true] at h
          exact ⟨ds, rfl, h.1, h.2⟩
        · simp only [isValidColorString] at h
          split at h
          · rename_i heq
            simp only [List.cons.injEq] at heq
            exact absurd heq.1 hc
          · exact absurd h (by simp)
    | _ => simp [isValidColorString] at h
  · rintro ⟨ds, rfl, hlen, hall⟩
    simp only [isValidColorString, Bool.and_eq_true, beq_iff_eq, List.all_eq_true]
    exact ⟨hlen, hall⟩

theorem sanitizePoint_eq_none_iff (point : JSVal) :
    sanitizePoint point = none ↔ ¬ IsFinitePoint point := by
  constructor
  · rintro h ⟨x, y, rfl⟩
    simp [sanitizePoint, sanitizeCoord01] at h
  · intro h
    cases point with
    | object px py =>
      cases px <;> cases py <;> simp [sanitizePoint, sanitizeCoord01]
      exact h ⟨_, _, rfl⟩
    | _ => rfl

theorem sanitizeTool_eq_none_iff (tool : JSVal) :
    sanitizeTool tool = none ↔ tool ≠ .string "brush" ∧ tool ≠ .string "eraser" := by
  cases tool with
  | string t =>
    simp only [sanitizeTool, ALLOWED_TOOLS, List.mem_cons, List.mem_singleton, List.not_mem_nil,
      or_false, ne_eq, JSVal.string.injEq]
    split_ifs with h
    · simp only [reduceCtorEq, false_iff, not_and_or, not_not]
      exact h
    · simp only [true_iff]
      exact not_or.mp h
  | _ => simp [sanitizeTool]

theorem sanitizeTool_eq_some {tool : JSVal} {t : String} (h : sanitizeTool tool = some t) :
    tool = .string t ∧ (t = "brush" ∨ t = "eraser") := by
  cases tool with
  | string u =>
    simp only [sanitizeTool, ALLOWED_TOOLS, List.mem_cons, List.mem_singleton, List.not_mem_nil,
      or_false] at h
    split_ifs at h with hu
    simp only [Option.some.injEq] at h
    subst h
    exact ⟨rfl, hu⟩
  | _ => simp [sanitizeTool] at h

theorem startStroke_rejected_iff (s : State) (socketId userId : String)
    (tool color width point : JSVal) :
    (∃ e, (startStroke s socketId userId tool color width point).2 = .rejected e) ↔
      (sanitizeTool tool = none ∨
        (sanitizeTool tool ≠ some "eraser" ∧ isValidColorString color = false) ∨
        sanitizePoint point = none ∨ mapHas s.inProgressBySocket socketId = true) := by
  unfold startStroke
  cases ht : sanitizeTool tool with
  | none => simp
  | some safeTool =>
    by_cases he : safeTool = "eraser"
    · cases hp : sanitizePoint point with
      | none => simp [he]
      | some p0 =>
        cases hh : mapHas s.inProgressBySocket socketId with
        | true => simp [he]
        | false => simp [he, hh]
    · by_cases hc : isValidColorString color = true
      · cases hp : sanitizePoint point with
        | none => simp [he, hc]
        | some p0 =>
          cases hh : mapHas s.inProgressBySocket socketId with
          | true => simp [he, hc]
          | false => simp [he, hc, hh]
      · simp [he, hc]

/-! ## Visible strokes keep their complete log entries -/

theorem run_snoc (s : State) (cs : List Call) (c : Call) :
    run s (cs ++ [c]) = step (run s cs) c := by
  induction cs generalizing s with
  | nil => rfl
  | cons d cs ih => simp only [List.cons_append, run]; exact ih _

/-- Every id in the visible history of a state reached from the empty ledger has its
start, at least one point and its end in the snapshot. -/
theorem snapshot_ops_of_visible (ms mp : Int) (cs : List Call) (X : String)
    (hvis : X ∈ (run (createDrawingState ms mp) cs).activeCompletedStrokeIds) :
    ∃ hdr p1 ps, hdr.id = X ∧ ps ≠ [] ∧
      opsOf X (getSnapshot (run (createDrawingState ms mp) cs)).ops
        = Op.start hdr p1 :: ps.map (Op.point X) ++ [Op.fin X] := by
  have h := track_run (track_init X ms mp) cs
  obtain ⟨hdr, p1, ps, hh, hne, _, hops⟩ := h.completed (List.mem_append_left _ hvis)
  refine ⟨hdr, p1, ps, hh, hne, ?_⟩
  have hiss : Issued (run (createDrawingState ms mp) cs) X :=
    h.inv.issued X (List.mem_append_right _ (List.mem_append_left _ hvis))
  simp only [getSnapshot, getVisibleOps]
  rw [opsOf_filter_sidIn (List.mem_append_left _ hvis) hiss.ne_empty]
  exact hops

/-- A successful `redo` in a state satisfying the invariant: nothing was in progress, the
last id of the redo list moves to the end of the visible history and nothing is
evicted. -/
theorem redo_changed_of_inv {s : State} (hs : Inv s) (hch : (redo s).2.changed = true) :
    ∃ X init, s.redoStrokeIds = init ++ [X] ∧
      (redo s).1.activeCompletedStrokeIds = s.activeCompletedStrokeIds ++ [X] ∧
      (redo s).1.redoStrokeIds = init := by
  by_cases hne : s.redoStrokeIds = []
  · exfalso
    have hidle := forceEndAllInProgress_idle s
    have hredo : (forceEndAllInProgress s).1.redoStrokeIds = [] := by
      rw [forceEndAllInProgress_of_inv hs]
      split_ifs
      · exact hne
      · rfl
    rw [redo_eq_redo_forceEnd, redo_of_empty hidle hredo] at hch
    simp at hch
  · have hidle := hs.redoIdle hne
    have hsplit := eq_dropLast_append_getLast hne
    refine ⟨s.redoStrokeIds.getLast hne, s.redoStrokeIds.dropLast, hsplit, ?_, ?_⟩
    · rw [redo_of_idle_inv hs hidle hsplit]
    · rw [redo_of_idle_inv hs hidle hsplit]

/-! ## Claims -/

/-- C1. Undo/redo round trip: in every reachable state (integer capacity) with a
non-empty visible history and no stroke in progress, `undo()` followed immediately by
`redo()` both report `changed = true` and leave the visible-history list, the redo list
and the operation log exactly as they were before the undo. -/
theorem C1_undo_redo_round_trip (s : State) (hr : Reachable s)
    (hne : s.activeCompletedStrokeIds ≠ []) (hidle : s.inProgressBySocket = []) :
    (undo s).2.changed = true ∧ (redo (undo s).1).2.changed = true ∧
    (redo (undo s).1).1.activeCompletedStrokeIds = s.activeCompletedStrokeIds ∧
    (redo (undo s).1).1.redoStrokeIds = s.redoStrokeIds ∧
    (redo (undo s).1).1.ops = s.ops := by
  have hinv := hr.inv
  have hact := eq_dropLast_append_getLast hne
  have hu := undo_of_idle hidle hact
  rw [hu]
  have hre := @redo_of_idle { s with
      activeCompletedStrokeIds := s.activeCompletedStrokeIds.dropLast
      redoStrokeIds := s.redoStrokeIds ++ [s.activeCompletedStrokeIds.getLast hne]
      version := s.version + 1 } s.redoStrokeIds
      (s.activeCompletedStrokeIds.getLast hne) hidle rfl
  simp only at hre ⊢
  rw [hre, ← hact]
  have hcap := hinv.capacity
  have hpos : 0 < s.activeCompletedStrokeIds.length := List.length_pos.mpr hne
  have hle : (s.activeCompletedStrokeIds.length : Int) ≤ s.maxStrokes := by
    push_cast at hcap
    omega
  rw [enforceMaxStrokes_of_le (by simpa using hle)]
  simp [bumpVersion]

/-- A ledger of capacity 2 after one stroke `start, point, end` on connection `a`. -/
theorem C1_witness :
    (run (createDrawingState 2 100)
      [.startStroke "a" "a" (.string "brush") (.string "#2563eb") (.number 6)
        (.object (.number 0) (.number 0)),
       .addPoint "a" (.string "a:1") (.object (.number 1) (.number 1)),
       .endStroke "a" (.string "a:1")]).activeCompletedStrokeIds = ["a:1"] ∧
    (redo (undo (run (createDrawingState 2 100)
      [.startStroke "a" "a" (.string "brush") (.string "#2563eb") (.number 6)
        (.object (.number 0) (.number 0)),
       .addPoint "a" (.string "a:1") (.object (.number 1) (.number 1)),
       .endStroke "a" (.string "a:1")])).1).1.activeCompletedStrokeIds = ["a:1"] :=
  ⟨by decide,
   (C1_undo_redo_round_trip _ (Reachable.run (Reachable.init 2 100) _)
      (by decide) (by decide)).2.2.1.trans (by decide)⟩

/-- C2. Snapshot fidelity: on a ledger of any configuration and after any sequence of
calls (any interleaving of connections), for every stroke id that is in the visible
history, the points the calls recorded for that stroke (the first point of the accepted
`startStroke`, then the applied point of each accepted, non-duplicate `addPoint`) are
`P1, ..., Pn` with `n ≥ 2`, and the subsequence of `getSnapshot().ops` that references
the id is exactly `start(P1), point(P2), ..., point(Pn), end` in that order. -/
theorem C2_snapshot_fidelity (maxStrokes maxPointsPerStroke : Int) (cs : List Call)
    (X : String)
    (hvis : X ∈ (run (createDrawingState maxStrokes maxPointsPerStroke)
      cs).activeCompletedStrokeIds) :
    ∃ hdr p1 ps, hdr.id = X ∧ ps ≠ [] ∧
      recordedPoints X (createDrawingState maxStrokes maxPointsPerStroke) cs = p1 :: ps ∧
      opsOf X (getSnapshot (run (createDrawingState maxStrokes maxPointsPerStroke) cs)).ops
        = Op.start hdr p1 :: ps.map (Op.point X) ++ [Op.fin X] := by
  have h := track_run (track_init X maxStrokes maxPointsPerStroke) cs
  simp only [List.nil_append] at h
  obtain ⟨hdr, p1, ps, hh, hne, hpp, hops⟩ := h.completed (List.mem_append_left _ hvis)
  refine ⟨hdr, p1, ps, hh, hne, hpp, ?_⟩
  have hiss : Issued (run (createDrawingState maxStrokes maxPointsPerStroke) cs) X :=
    h.inv.issued X (List.mem_append_right _ (List.mem_append_left _ hvis))
  simp only [getSnapshot, getVisibleOps]
  rw [opsOf_filter_sidIn (List.mem_append_left _ hvis) hiss.ne_empty]
  exact hops

/-- Two connections draw interleaved on the default ledger; `a` submits the points
(0,0), (1,1), (1,1) again, then (0,1), and both strokes are completed.  The snapshot
entries of `a:1` are its start, the two recorded points and its end. -/
theorem C2_witness :
    recordedPoints "a:1" (createDrawingState 1000 10000)
        [.startStroke "a" "a" (.string "brush") (.string "#2563eb") (.number 6)
          (.object (.number 0) (.number 0)),
         .startStroke "b" "b" (.string "eraser") .other (.number 6)
          (.object (.number 0) (.number 1)),
         .addPoint "a" (.string "a:1") (.object (.number 1) (.number 1)),
         .addPoint "b" (.string "b:2") (.object (.number 1) (.number 0)),
         .addPoint "a" (.string "a:1") (.object (.number 1) (.number 1)),
         .addPoint "a" (.string "a:1") (.object (.number 0) (.number 1)),
         .endStroke "a" (.string "a:1"),
         .handleDisconnect "b"] = [⟨0, 0⟩, ⟨1, 1⟩, ⟨0, 1⟩] ∧
    ∃ hdr p1 ps, hdr.id = "a:1" ∧ ps ≠ [] ∧
      recordedPoints "a:1" (createDrawingState 1000 10000)
        [.startStroke "a" "a" (.string "brush") (.string "#2563eb") (.number 6)
          (.object (.number 0) (.number 0)),
         .startStroke "b" "b" (.string "eraser") .other (.number 6)
          (.object (.number 0) (.number 1)),
         .addPoint "a" (.string "a:1") (.object (.number 1) (.number 1)),
         .addPoint "b" (.string "b:2") (.object (.number 1) (.number 0)),
         .addPoint "a" (.string "a:1") (.object (.number 1) (.number 1)),
         .addPoint "a" (.string "a:1") (.object (.number 0) (.number 1)),
         .endStroke "a" (.string "a:1"),
         .handleDisconnect "b"] = p1 :: ps ∧
      opsOf "a:1" (getSnapshot (run (createDrawingState 1000 10000)
        [.startStroke "a" "a" (.string "brush") (.string "#2563eb") (.number 6)
          (.object (.number 0) (.number 0)),
         .startStroke "b" "b" (.string "eraser") .other (.number 6)
          (.object (.number 0) (.number 1)),
         .addPoint "a" (.string "a:1") (.object (.number 1) (.number 1)),
         .addPoint "b" (.string "b:2") (.object (.number 1) (.number 0)),
         .addPoint "a" (.string "a:1") (.object (.number 1) (.number 1)),
         .addPoint "a" (.string "a:1") (.object (.number 0) (.number 1)),
         .endStroke "a" (.string "a:1"),
         .handleDisconnect "b"])).ops
        = Op.start hdr p1 :: ps.map (Op.point "a:1") ++ [Op.fin "a:1"] :=
  ⟨by decide, C2_snapshot_fidelity 1000 10000
    [.startStroke "a" "a" (.string "brush") (.string "#2563eb") (.number 6)
      (.object (.number 0) (.number 0)),
     .startStroke "b" "b" (.string "eraser") .other (.number 6)
      (.object (.number 0) (.number 1)),
     .addPoint "a" (.string "a:1") (.object (.number 1) (.number 1)),
     .addPoint "b" (.string "b:2") (.object (.number 1) (.number 0)),
     .addPoint "a" (.string "a:1") (.object (.number 1) (.number 1)),
     .addPoint "a" (.string "a:1") (.object (.number 0) (.number 1)),
     .endStroke "a" (.string "a:1"),
     .handleDisconnect "b"] "a:1" (by decide)⟩

/-- C3. A stroke that ends with fewer than 2 points never becomes visible.  In a
reachable state, let a stroke with fewer than two points be in progress and let a call
(`endStroke`, `handleDisconnect`, or the force-completion step of `undo`/`redo`) end it,
so that it is no longer in progress afterwards.  Then its id is neither in the visible
history nor in the redo list after that call, and after every further sequence of calls
it is still in neither list, not in progress, and no operation of the snapshot
references it. -/
theorem C3_short_stroke_never_visible (s : State) (hr : Reachable s) (c : Call)
    (e : String × Stroke) (he : e ∈ s.inProgressBySocket) (hshort : e.2.points.length < 2)
    (hended : e.2.id ∉ inProgressIds (step s c)) (cs : List Call) :
    e.2.id ∉ (step s c).activeCompletedStrokeIds ∧
    e.2.id ∉ (step s c).redoStrokeIds ∧
    e.2.id ∉ (run (step s c) cs).activeCompletedStrokeIds ∧
    e.2.id ∉ (run (step s c) cs).redoStrokeIds ∧
    e.2.id ∉ inProgressIds (run (step s c) cs) ∧
    ∀ op ∈ (getSnapshot (run (step s c) cs)).ops, opStrokeId op ≠ some e.2.id := by
  have hs := hr.inv
  have hX : e.2.id ∈ inProgressIds s := List.mem_map_of_mem (fun e => e.2.id) he
  have hiss : Issued s e.2.id := hs.issued _ (List.mem_append_left _ hX)
  have hnd := hs.nodup
  simp only [liveIds] at hnd
  have hhist : e.2.id ∉ (step s c).activeCompletedStrokeIds ++ (step s c).redoStrokeIds := by
    intro hm
    rcases (sources_step hs c).2.2 _ hm with h | ⟨e2, he2, hid, h2⟩
    · exact (List.nodup_append.mp hnd).2.2 hX h
    · have hnd1 : (s.inProgressBySocket.map (fun e => e.2.id)).Nodup :=
        (List.nodup_append.mp hnd).1
      have : e2 = e := List.inj_on_of_nodup_map hnd1 he2 he hid
      rw [this] at h2
      omega
  have hdead : e.2.id ∉ liveIds (step s c) := by
    intro hm
    simp only [liveIds, List.mem_append] at hm
    rcases hm with hm | hm
    · exact hended hm
    · exact hhist (List.mem_append.mpr hm)
  have hiss1 : Issued (step s c) e.2.id := hiss.mono (sources_step hs c).1
  obtain ⟨_, hfin⟩ := dead_run (inv_step hs c) cs hiss1 hdead
  simp only [liveIds, List.mem_append, not_or] at hfin
  simp only [List.mem_append, not_or] at hhist
  refine ⟨hhist.1, hhist.2, hfin.2.1, hfin.2.2, hfin.1, ?_⟩
  intro op hop hid
  rcases mem_getVisibleOps hop hid with h | h
  · exact hfin.2.1 h
  · exact hfin.1 h

/-- On the default ledger the one-point stroke `a:1` is force-ended by `undo()`; after a
further `redo()` and a new stroke on the same connection it is still nowhere in the
visible history. -/
theorem C3_witness :
    "a:1" ∉ (run (step (run createDrawingStateDefault
      [.startStroke "a" "a" (.string "brush") (.string "#2563eb") (.number 6)
        (.object (.number 0) (.number 0))]) .undo)
      [.redo,
       .startStroke "a" "a" (.string "brush") (.string "#2563eb") (.number 6)
        (.object (.number 0) (.number 0)),
       .addPoint "a" (.string "a:2") (.object (.number 1) (.number 1)),
       .endStroke "a" (.string "a:2")]).activeCompletedStrokeIds :=
  (C3_short_stroke_never_visible (run createDrawingStateDefault
      [.startStroke "a" "a" (.string "brush") (.string "#2563eb") (.number 6)
        (.object (.number 0) (.number 0))])
    (Reachable.run (Reachable.init 1000 10000) _) .undo
    ("a", ⟨"a:1", "a", "brush", "#2563eb", 6, [⟨0, 0⟩]⟩) (by decide) (by decide) (by decide)
    [.redo,
     .startStroke "a" "a" (.string "brush") (.string "#2563eb") (.number 6)
      (.object (.number 0) (.number 0)),
     .addPoint "a" (.string "a:2") (.object (.number 1) (.number 1)),
     .endStroke "a" (.string "a:2")]).2.2.1

/-- C4. Capacity eviction: on a ledger created with an integer capacity `N ≥ 1`, after
any sequence of calls without `undo` and `redo` along which exactly `N + 1` strokes were
completed (each necessarily with at least 2 points), the visible history is the ids of
the `N` most recently completed strokes in completion order, and neither the log nor the
snapshot contains an operation referencing the oldest completed stroke. -/
theorem C4_capacity_eviction (N : Int) (hN : 1 ≤ N) (maxPointsPerStroke : Int)
    (cs : List Call) (hno : ∀ c ∈ cs, isHistoryCall c = false)
    (hlen : (completedIds (createDrawingState N maxPointsPerStroke) cs).length
      = N.toNat + 1) :
    (run (createDrawingState N maxPointsPerStroke) cs).activeCompletedStrokeIds
      = (completedIds (createDrawingState N maxPointsPerStroke) cs).tail ∧
    ((run (createDrawingState N maxPointsPerStroke) cs).activeCompletedStrokeIds.length : Int)
      = N ∧
    ∀ oldest, (completedIds (createDrawingState N maxPointsPerStroke) cs).head? = some oldest →
      oldest ∉ (run (createDrawingState N maxPointsPerStroke) cs).activeCompletedStrokeIds ∧
      (∀ op ∈ (run (createDrawingState N maxPointsPerStroke) cs).ops,
        opStrokeId op ≠ some oldest) ∧
      (∀ op ∈ (getSnapshot (run (createDrawingState N maxPointsPerStroke) cs)).ops,
        opStrokeId op ≠ some oldest) := by
  have h := capInv_run (capInv_init N maxPointsPerStroke hN) cs hno
  simp only [List.nil_append] at h
  have hms : (run (createDrawingState N maxPointsPerStroke) cs).maxStrokes = N :=
    run_maxStrokes cs _
  generalize completedIds (createDrawingState N maxPointsPerStroke) cs = done at h hlen
  generalize run (createDrawingState N maxPointsPerStroke) cs = t at h hms
  have hact := h.active
  rw [hms, hlen] at hact
  have hone : N.toNat + 1 - N.toNat = 1 := by omega
  rw [hone, List.drop_one] at hact
  refine ⟨hact, ?_, ?_⟩
  · rw [hact, List.length_tail, hlen]
    omega
  · intro oldest hold
    have hdone : done = oldest :: done.tail := by
      cases done with
      | nil => simp at hold
      | cons a l => simp at hold; simp [hold]
    have hnot : oldest ∉ t.activeCompletedStrokeIds := by
      rw [hact]
      have hnd := h.nodup
      rw [hdone] at hnd
      exact (List.nodup_cons.mp hnd).1
    have hmem : oldest ∈ done := by rw [hdone]; exact List.mem_cons_self _ _
    refine ⟨hnot, h.purged oldest hmem hnot, ?_⟩
    intro op hop
    simp only [getSnapshot, getVisibleOps] at hop
    exact h.purged oldest hmem hnot op (List.mem_of_mem_filter hop)

/-- Capacity 1: after the strokes `a:1` and `b:2` are completed in that order, only
`b:2` is visible. -/
theorem C4_witness :
    (run (createDrawingState 1 100)
      [.startStroke "a" "a" (.string "brush") (.string "#2563eb") (.number 6)
        (.object (.number 0) (.number 0)),
       .startStroke "b" "b" (.string "eraser") .other (.number 6)
        (.object (.number 0) (.number 1)),
       .addPoint "a" (.string "a:1") (.object (.number 1) (.number 1)),
       .addPoint "b" (.string "b:2") (.object (.number 1) (.number 0)),
       .endStroke "a" (.string "a:1"),
       .handleDisconnect "b"]).activeCompletedStrokeIds = ["b:2"] :=
  (C4_capacity_eviction 1 (by decide) 100
    [.startStroke "a" "a" (.string "brush") (.string "#2563eb") (.number 6)
      (.object (.number 0) (.number 0)),
     .startStroke "b" "b" (.string "eraser") .other (.number 6)
      (.object (.number 0) (.number 1)),
     .addPoint "a" (.string "a:1") (.object (.number 1) (.number 1)),
     .addPoint "b" (.string "b:2") (.object (.number 1) (.number 0)),
     .endStroke "a" (.string "a:1"),
     .handleDisconnect "b"] (by decide) (by decide)).1.trans (by decide)

/-- C5. Undo acts on whole strokes: in every reachable state with no stroke in progress
and a non-empty visible history, `undo()` returns `changed = true`, removes exactly the
last id from visible history and appends it as the last element of the redo list, leaves
the log untouched, and the snapshot afterwards is the previous snapshot with exactly
that stroke's operations removed. -/
theorem C5_undo_moves_last_stroke (s : State) (hr : Reachable s)
    (hidle : s.inProgressBySocket = []) (hne : s.activeCompletedStrokeIds ≠ []) :
    (undo s).2.changed = true ∧
    (undo s).1.activeCompletedStrokeIds = s.activeCompletedStrokeIds.dropLast ∧
    (undo s).1.redoStrokeIds = s.redoStrokeIds ++ [s.activeCompletedStrokeIds.getLast hne] ∧
    (undo s).1.ops = s.ops ∧
    (undo s).1.inProgressBySocket = [] ∧
    (getSnapshot (undo s).1).ops = (getSnapshot s).ops.filter
      (fun op => opStrokeId op != some (s.activeCompletedStrokeIds.getLast hne)) := by
  have hact := eq_dropLast_append_getLast hne
  rw [undo_of_idle hidle hact]
  refine ⟨rfl, rfl, rfl, rfl, hidle, ?_⟩
  have hnd : (s.activeCompletedStrokeIds.dropLast ++
      [s.activeCompletedStrokeIds.getLast hne]).Nodup := by
    rw [← hact]
    have := hr.inv.nodup
    simp only [liveIds, hidle, inProgressIds, List.map_nil, List.nil_append] at this
    exact (List.nodup_append.mp this).1
  have hnot : s.activeCompletedStrokeIds.getLast hne ∉ s.activeCompletedStrokeIds.dropLast := by
    intro hm
    exact (List.nodup_append.mp hnd).2.2 hm (List.mem_singleton_self _) 
  simp only [getSnapshot, getVisibleOps, hidle, List.map_nil, List.append_nil,
    List.filter_filter]
  apply List.filter_congr
  intro op _
  obtain ⟨id, hid⟩ := opStrokeId_isSome op
  by_cases he : id = ""
  · simp [sidIn, hid, he]
  · rw [sidIn_of_ne_empty _ _ hid he, sidIn_of_ne_empty _ _ hid he, hid]
    have hmem : id ∈ s.activeCompletedStrokeIds ↔
        id ∈ s.activeCompletedStrokeIds.dropLast ∨
          id = s.activeCompletedStrokeIds.getLast hne := by
      conv_lhs => rw [hact]
      simp
    by_cases hl : id = s.activeCompletedStrokeIds.getLast hne
    · have h1 : id ∉ s.activeCompletedStrokeIds.dropLast := hl ▸ hnot
      simp [hl, hnot]
    · simp [hl, hmem]

/-- A ledger of capacity 2 after one stroke `start, point, end` on connection `a`:
undoing it empties the visible history. -/
theorem C5_witness :
    (undo (run (createDrawingState 2 100)
      [.startStroke "a" "a" (.string "brush") (.string "#2563eb") (.number 6)
        (.object (.number 0) (.number 0)),
       .addPoint "a" (.string "a:1") (.object (.number 1) (.number 1)),
       .endStroke "a" (.string "a:1")])).1.activeCompletedStrokeIds = [] :=
  (C5_undo_moves_last_stroke _ (Reachable.run (Reachable.init 2 100) _)
      (by decide) (by decide)).2.1.trans (by decide)

/-- C6. Evaluation of `undo` on the default ledger after one accepted `startStroke` on
connection `a` (a stroke with a single point).  The force-completion step removes the
stroke from the in-progress map and commits nothing, but the stroke's `start`
operation stays in the log, whereas `endStroke` on the same state purges it. -/
theorem C6_force_end_keeps_dropped_ops :
    (undo (run createDrawingStateDefault
      [.startStroke "a" "a" (.string "brush") (.string "#2563eb") (.number 6)
        (.object (.number 0) (.number 0))])).1.ops
      = [Op.start ⟨"a:1", "a", "brush", "#2563eb", 6⟩ ⟨0, 0⟩] ∧
    (undo (run createDrawingStateDefault
      [.startStroke "a" "a" (.string "brush") (.string "#2563eb") (.number 6)
        (.object (.number 0) (.number 0))])).1.inProgressBySocket = [] ∧
    (undo (run createDrawingStateDefault
      [.startStroke "a" "a" (.string "brush") (.string "#2563eb") (.number 6)
        (.object (.number 0) (.number 0))])).1.activeCompletedStrokeIds = [] ∧
    (undo (run createDrawingStateDefault
      [.startStroke "a" "a" (.string "brush") (.string "#2563eb") (.number 6)
        (.object (.number 0) (.number 0))])).1.redoStrokeIds = [] ∧
    (endStroke (run createDrawingStateDefault
      [.startStroke "a" "a" (.string "brush") (.string "#2563eb") (.number 6)
        (.object (.number 0) (.number 0))]) "a" (.string "a:1")).1.ops = [] := by
  decide

/-- C7, as stated, fails.  On the default ledger with a one-point stroke in progress,
`undo()` returns `changed = false` and yet empties the in-progress map; with a two-point
stroke in progress, `redo()` returns `changed = false` and yet commits the stroke:
the log, the visible history and the version all change. -/
theorem C7_counterexample :
    (undo (run createDrawingStateDefault
      [.startStroke "a" "a" (.string "brush") (.string "#2563eb") (.number 6)
        (.object (.number 0) (.number 0))])).2.changed = false ∧
    (undo (run createDrawingStateDefault
      [.startStroke "a" "a" (.string "brush") (.string "#2563eb") (.number 6)
        (.object (.number 0) (.number 0))])).1.inProgressBySocket ≠
    (run createDrawingStateDefault
      [.startStroke "a" "a" (.string "brush") (.string "#2563eb") (.number 6)
        (.object (.number 0) (.number 0))]).inProgressBySocket ∧
    (redo (run createDrawingStateDefault
      [.startStroke "a" "a" (.string "brush") (.string "#2563eb") (.number 6)
        (.object (.number 0) (.number 0)),
       .addPoint "a" (.string "a:1") (.object (.number 1) (.number 1))])).2.changed = false ∧
    (redo (run createDrawingStateDefault
      [.startStroke "a" "a" (.string "brush") (.string "#2563eb") (.number 6)
        (.object (.number 0) (.number 0)),
       .addPoint "a" (.string "a:1") (.object (.number 1) (.number 1))])).1.ops.length = 3 ∧
    (run createDrawingStateDefault
      [.startStroke "a" "a" (.string "brush") (.string "#2563eb") (.number 6)
        (.object (.number 0) (.number 0)),
       .addPoint "a" (.string "a:1") (.object (.number 1) (.number 1))]).ops.length = 2 ∧
    (redo (run createDrawingStateDefault
      [.startStroke "a" "a" (.string "brush") (.string "#2563eb") (.number 6)
        (.object (.number 0) (.number 0)),
       .addPoint "a" (.string "a:1") (.object (.number 1) (.number 1))])).1.activeCompletedStrokeIds
      = ["a:1"] ∧
    (redo (run createDrawingStateDefault
      [.startStroke "a" "a" (.string "brush") (.string "#2563eb") (.number 6)
        (.object (.number 0) (.number 0)),
       .addPoint "a" (.string "a:1") (.object (.number 1) (.number 1))])).1.version = 3 ∧
    (run createDrawingStateDefault
      [.startStroke "a" "a" (.string "brush") (.string "#2563eb") (.number 6)
        (.object (.number 0) (.number 0)),
       .addPoint "a" (.string "a:1") (.object (.number 1) (.number 1))]).version = 2 := by
  decide

/-- C7, amended.  A rejected `undo()` or `redo()` changes nothing beyond the
force-completion step: whenever the call returns `changed = false`, the state after it
is the state `forceEndAllInProgress` leaves; and when no stroke is in progress the whole
state, and therefore the snapshot, is identical before and after the call. -/
theorem C7_rejected_undo_redo (s : State) :
    ((undo s).2.changed = false → (undo s).1 = (forceEndAllInProgress s).1) ∧
    ((redo s).2.changed = false → (redo s).1 = (forceEndAllInProgress s).1) ∧
    (s.inProgressBySocket = [] → (undo s).2.changed = false →
      (undo s).1 = s ∧ getSnapshot (undo s).1 = getSnapshot s) ∧
    (s.inProgressBySocket = [] → (redo s).2.changed = false →
      (redo s).1 = s ∧ getSnapshot (redo s).1 = getSnapshot s) := by
  have hu : (undo s).2.changed = false → (undo s).1 = (forceEndAllInProgress s).1 := by
    unfold undo
    simp only
    split_ifs with h0
    · intro _; rfl
    · cases hl : (forceEndAllInProgress s).1.activeCompletedStrokeIds.getLast? with
      | none => intro _; rfl
      | some lastId => simp
  have hr : (redo s).2.changed = false → (redo s).1 = (forceEndAllInProgress s).1 := by
    unfold redo
    simp only
    split_ifs with h0
    · intro _; rfl
    · cases hl : (forceEndAllInProgress s).1.redoStrokeIds.getLast? with
      | none => intro _; rfl
      | some lastId => simp
  refine ⟨hu, hr, ?_, ?_⟩
  · intro hidle hc
    have := hu hc
    rw [forceEndAllInProgress_of_idle hidle] at this
    rw [this]
    exact ⟨rfl, rfl⟩
  · intro hidle hc
    have := hr hc
    rw [forceEndAllInProgress_of_idle hidle] at this
    rw [this]
    exact ⟨rfl, rfl⟩

/-- On the freshly created default ledger `undo()` is rejected and changes nothing. -/
theorem C7_witness :
    (undo createDrawingStateDefault).2.changed = false ∧
    (undo createDrawingStateDefault).1 = createDrawingStateDefault :=
  ⟨by decide,
   ((C7_rejected_undo_redo createDrawingStateDefault).2.2.1 (by decide) (by decide)).1⟩

/-- C8. Redo is discarded by a new edit: in every reachable state, after a successful
`undo()` an accepted `startStroke` leaves the redo list empty and no log operation of an
undone stroke in the log, and a following `redo()` returns `ok = false`,
`changed = false` with reason `Nothing to redo.` and restores no undone stroke to
visible history. -/
theorem C8_start_discards_redo (s : State) (hr : Reachable s)
    (hu : (undo s).2.changed = true)
    (socketId userId : String) (tool color width point : JSVal) (st : Stroke) (v : Nat)
    (hacc : (startStroke (undo s).1 socketId userId tool color width point).2
      = .accepted st v) :
    (undo s).1.redoStrokeIds ≠ [] ∧
    (startStroke (undo s).1 socketId userId tool color width point).1.redoStrokeIds = [] ∧
    (∀ op ∈ (startStroke (undo s).1 socketId userId tool color width point).1.ops,
      ∀ id ∈ (undo s).1.redoStrokeIds, opStrokeId op ≠ some id) ∧
    (redo (startStroke (undo s).1 socketId userId tool color width point).1).2 =
      ⟨false, false,
        (startStroke (undo s).1 socketId userId tool color width point).1.version,
        some "Nothing to redo."⟩ ∧
    (redo (startStroke (undo s).1 socketId userId tool color width point).1).1.activeCompletedStrokeIds
      = (undo s).1.activeCompletedStrokeIds ∧
    (∀ id ∈ (undo s).1.redoStrokeIds,
      id ∉ (redo (startStroke (undo s).1 socketId userId tool color width
        point).1).1.activeCompletedStrokeIds) := by
  have hinv := inv_undo hr.inv
  have hidle := undo_idle s
  have hne := undo_changed_redo_ne_nil s hu
  generalize (undo s).1 = s1 at hinv hidle hne hacc ⊢
  rcases startStroke_cases s1 socketId userId tool color width point with
    ⟨_, e, he⟩ | ⟨safeTool, col, p0, _, _, _, _, h⟩
  · rw [he] at hacc
    cases hacc
  · rw [h]
    have hredo : (redo { s1 with
        redoStrokeIds := []
        next := s1.next + 1
        inProgressBySocket := s1.inProgressBySocket ++
          [(socketId, ⟨makeStrokeId socketId s1.next, userId, safeTool, col,
            clampWidth width 1 60, [p0]⟩)]
        ops := s1.ops.filter (fun op => !sidIn s1.redoStrokeIds false op) ++
          [Op.start ⟨makeStrokeId socketId s1.next, userId, safeTool, col,
            clampWidth width 1 60⟩ p0]
        version := s1.version + 1 }) =
      ({ s1 with
        redoStrokeIds := []
        next := s1.next + 1
        inProgressBySocket := []
        ops := s1.ops.filter (fun op => !sidIn s1.redoStrokeIds false op) ++
          [Op.start ⟨makeStrokeId socketId s1.next, userId, safeTool, col,
            clampWidth width 1 60⟩ p0]
        version := s1.version + 1 },
        ⟨false, false, s1.version + 1, some "Nothing to redo."⟩) := by
      unfold redo
      simp [forceEndAllInProgress_eq, commitIds, hidle]
    rw [hredo]
    have hdisj : ∀ id ∈ s1.redoStrokeIds, id ∉ s1.activeCompletedStrokeIds := by
      intro id h1 h2
      have hnd := hinv.nodup
      simp only [liveIds] at hnd
      exact (List.nodup_append.mp (List.nodup_append.mp hnd).2.1).2.2 h2 h1
    refine ⟨hne, rfl, ?_, rfl, rfl, hdisj⟩
    intro op hop id hid hop2
    simp only [List.mem_append, List.mem_filter, List.mem_singleton] at hop
    have hiss : Issued s1 id :=
      hinv.issued id (List.mem_append_right _ (List.mem_append_right _ hid))
    rcases hop with ⟨_, h1⟩ | h1
    · rw [sidIn_of_ne_empty _ _ hop2 hiss.ne_empty] at h1
      simp [hid] at h1
    · subst h1
      simp only [opStrokeId, Option.some.injEq] at hop2
      exact not_issued_fresh s1 socketId (hop2 ▸ hiss)

/-- After `start, point, end` and a successful `undo()` on a ledger of capacity 2, a new
stroke on connection `b` is accepted and clears the redo list. -/
theorem C8_witness :
    (startStroke (undo (run (createDrawingState 2 100)
      [.startStroke "a" "a" (.string "brush") (.string "#2563eb") (.number 6)
        (.object (.number 0) (.number 0)),
       .addPoint "a" (.string "a:1") (.object (.number 1) (.number 1)),
       .endStroke "a" (.string "a:1")])).1 "b" "b" (.string "eraser") .other (.number 3)
        (.object (.number 1) (.number 0))).1.redoStrokeIds = [] :=
  (C8_start_discards_redo _ (Reachable.run (Reachable.init 2 100) _) (by decide)
    "b" "b" (.string "eraser") .other (.number 3) (.object (.number 1) (.number 0))
    ⟨"b:2", "b", "eraser", "#000000", 3, [⟨1, 0⟩]⟩ 5 (by decide)).2.1

/-- C9. Connection loss is equivalent to `endStroke`: in every reachable state, for a
connection with an in-progress stroke, `handleDisconnect` yields the same state (log up
to timestamps, visible history, redo list, in-progress map, version) and the same
committed-stroke-or-null result as `endStroke` called with that stroke's id. -/
theorem C9_disconnect_equals_endStroke (s : State) (hr : Reachable s) (socketId : String)
    (st : Stroke) (hg : mapGet s.inProgressBySocket socketId = some st) :
    (handleDisconnect s socketId).1 = (endStroke s socketId (.string st.id)).1 ∧
    (endStroke s socketId (.string st.id)).2 =
      .accepted (handleDisconnect s socketId).2.endedStroke
        (handleDisconnect s socketId).2.version := by
  exact handleDisconnect_eq_endStroke (redo_nil_of_get hr.inv hg) hg

/-- With a two-point stroke in progress on connection `a`, losing the connection and
ending the stroke lead to the same state. -/
theorem C9_witness :
    (handleDisconnect (run createDrawingStateDefault
      [.startStroke "a" "a" (.string "brush") (.string "#2563eb") (.number 6)
        (.object (.number 0) (.number 0)),
       .addPoint "a" (.string "a:1") (.object (.number 1) (.number 1))]) "a").1 =
    (endStroke (run createDrawingStateDefault
      [.startStroke "a" "a" (.string "brush") (.string "#2563eb") (.number 6)
        (.object (.number 0) (.number 0)),
       .addPoint "a" (.string "a:1") (.object (.number 1) (.number 1))]) "a"
      (.string "a:1")).1 :=
  (C9_disconnect_equals_endStroke _ (Reachable.run (Reachable.init 1000 10000) _) "a"
    ⟨"a:1", "a", "brush", "#2563eb", 6, [⟨0, 0⟩, ⟨1, 1⟩]⟩ (by decide)).1

/-- C10, as stated, fails at the point ceiling.  On a ledger created with
`maxPointsPerStroke = 1`, the stroke started on connection `a` already holds one point;
submitting that same point again is rejected, not accepted with a null applied point. -/
theorem C10_counterexample :
    mapGet (run (createDrawingState 1000 1)
      [.startStroke "a" "a" (.string "brush") (.string "#2563eb") (.number 6)
        (.object (.number 0) (.number 0))]).inProgressBySocket "a"
      = some ⟨"a:1", "a", "brush", "#2563eb", 6, [⟨0, 0⟩]⟩ ∧
    sanitizePoint (.object (.number 0) (.number 0)) = some ⟨0, 0⟩ ∧
    (addPoint (run (createDrawingState 1000 1)
      [.startStroke "a" "a" (.string "brush") (.string "#2563eb") (.number 6)
        (.object (.number 0) (.number 0))]) "a" (.string "a:1")
        (.object (.number 0) (.number 0))).2 = .rejected "Too many points in stroke." := by
  decide

/-- C10, amended.  For every in-progress stroke whose point count is below the
configured ceiling, submitting to `addPoint` a point whose normalized coordinates equal
the stroke's last recorded point is accepted with a null applied point and leaves the
whole state (log, point list, version) unchanged; at the ceiling the same call is
rejected with `Too many points in stroke.`, also without changing the state.  Hence
in the scenario `start p1, point p2, point p2, end` with `p1 ≠ p2` on the default ledger
the log is the start, one point and the end. -/
theorem C10_duplicate_point (s : State) (socketId : String) (st : Stroke) (point : JSVal)
    (p : Point) (hg : mapGet s.inProgressBySocket socketId = some st)
    (hp : sanitizePoint point = some p) (hlast : st.points.getLast? = some p) :
    ((st.points.length : Int) < s.maxPointsPerStroke →
      addPoint s socketId (.string st.id) point = (s, .accepted none s.version)) ∧
    (s.maxPointsPerStroke ≤ (st.points.length : Int) →
      addPoint s socketId (.string st.id) point
        = (s, .rejected "Too many points in stroke.")) ∧
    (∀ (sock userId : String) (color width pt1 pt2 : JSVal) (p1 p2 : Point),
      isValidColorString color = true → sanitizePoint pt1 = some p1 →
      sanitizePoint pt2 = some p2 → p1 ≠ p2 →
      ∃ hdr, (run createDrawingStateDefault
        [.startStroke sock userId (.string "brush") color width pt1,
         .addPoint sock (.string (makeStrokeId sock 1)) pt2,
         .addPoint sock (.string (makeStrokeId sock 1)) pt2,
         .endStroke sock (.string (makeStrokeId sock 1))]).ops =
        [Op.start hdr p1, Op.point (makeStrokeId sock 1) p2,
          Op.fin (makeStrokeId sock 1)]) := by
  refine ⟨?_, ?_, ?_⟩
  · intro hlt
    have : ¬ s.maxPointsPerStroke ≤ (st.points.length : Int) := by omega
    simp [addPoint, hg, hp, hlast, this]
  · intro hle
    simp [addPoint, hg, hp, hle]
  · intro sock userId color width pt1 pt2 p1 p2 hc h1 h2 hne
    obtain ⟨col, rfl⟩ : ∃ col, color = .string col := by
      cases color <;> simp [isValidColorString] at hc
      exact ⟨_, rfl⟩
    refine ⟨⟨makeStrokeId sock 1, userId, "brush", col, clampWidth width 1 60⟩, ?_⟩
    have hne2 : ¬ p2 = p1 := fun h => hne h.symm
    simp [run, step, exec, startStroke, addPoint, endStroke, sanitizeTool, ALLOWED_TOOLS, hc,
      h1, h2, mapHas, mapGet, mapSet, mapDelete, createDrawingStateDefault,
      createDrawingState, pruneRedoOpsIfRedoCleared, bumpVersion, serializeStroke,
      Stroke.header, hne, hne2, enforceMaxStrokes]

/-- On the default ledger with the one-point stroke `a:1` in progress, submitting its
only point again is accepted and changes nothing. -/
theorem C10_witness :
    addPoint (run createDrawingStateDefault
      [.startStroke "a" "a" (.string "brush") (.string "#2563eb") (.number 6)
        (.object (.number 0) (.number 0))]) "a" (.string "a:1")
        (.object (.number 0) (.number 0)) =
    (run createDrawingStateDefault
      [.startStroke "a" "a" (.string "brush") (.string "#2563eb") (.number 6)
        (.object (.number 0) (.number 0))], .accepted none 1) :=
  (C10_duplicate_point (run createDrawingStateDefault
      [.startStroke "a" "a" (.string "brush") (.string "#2563eb") (.number 6)
        (.object (.number 0) (.number 0))]) "a"
    ⟨"a:1", "a", "brush", "#2563eb", 6, [⟨0, 0⟩]⟩ (.object (.number 0) (.number 0)) ⟨0, 0⟩
    (by decide) (by decide) (by decide)).1 (by decide)

/-- C11. `startStroke` is rejected if and only if the tool is neither `brush` nor
`eraser`, or the tool is `brush` and the color is not `#` followed by exactly six
hexadecimal digits, or the point is not an object with finite numeric `x` and `y`, or the
connection already has an in-progress stroke.  In every other case (an eraser with any
color value, out-of-range coordinates, any width value) it is accepted and returns the
stroke, with the id made at the current counter, and the new version. -/
theorem C11_startStroke_rejected_iff (s : State) (socketId userId : String)
    (tool color width point : JSVal) :
    ((∃ e, (startStroke s socketId userId tool color width point).2 = .rejected e) ↔
      ((tool ≠ .string "brush" ∧ tool ≠ .string "eraser") ∨
        (tool = .string "brush" ∧ ¬ IsHexColor color) ∨
        ¬ IsFinitePoint point ∨
        mapHas s.inProgressBySocket socketId = true)) ∧
    ((∃ st, (startStroke s socketId userId tool color width point).2 =
        .accepted st (s.version + 1) ∧
        st.id = makeStrokeId socketId s.next ∧
        (startStroke s socketId userId tool color width point).1.version = s.version + 1) ↔
      ¬ ((tool ≠ .string "brush" ∧ tool ≠ .string "eraser") ∨
        (tool = .string "brush" ∧ ¬ IsHexColor color) ∨
        ¬ IsFinitePoint point ∨
        mapHas s.inProgressBySocket socketId = true)) := by
  have hiff : (∃ e, (startStroke s socketId userId tool color width point).2 = .rejected e) ↔
      ((tool ≠ .string "brush" ∧ tool ≠ .string "eraser") ∨
        (tool = .string "brush" ∧ ¬ IsHexColor color) ∨
        ¬ IsFinitePoint point ∨
        mapHas s.inProgressBySocket socketId = true) := by
    rw [startStroke_rejected_iff, sanitizeTool_eq_none_iff, sanitizePoint_eq_none_iff,
      ← isValidColorString_iff]
    have hmid : (sanitizeTool tool ≠ some "eraser" ∧ isValidColorString color = false) →
        (tool ≠ .string "brush" ∧ tool ≠ .string "eraser") ∨
          (tool = .string "brush" ∧ ¬ isValidColorString color = true) := by
      rintro ⟨h1, h2⟩
      cases ht : sanitizeTool tool with
      | none => exact Or.inl ((sanitizeTool_eq_none_iff tool).mp ht)
      | some t =>
        obtain ⟨h3, h4 | h4⟩ := sanitizeTool_eq_some ht
        · right
          exact ⟨by rw [h3, h4], by simp [h2]⟩
        · rw [ht, h4] at h1
          exact absurd rfl h1
    have hmid2 : (tool = .string "brush" ∧ ¬ isValidColorString color = true) →
        (sanitizeTool tool ≠ some "eraser" ∧ isValidColorString color = false) := by
      rintro ⟨h1, h2⟩
      subst h1
      exact ⟨by decide, by simpa using h2⟩
    constructor
    · rintro (h | h | h | h)
      · exact Or.inl h
      · rcases hmid h with h | h
        · exact Or.inl h
        · exact Or.inr (Or.inl h)
      · exact Or.inr (Or.inr (Or.inl h))
      · exact Or.inr (Or.inr (Or.inr h))
    · rintro (h | h | h | h)
      · exact Or.inl h
      · exact Or.inr (Or.inl (hmid2 h))
      · exact Or.inr (Or.inr (Or.inl h))
      · exact Or.inr (Or.inr (Or.inr h))
  refine ⟨hiff, ?_⟩
  rw [← hiff]
  rcases startStroke_cases s socketId userId tool color width point with
    ⟨_, e, he⟩ | ⟨safeTool, col, p0, _, _, _, _, h⟩
  · constructor
    · rintro ⟨st, h1, _⟩
      rw [he] at h1
      cases h1
    · intro h
      exact absurd ⟨e, he⟩ h
  · constructor
    · rintro _ ⟨e, he⟩
      rw [h] at he
      cases he
    · intro _
      rw [h]
      exact ⟨_, rfl, rfl, rfl⟩

/-- On the default ledger an eraser stroke with a non-string color, a non-finite width
and out-of-range coordinates is accepted: the color becomes the sentinel, the width 1
and the point is clamped. -/
theorem C11_witness :
    (startStroke createDrawingStateDefault "a" "a" (.string "eraser") .other .nonFinite
      (.object (.number 5) (.number (-3)))).2 =
      .accepted ⟨"a:1", "a", "eraser", "#000000", 1, [⟨1, 0⟩]⟩ 1 ∧
    ∃ st, (startStroke createDrawingStateDefault "a" "a" (.string "eraser") .other .nonFinite
      (.object (.number 5) (.number (-3)))).2 =
        .accepted st (createDrawingStateDefault.version + 1) ∧
      st.id = makeStrokeId "a" createDrawingStateDefault.next ∧
      (startStroke createDrawingStateDefault "a" "a" (.string "eraser") .other .nonFinite
        (.object (.number 5) (.number (-3)))).1.version
        = createDrawingStateDefault.version + 1 :=
  ⟨by decide,
   (C11_startStroke_rejected_iff createDrawingStateDefault "a" "a" (.string "eraser") .other
      .nonFinite (.object (.number 5) (.number (-3)))).2.mpr (by
        rintro (h | h | h | h)
        · exact h.2 rfl
        · exact absurd h.1 (by decide)
        · exact h ⟨5, -3, rfl⟩
        · exact absurd h (by decide))⟩

/-- C12. Rejections are atomic: in every ledger state, a `startStroke`, `addPoint` or
`endStroke` call that returns a rejection (validation error, stroke-id mismatch, no
in-progress stroke, re-entrant start, point ceiling reached) leaves the whole state
unchanged: log, visible history, redo list, version and the in-progress map with the
connection's open stroke and its recorded points. -/
theorem C12_rejections_atomic (s : State) :
    (∀ (socketId userId : String) (tool color width point : JSVal) (e : String),
      (startStroke s socketId userId tool color width point).2 = .rejected e →
      (startStroke s socketId userId tool color width point).1 = s) ∧
    (∀ (socketId : String) (strokeId point : JSVal) (e : String),
      (addPoint s socketId strokeId point).2 = .rejected e →
      (addPoint s socketId strokeId point).1 = s) ∧
    (∀ (socketId : String) (strokeId : JSVal) (e : String),
      (endStroke s socketId strokeId).2 = .rejected e →
      (endStroke s socketId strokeId).1 = s) := by
  refine ⟨?_, ?_, ?_⟩
  · intro socketId userId tool color width point e he
    rcases startStroke_cases s socketId userId tool color width point with
      ⟨h, _⟩ | ⟨_, _, _, _, _, _, _, h⟩
    · exact h
    · rw [h] at he
      cases he
  · intro socketId strokeId point e he
    rcases addPoint_cases s socketId strokeId point with ⟨h, _⟩ | ⟨_, _, _, _, _, _, _, h⟩
    · exact h
    · rw [h] at he
      cases he
  · intro socketId strokeId e he
    rcases endStroke_cases s socketId strokeId with
      ⟨h, _⟩ | ⟨_, _, _, _, h⟩ | ⟨_, _, _, _, h⟩
    · exact h
    · rw [h] at he
      cases he
    · rw [h] at he
      cases he

/-- With the one-point stroke `a:1` in progress on the default ledger, a second
`startStroke` on connection `a` is rejected and leaves the state as it was. -/
theorem C12_witness :
    (startStroke (run createDrawingStateDefault
      [.startStroke "a" "a" (.string "brush") (.string "#2563eb") (.number 6)
        (.object (.number 0) (.number 0))]) "a" "a" (.string "eraser") .other (.number 3)
        (.object (.number 1) (.number 1))).2 = .rejected "Stroke already in progress." ∧
    (startStroke (run createDrawingStateDefault
      [.startStroke "a" "a" (.string "brush") (.string "#2563eb") (.number 6)
        (.object (.number 0) (.number 0))]) "a" "a" (.string "eraser") .other (.number 3)
        (.object (.number 1) (.number 1))).1 =
    run createDrawingStateDefault
      [.startStroke "a" "a" (.string "brush") (.string "#2563eb") (.number 6)
        (.object (.number 0) (.number 0))] :=
  ⟨by decide,
   (C12_rejections_atomic (run createDrawingStateDefault
      [.startStroke "a" "a" (.string "brush") (.string "#2563eb") (.number 6)
        (.object (.number 0) (.number 0))])).1 "a" "a" (.string "eraser") .other (.number 3)
      (.object (.number 1) (.number 1)) "Stroke already in progress." (by decide)⟩

/-- C13. Evaluation of `undo` on the default ledger after one accepted `startStroke` on
connection `a`: the call empties the in-progress map, so the state changes, and the
version stays at 1.  `endStroke` on the same state discards the same stroke and bumps
the version to 2. -/
theorem C13_force_end_drop_keeps_version :
    (run createDrawingStateDefault
      [.startStroke "a" "a" (.string "brush") (.string "#2563eb") (.number 6)
        (.object (.number 0) (.number 0))]).version = 1 ∧
    (run createDrawingStateDefault
      [.startStroke "a" "a" (.string "brush") (.string "#2563eb") (.number 6)
        (.object (.number 0) (.number 0))]).inProgressBySocket ≠ [] ∧
    (undo (run createDrawingStateDefault
      [.startStroke "a" "a" (.string "brush") (.string "#2563eb") (.number 6)
        (.object (.number 0) (.number 0))])).1.inProgressBySocket = [] ∧
    (undo (run createDrawingStateDefault
      [.startStroke "a" "a" (.string "brush") (.string "#2563eb") (.number 6)
        (.object (.number 0) (.number 0))])).1.version = 1 ∧
    (redo (run createDrawingStateDefault
      [.startStroke "a" "a" (.string "brush") (.string "#2563eb") (.number 6)
        (.object (.number 0) (.number 0))])).1.inProgressBySocket = [] ∧
    (redo (run createDrawingStateDefault
      [.startStroke "a" "a" (.string "brush") (.string "#2563eb") (.number 6)
        (.object (.number 0) (.number 0))])).1.version = 1 ∧
    (endStroke (run createDrawingStateDefault
      [.startStroke "a" "a" (.string "brush") (.string "#2563eb") (.number 6)
        (.object (.number 0) (.number 0))]) "a" (.string "a:1")).1.version = 2 := by
  decide

/-- C14. In every state reachable from the empty ledger by any sequence of calls, the
visible-history list and the redo list have no stroke id in common, neither list
contains an id twice, and neither contains the id of a stroke that is still in
progress. -/
theorem C14_history_lists_disjoint (s : State) (hr : Reachable s) :
    (∀ id ∈ s.activeCompletedStrokeIds, id ∉ s.redoStrokeIds) ∧
    s.activeCompletedStrokeIds.Nodup ∧ s.redoStrokeIds.Nodup ∧
    (∀ id ∈ inProgressIds s, id ∉ s.activeCompletedStrokeIds ∧ id ∉ s.redoStrokeIds) := by
  have hnd := hr.inv.nodup
  simp only [liveIds] at hnd
  have h1 := List.nodup_append.mp hnd
  have h2 := List.nodup_append.mp h1.2.1
  refine ⟨fun id ha hb => h2.2.2 ha hb, h2.1, h2.2.1, ?_⟩
  intro id hid
  exact ⟨fun ha => h1.2.2 hid (List.mem_append_left _ ha),
    fun hb => h1.2.2 hid (List.mem_append_right _ hb)⟩

/-- On a ledger of capacity 2, after stroke `a:1` is completed and undone while `b:2` is
in progress, the redo list holds no duplicate. -/
theorem C14_witness :
    (run (createDrawingState 2 100)
      [.startStroke "a" "a" (.string "brush") (.string "#2563eb") (.number 6)
        (.object (.number 0) (.number 0)),
       .addPoint "a" (.string "a:1") (.object (.number 1) (.number 1)),
       .endStroke "a" (.string "a:1"),
       .undo]).redoStrokeIds = ["a:1"] ∧
    (run (createDrawingState 2 100)
      [.startStroke "a" "a" (.string "brush") (.string "#2563eb") (.number 6)
        (.object (.number 0) (.number 0)),
       .addPoint "a" (.string "a:1") (.object (.number 1) (.number 1)),
       .endStroke "a" (.string "a:1"),
       .undo]).redoStrokeIds.Nodup :=
  ⟨by decide,
   (C14_history_lists_disjoint _ (Reachable.run (Reachable.init 2 100)
      [.startStroke "a" "a" (.string "brush") (.string "#2563eb") (.number 6)
        (.object (.number 0) (.number 0)),
       .addPoint "a" (.string "a:1") (.object (.number 1) (.number 1)),
       .endStroke "a" (.string "a:1"),
       .undo])).2.2.1⟩

/-- C15. Evaluation of `start, point, end` for one stroke on a ledger created with
`maxStrokes = 0`: `endStroke` pushes the id, eviction removes it together with its
`start` and `point` operations, and the `end` operation is appended afterwards, so the
log holds an `end` for an id with no preceding `start`.  The same happens through
`handleDisconnect`; the force-completion step of `undo` appends the `end` before the
eviction and leaves the log empty. -/
theorem C15_end_without_start_at_capacity_zero :
    (run (createDrawingState 0 10000)
      [.startStroke "a" "a" (.string "brush") (.string "#2563eb") (.number 6)
        (.object (.number 0) (.number 0)),
       .addPoint "a" (.string "a:1") (.object (.number 1) (.number 1)),
       .endStroke "a" (.string "a:1")]).ops = [Op.fin "a:1"] ∧
    (run (createDrawingState 0 10000)
      [.startStroke "a" "a" (.string "brush") (.string "#2563eb") (.number 6)
        (.object (.number 0) (.number 0)),
       .addPoint "a" (.string "a:1") (.object (.number 1) (.number 1)),
       .endStroke "a" (.string "a:1")]).activeCompletedStrokeIds = [] ∧
    (run (createDrawingState 0 10000)
      [.startStroke "a" "a" (.string "brush") (.string "#2563eb") (.number 6)
        (.object (.number 0) (.number 0)),
       .addPoint "a" (.string "a:1") (.object (.number 1) (.number 1)),
       .handleDisconnect "a"]).ops = [Op.fin "a:1"] ∧
    (run (createDrawingState 0 10000)
      [.startStroke "a" "a" (.string "brush") (.string "#2563eb") (.number 6)
        (.object (.number 0) (.number 0)),
       .addPoint "a" (.string "a:1") (.object (.number 1) (.number 1)),
       .undo]).ops = [] := by
  decide

/-- C16. Stroke header normalization: every stroke accepted by `startStroke` has the
supplied tool, which is `brush` or `eraser`; a width within `[1, 60]`, the supplied
finite width clamped to the nearest bound and 1 for any other width value; the color
`#000000` when the tool is `eraser`, whatever color was supplied, and otherwise the
supplied six-hex-digit color unchanged; and the `start` operation appended to the log
carries exactly this header and the stroke's single point. -/
theorem C16_stroke_header_normalized (s : State) (socketId userId : String)
    (tool color width point : JSVal) (st : Stroke) (v : Nat)
    (hacc : (startStroke s socketId userId tool color width point).2 = .accepted st v) :
    tool = .string st.tool ∧ (st.tool = "brush" ∨ st.tool = "eraser") ∧
    (1 ≤ st.width ∧ st.width ≤ 60) ∧
    (∀ n : ℚ, width = .number n → st.width = min 60 (max 1 n)) ∧
    ((∀ n : ℚ, width ≠ .number n) → st.width = 1) ∧
    (st.tool = "eraser" → st.color = "#000000") ∧
    (st.tool ≠ "eraser" → color = .string st.color ∧ IsHexColor color) ∧
    ∃ p0, st.points = [p0] ∧
      (startStroke s socketId userId tool color width point).1.ops.getLast?
        = some (Op.start ⟨st.id, st.userId, st.tool, st.color, st.width⟩ p0) := by
  rcases startStroke_cases s socketId userId tool color width point with
    ⟨_, e, he⟩ | ⟨safeTool, col, p0, ht, _, _, hcol, h⟩
  · rw [he] at hacc
    cases hacc
  · rw [h] at hacc ⊢
    simp only [StartResult.accepted.injEq] at hacc
    obtain ⟨hst, _⟩ := hacc
    subst hst
    obtain ⟨htool, hset⟩ := sanitizeTool_eq_some ht
    have hw : (1 : ℚ) ≤ clampWidth width 1 60 ∧ clampWidth width 1 60 ≤ 60 := by
      cases width with
      | number n =>
        simp only [clampWidth]
        exact ⟨le_min (by norm_num) (le_max_left _ _), min_le_left _ _⟩
      | _ => simp only [clampWidth]; norm_num
    refine ⟨htool, hset, hw, ?_, ?_, ?_, ?_, p0, rfl, ?_⟩
    · intro n hn
      subst hn
      rfl
    · intro hn
      cases width with
      | number n => exact absurd rfl (hn n)
      | _ => rfl
    · intro hte
      rcases hcol with ⟨_, hc⟩ | ⟨hne, _, _⟩
      · exact hc
      · exact absurd hte hne
    · intro hte
      rcases hcol with ⟨he, _⟩ | ⟨_, hc, hv⟩
      · exact absurd he hte
      · exact ⟨hc, (isValidColorString_iff color).mp hv⟩
    · simp

/-- On the default ledger a brush stroke of width 100 is accepted with width 60 and its
color unchanged. -/
theorem C16_witness :
    (startStroke createDrawingStateDefault "a" "a" (.string "brush") (.string "#2563eb")
      (.number 100) (.object (.number 0) (.number 0))).2 =
      .accepted ⟨"a:1", "a", "brush", "#2563eb", 60, [⟨0, 0⟩]⟩ 1 ∧
    (1 ≤ (60 : ℚ) ∧ (60 : ℚ) ≤ 60) :=
  ⟨by decide,
   (C16_stroke_header_normalized createDrawingStateDefault "a" "a" (.string "brush")
      (.string "#2563eb") (.number 100) (.object (.number 0) (.number 0))
      ⟨"a:1", "a", "brush", "#2563eb", 60, [⟨0, 0⟩]⟩ 1 (by decide)).2.2.1⟩

/-- C19, as stated, fails: no sequence of calls from the empty ledger (any integer
capacity) leads to a state in which `redo()` succeeds and restores to the visible
history an id that contributes no operations to the snapshot. -/
theorem C19_counterexample :
    ¬ ∃ (maxStrokes maxPointsPerStroke : Int) (cs : List Call) (X : String),
      (redo (run (createDrawingState maxStrokes maxPointsPerStroke) cs)).2.changed = true ∧
      X ∉ (run (createDrawingState maxStrokes maxPointsPerStroke) cs).activeCompletedStrokeIds ∧
      X ∈ (redo (run (createDrawingState maxStrokes maxPointsPerStroke)
        cs)).1.activeCompletedStrokeIds ∧
      opsOf X (getSnapshot (redo (run (createDrawingState maxStrokes maxPointsPerStroke)
        cs)).1).ops = [] := by
  rintro ⟨ms, mp, cs, X, _, _, hvis, hnil⟩
  have hrun : (redo (run (createDrawingState ms mp) cs)).1
      = run (createDrawingState ms mp) (cs ++ [.redo]) := by
    rw [run_snoc]; rfl
  rw [hrun] at hvis hnil
  obtain ⟨hdr, p1, ps, _, _, hops⟩ := snapshot_ops_of_visible ms mp (cs ++ [.redo]) X hvis
  rw [hops] at hnil
  simp at hnil

/-- C19, amended.  Redo never resurrects an evicted stroke: in every state reached from
the empty ledger (integer capacity), a `redo()` that succeeds moves the last id of the
redo list to the end of the visible history, evicts nothing, and the restored id
contributes its complete operation sequence to the snapshot: its start, at least one
point, and its end. -/
theorem C19_redo_restores_complete_stroke (maxStrokes maxPointsPerStroke : Int)
    (cs : List Call)
    (hch : (redo (run (createDrawingState maxStrokes maxPointsPerStroke) cs)).2.changed
      = true) :
    ∃ X init hdr p1 ps,
      (run (createDrawingState maxStrokes maxPointsPerStroke) cs).redoStrokeIds
        = init ++ [X] ∧
      (redo (run (createDrawingState maxStrokes maxPointsPerStroke)
        cs)).1.activeCompletedStrokeIds
        = (run (createDrawingState maxStrokes maxPointsPerStroke)
          cs).activeCompletedStrokeIds ++ [X] ∧
      (redo (run (createDrawingState maxStrokes maxPointsPerStroke) cs)).1.redoStrokeIds
        = init ∧
      hdr.id = X ∧ ps ≠ [] ∧
      opsOf X (getSnapshot (redo (run (createDrawingState maxStrokes maxPointsPerStroke)
        cs)).1).ops = Op.start hdr p1 :: ps.map (Op.point X) ++ [Op.fin X] := by
  have hinv := (Reachable.run (Reachable.init maxStrokes maxPointsPerStroke) cs).inv
  obtain ⟨X, init, h1, h2, h3⟩ := redo_changed_of_inv hinv hch
  have hrun : (redo (run (createDrawingState maxStrokes maxPointsPerStroke) cs)).1
      = run (createDrawingState maxStrokes maxPointsPerStroke) (cs ++ [.redo]) := by
    rw [run_snoc]; rfl
  have hvis : X ∈ (run (createDrawingState maxStrokes maxPointsPerStroke)
      (cs ++ [.redo])).activeCompletedStrokeIds := by
    rw [← hrun, h2]
    simp
  obtain ⟨hdr, p1, ps, hh, hne, hops⟩ :=
    snapshot_ops_of_visible maxStrokes maxPointsPerStroke (cs ++ [.redo]) X hvis
  rw [← hrun] at hops
  exact ⟨X, init, hdr, p1, ps, h1, h2, h3, hh, hne, hops⟩

/-- Capacity 1: stroke `a:1` is completed and undone, then `redo()` succeeds and the
snapshot again holds the three operations of `a:1`. -/
theorem C19_witness :
    (getSnapshot (redo (run (createDrawingState 1 100)
      [.startStroke "a" "a" (.string "brush") (.string "#2563eb") (.number 6)
        (.object (.number 0) (.number 0)),
       .addPoint "a" (.string "a:1") (.object (.number 1) (.number 1)),
       .endStroke "a" (.string "a:1"),
       .undo])).1).ops.length = 3 ∧
    ∃ X init hdr p1 ps,
      (run (createDrawingState 1 100)
        [.startStroke "a" "a" (.string "brush") (.string "#2563eb") (.number 6)
          (.object (.number 0) (.number 0)),
         .addPoint "a" (.string "a:1") (.object (.number 1) (.number 1)),
         .endStroke "a" (.string "a:1"),
         .undo]).redoStrokeIds = init ++ [X] ∧
      (redo (run (createDrawingState 1 100)
        [.startStroke "a" "a" (.string "brush") (.string "#2563eb") (.number 6)
          (.object (.number 0) (.number 0)),
         .addPoint "a" (.string "a:1") (.object (.number 1) (.number 1)),
         .endStroke "a" (.string "a:1"),
         .undo])).1.activeCompletedStrokeIds
        = (run (createDrawingState 1 100)
          [.startStroke "a" "a" (.string "brush") (.string "#2563eb") (.number 6)
            (.object (.number 0) (.number 0)),
           .addPoint "a" (.string "a:1") (.object (.number 1) (.number 1)),
           .endStroke "a" (.string "a:1"),
           .undo]).activeCompletedStrokeIds ++ [X] ∧
      (redo (run (createDrawingState 1 100)
        [.startStroke "a" "a" (.string "brush") (.string "#2563eb") (.number 6)
          (.object (.number 0) (.number 0)),
         .addPoint "a" (.string "a:1") (.object (.number 1) (.number 1)),
         .endStroke "a" (.string "a:1"),
         .undo])).1.redoStrokeIds = init ∧
      hdr.id = X ∧ ps ≠ [] ∧
      opsOf X (getSnapshot (redo (run (createDrawingState 1 100)
        [.startStroke "a" "a" (.string "brush") (.string "#2563eb") (.number 6)
          (.object (.number 0) (.number 0)),
         .addPoint "a" (.string "a:1") (.object (.number 1) (.number 1)),
         .endStroke "a" (.string "a:1"),
         .undo])).1).ops = Op.start hdr p1 :: ps.map (Op.point X) ++ [Op.fin X] :=
  ⟨by decide,
   C19_redo_restores_complete_stroke 1 100
    [.startStroke "a" "a" (.string "brush") (.string "#2563eb") (.number 6)
      (.object (.number 0) (.number 0)),
     .addPoint "a" (.string "a:1") (.object (.number 1) (.number 1)),
     .endStroke "a" (.string "a:1"),
     .undo] (by decide)⟩

end DrawingState

namespace CanvasController

open DrawingState (Point)

/-! ## Tokens of the client sync controller -/

theorem resumeStroke_token (c : Controller) (t : Nat) (res : StartAck) :
    (resumeStroke c t res).1.localStrokeToken = c.localStrokeToken := by
  by_cases h : c.pendingStrokeToken ≠ t
  · simp [resumeStroke, h]
  · cases res with
    | rejected => simp [resumeStroke, h]
    | accepted sid =>
      by_cases he : c.pendingShouldEnd = true <;> simp [resumeStroke, h, he]

theorem resumeStroke_pending (c : Controller) (t : Nat) (res : StartAck) :
    (resumeStroke c t res).1.pendingStrokeToken = c.pendingStrokeToken ∨
      (resumeStroke c t res).1.pendingStrokeToken = 0 := by
  by_cases h : c.pendingStrokeToken ≠ t
  · simp [resumeStroke, h]
  · cases res with
    | rejected => simp [resumeStroke, h]
    | accepted sid =>
      by_cases he : c.pendingShouldEnd = true <;> simp [resumeStroke, h, he]

theorem handle_token_mono (c : Controller) (e : Event) :
    c.localStrokeToken ≤ (handle c e).1.localStrokeToken := by
  cases e with
  | pointerDown ev =>
    simp only [handle, onPointerDown, beginStrokeAt]
    split_ifs <;> simp
  | pointerMove ev =>
    simp only [handle, onPointerMove]
    split_ifs
    · exact le_refl _
    · exact le_refl _
    · exact le_refl _
    · cases c.localStrokeId <;> exact le_refl _
  | pointerUp ev =>
    simp only [handle, onPointerUp]
    split_ifs <;> exact le_refl _
  | pointerCancel ev =>
    simp only [handle, onPointerCancel]
    split_ifs <;> exact le_refl _
  | abortLocalDrawing => simp [handle, abortLocalDrawing]
  | setOps => simp [handle, setOps, abortLocalDrawing]
  | setEnabled v => exact le_refl _
  | setToolState tool color width => exact le_refl _
  | ack token res => exact le_of_eq (resumeStroke_token c token res).symm

theorem runEvents_token_mono (c : Controller) (es : List Event) :
    c.localStrokeToken ≤ (runEvents c es).1.localStrokeToken := by
  induction es generalizing c with
  | nil => exact le_refl _
  | cons e es ih => exact le_trans (handle_token_mono c e) (ih _)

/-- Once the token counter has passed `t`, and the pending token is zero or the current
counter, this stays so after any event. -/
theorem handle_stale (c : Controller) (e : Event) (t : Nat)
    (h : t < c.localStrokeToken ∧
      (c.pendingStrokeToken = 0 ∨ c.pendingStrokeToken = c.localStrokeToken)) :
    t < (handle c e).1.localStrokeToken ∧
      ((handle c e).1.pendingStrokeToken = 0 ∨
        (handle c e).1.pendingStrokeToken = (handle c e).1.localStrokeToken) := by
  obtain ⟨h1, h2⟩ := h
  cases e with
  | pointerDown ev =>
    simp only [handle, onPointerDown, beginStrokeAt]
    split_ifs
    · exact ⟨h1, h2⟩
    · exact ⟨h1, h2⟩
    · exact ⟨Nat.lt_succ_of_lt h1, Or.inr rfl⟩
  | pointerMove ev =>
    simp only [handle, onPointerMove]
    split_ifs
    · exact ⟨h1, h2⟩
    · exact ⟨h1, h2⟩
    · exact ⟨h1, h2⟩
    · cases c.localStrokeId <;> exact ⟨h1, h2⟩
  | pointerUp ev =>
    simp only [handle, onPointerUp]
    split_ifs <;> exact ⟨h1, h2⟩
  | pointerCancel ev =>
    simp only [handle, onPointerCancel]
    split_ifs <;> exact ⟨h1, h2⟩
  | abortLocalDrawing => exact ⟨Nat.lt_succ_of_lt h1, Or.inl rfl⟩
  | setOps => exact ⟨Nat.lt_succ_of_lt h1, Or.inl rfl⟩
  | setEnabled v => exact ⟨h1, h2⟩
  | setToolState tool color width => exact ⟨h1, h2⟩
  | ack token res =>
    simp only [handle]
    rw [resumeStroke_token]
    refine ⟨h1, ?_⟩
    rcases resumeStroke_pending c token res with h | h
    · rw [h]; exact h2
    · exact Or.inl h

theorem runEvents_stale (c : Controller) (es : List Event) (t : Nat)
    (h : t < c.localStrokeToken ∧
      (c.pendingStrokeToken = 0 ∨ c.pendingStrokeToken = c.localStrokeToken)) :
    t < (runEvents c es).1.localStrokeToken ∧
      ((runEvents c es).1.pendingStrokeToken = 0 ∨
        (runEvents c es).1.pendingStrokeToken = (runEvents c es).1.localStrokeToken) := by
  induction es generalizing c with
  | nil => exact h
  | cons e es ih => exact ih _ (handle_stale c e t h)

/-- C17. Stale acknowledgment: a start request is issued by `beginStrokeAt` under the
token `localStrokeToken + 1`; after any events, `abortLocalDrawing` (also through
`setOps`) and any further events, among them newer strokes, the continuation of that
request, whether the acknowledgment accepts or rejects, emits no request and leaves
the whole controller state unchanged: the local stroke id is not set from it and a newer
pending stroke is untouched. -/
theorem C17_stale_ack_discarded (c0 : Controller) (p : Point) (es1 es2 : List Event)
    (res : StartAck) :
    (beginStrokeAt c0 p).2 =
      [Request.strokeStart (c0.localStrokeToken + 1) c0.toolState.tool c0.toolState.color
        c0.toolState.width p] ∧
    resumeStroke
        (runEvents (abortLocalDrawing (runEvents (beginStrokeAt c0 p).1 es1).1) es2).1
        (c0.localStrokeToken + 1) res =
      ((runEvents (abortLocalDrawing (runEvents (beginStrokeAt c0 p).1 es1).1) es2).1, []) ∧
    resumeStroke
        (runEvents (setOps (runEvents (beginStrokeAt c0 p).1 es1).1) es2).1
        (c0.localStrokeToken + 1) res =
      ((runEvents (setOps (runEvents (beginStrokeAt c0 p).1 es1).1) es2).1, []) := by
  have hmono := runEvents_token_mono (beginStrokeAt c0 p).1 es1
  have h0 : (beginStrokeAt c0 p).1.localStrokeToken = c0.localStrokeToken + 1 := rfl
  have habort : c0.localStrokeToken + 1 <
        (abortLocalDrawing (runEvents (beginStrokeAt c0 p).1 es1).1).localStrokeToken ∧
      ((abortLocalDrawing (runEvents (beginStrokeAt c0 p).1 es1).1).pendingStrokeToken = 0 ∨
        (abortLocalDrawing (runEvents (beginStrokeAt c0 p).1 es1).1).pendingStrokeToken =
          (abortLocalDrawing (runEvents (beginStrokeAt c0 p).1 es1).1).localStrokeToken) := by
    refine ⟨?_, Or.inl rfl⟩
    simp only [abortLocalDrawing]
    omega
  have hfin := runEvents_stale _ es2 _ habort
  have hne : (runEvents (abortLocalDrawing (runEvents (beginStrokeAt c0 p).1 es1).1)
      es2).1.pendingStrokeToken ≠ c0.localStrokeToken + 1 := by
    rcases hfin.2 with h | h
    · rw [h]; omega
    · rw [h]; omega
  have hres : resumeStroke
        (runEvents (abortLocalDrawing (runEvents (beginStrokeAt c0 p).1 es1).1) es2).1
        (c0.localStrokeToken + 1) res =
      ((runEvents (abortLocalDrawing (runEvents (beginStrokeAt c0 p).1 es1).1) es2).1, []) := by
    simp only [resumeStroke, hne, ne_eq, not_false_eq_true, if_true]
  exact ⟨rfl, hres, hres⟩

/-! ## Buffering while the start request is pending -/

theorem runEvents_append (c : Controller) (es1 es2 : List Event) :
    runEvents c (es1 ++ es2) =
      ((runEvents (runEvents c es1).1 es2).1,
        (runEvents c es1).2 ++ (runEvents (runEvents c es1).1 es2).2) := by
  induction es1 generalizing c with
  | nil => simp [runEvents]
  | cons e es ih =>
    show runEvents c (e :: (es ++ es2)) = _
    simp only [runEvents]
    rw [ih]
    simp only [List.append_assoc]

/-- While the start request is pending and the pointer is down, every move of the active
pointer is buffered and nothing is emitted. -/
theorem runEvents_moves_buffered (c : Controller) (pid : Int) (mvs : List PointerEvent)
    (hen : c.enabled = true) (hdown : c.isPointerDown = true)
    (hact : c.activePointerId = some pid) (hid : c.localStrokeId = none)
    (hmv : ∀ m ∈ mvs, m.pointerId = pid) :
    runEvents c (mvs.map Event.pointerMove) =
      ({ c with localBufferedPoints := c.localBufferedPoints ++ mvs.map (fun m => m.point) },
        []) := by
  induction mvs generalizing c with
  | nil => simp [runEvents]
  | cons m ms ih =>
    have hm : m.pointerId = pid := hmv m (List.mem_cons_self _ _)
    have hstep : handle c (.pointerMove m) =
        ({ c with localBufferedPoints := c.localBufferedPoints ++ [m.point] }, []) := by
      simp [handle, onPointerMove, shouldHandlePointer, hen, hdown, hact, hid, hm, truthyId]
    show runEvents c (Event.pointerMove m :: ms.map Event.pointerMove) = _
    simp only [runEvents]
    rw [hstep]
    simp only
    have h2 := ih { c with localBufferedPoints := c.localBufferedPoints ++ [m.point] }
      hen hdown hact hid (fun x hx => hmv x (List.mem_cons_of_mem _ hx))
    rw [h2]
    simp

/-- C18. Flush on acceptance.  When the acknowledgment of the pending start request
(token `t`) accepts the stroke with id `sid`, the continuation emits exactly one point
request per buffered point, in buffer order and carrying `sid`, then, if the end is
pending, exactly one end request for `sid`; it empties the buffer and clears the local
stroke id in the latter case.  While the request is pending, pointer-up and
pointer-cancel emit nothing and, when handled, only set the end-pending flag.  End to
end: after a pointer-down, the moves of that pointer and possibly its pointer-up or
pointer-cancel, the only request emitted before the acknowledgment is the start
request, and the acknowledgment then flushes one point request per move, in order,
followed by the end request if the pointer was released or cancelled. -/
theorem C18_flush_on_acceptance (c : Controller) (t : Nat) (sid : String)
    (hp : c.pendingStrokeToken = t) :
    resumeStroke c t (.accepted sid) =
      ({ c with
          localStrokeId := if c.pendingShouldEnd then none else some sid
          localStartPoint := if c.pendingShouldEnd then none else c.localStartPoint
          pendingStrokeToken := 0
          pendingShouldEnd := false
          localBufferedPoints := [] },
        c.localBufferedPoints.map (fun p => Request.strokePoint sid p) ++
          (if c.pendingShouldEnd then [Request.strokeEnd sid] else [])) ∧
    (t ≠ 0 → ∀ ev : PointerEvent,
      (onPointerUp c ev).2 = [] ∧ (onPointerCancel c ev).2 = [] ∧
      (shouldHandlePointer c ev = true →
        (onPointerUp c ev).1.pendingShouldEnd = true ∧
        (onPointerUp c ev).1.localBufferedPoints = c.localBufferedPoints ∧
        (onPointerUp c ev).1.pendingStrokeToken = t ∧
        (onPointerCancel c ev).1.pendingShouldEnd = true ∧
        (onPointerCancel c ev).1.localBufferedPoints = c.localBufferedPoints ∧
        (onPointerCancel c ev).1.pendingStrokeToken = t)) ∧
    (∀ (c0 : Controller) (ev0 : PointerEvent) (mvs : List PointerEvent) (fin : List Event),
      c0.enabled = true → (ev0.button = none ∨ ev0.button = some 0) →
      (∀ m ∈ mvs, m.pointerId = ev0.pointerId) →
      (fin = [] ∨ ∃ ev : PointerEvent, ev.pointerId = ev0.pointerId ∧
        (fin = [.pointerUp ev] ∨ fin = [.pointerCancel ev])) →
      (runEvents c0 (.pointerDown ev0 :: (mvs.map Event.pointerMove ++ fin))).2 =
        [Request.strokeStart (c0.localStrokeToken + 1) c0.toolState.tool c0.toolState.color
          c0.toolState.width ev0.point] ∧
      (resumeStroke (runEvents c0 (.pointerDown ev0 :: (mvs.map Event.pointerMove ++ fin))).1
        (c0.localStrokeToken + 1) (.accepted sid)).2 =
        mvs.map (fun m => Request.strokePoint sid m.point) ++
          (if fin = [] then [] else [Request.strokeEnd sid]) ∧
      (resumeStroke (runEvents c0 (.pointerDown ev0 :: (mvs.map Event.pointerMove ++ fin))).1
        (c0.localStrokeToken + 1) (.accepted sid)).1.localStrokeId =
        (if fin = [] then some sid else none) ∧
      (resumeStroke (runEvents c0 (.pointerDown ev0 :: (mvs.map Event.pointerMove ++ fin))).1
        (c0.localStrokeToken + 1) (.accepted sid)).1.localBufferedPoints = []) := by
  refine ⟨?_, ?_, ?_⟩
  · by_cases he : c.pendingShouldEnd = true
    · simp [resumeStroke, hp, he]
    · simp [resumeStroke, hp, he]
  · intro ht ev
    have hne : c.pendingStrokeToken ≠ 0 := by rw [hp]; exact ht
    refine ⟨?_, ?_, ?_⟩
    · by_cases hs : shouldHandlePointer c ev = true <;> simp [onPointerUp, hs, hne]
    · by_cases hs : shouldHandlePointer c ev = true <;> simp [onPointerCancel, hs]
    · intro hs
      simp [onPointerUp, onPointerCancel, hs, hp, ht]
  · intro c0 ev0 mvs fin hen hbtn hmv hfin
    have hdown : handle c0 (.pointerDown ev0) =
        ({ c0 with
            isPointerDown := true
            activePointerId := some ev0.pointerId
            localStrokeToken := c0.localStrokeToken + 1
            pendingStrokeToken := c0.localStrokeToken + 1
            pendingShouldEnd := false
            localStrokeId := none
            localStartPoint := some ev0.point
            localBufferedPoints := [] },
          [Request.strokeStart (c0.localStrokeToken + 1) c0.toolState.tool
            c0.toolState.color c0.toolState.width ev0.point]) := by
      rcases hbtn with hb | hb <;> simp [handle, onPointerDown, beginStrokeAt, hen, hb]
    have hmoves := runEvents_moves_buffered
      { c0 with
        isPointerDown := true
        activePointerId := some ev0.pointerId
        localStrokeToken := c0.localStrokeToken + 1
        pendingStrokeToken := c0.localStrokeToken + 1
        pendingShouldEnd := false
        localStrokeId := none
        localStartPoint := some ev0.point
        localBufferedPoints := [] } ev0.pointerId mvs hen rfl rfl rfl hmv
    simp only [List.nil_append] at hmoves
    simp only [runEvents, hdown, runEvents_append, hmoves, List.append_nil]
    rcases hfin with hf | ⟨ev, hev, hf | hf⟩
    · subst hf
      simp [runEvents, resumeStroke]
    · subst hf
      simp [runEvents, handle, onPointerUp, shouldHandlePointer, hen, hev, resumeStroke]
    · subst hf
      simp [runEvents, handle, onPointerCancel, shouldHandlePointer, hen, hev, resumeStroke]

/-- An enabled controller: pointer-down, two moves and pointer-up of pointer 1 before the
acknowledgment; the pending token is 1, and the acknowledgment `a:1` flushes the two
points and the end request. -/
theorem C18_witness :
    (runEvents (setEnabled createCanvasController true)
      [.pointerDown ⟨1, some 0, ⟨0, 0⟩⟩, .pointerMove ⟨1, none, ⟨1, 0⟩⟩,
       .pointerMove ⟨1, none, ⟨1, 1⟩⟩, .pointerUp ⟨1, some 0, ⟨1, 1⟩⟩]).1.pendingStrokeToken
      = 1 ∧
    (resumeStroke (runEvents (setEnabled createCanvasController true)
      [.pointerDown ⟨1, some 0, ⟨0, 0⟩⟩, .pointerMove ⟨1, none, ⟨1, 0⟩⟩,
       .pointerMove ⟨1, none, ⟨1, 1⟩⟩, .pointerUp ⟨1, some 0, ⟨1, 1⟩⟩]).1 1
      (.accepted "a:1")).2 =
      [Request.strokePoint "a:1" ⟨1, 0⟩, Request.strokePoint "a:1" ⟨1, 1⟩,
        Request.strokeEnd "a:1"] :=
  ⟨by decide,
   (congrArg Prod.snd (C18_flush_on_acceptance (runEvents (setEnabled createCanvasController true)
      [.pointerDown ⟨1, some 0, ⟨0, 0⟩⟩, .pointerMove ⟨1, none, ⟨1, 0⟩⟩,
       .pointerMove ⟨1, none, ⟨1, 1⟩⟩, .pointerUp ⟨1, some 0, ⟨1, 1⟩⟩]).1 1 "a:1"
      (by decide)).1).trans (by decide)⟩

/-- C20. Pointer-cancel never emits a request and never changes the local stroke id, in
any controller state.  Evaluation on an enabled controller after pointer-down of pointer
1 and the acknowledgment `a:1`, so that the stroke `a:1` is confirmed and no start is
pending: pointer-cancel of pointer 1 emits nothing and leaves `localStrokeId` at `a:1`,
whereas pointer-up emits the end request for `a:1` and clears the id. -/
theorem C20_cancel_leaves_confirmed_stroke_open :
    (∀ (c : Controller) (ev : PointerEvent),
      (onPointerCancel c ev).2 = [] ∧
      (onPointerCancel c ev).1.localStrokeId = c.localStrokeId) ∧
    (runEvents (setEnabled createCanvasController true)
      [.pointerDown ⟨1, some 0, ⟨0, 0⟩⟩, .ack 1 (.accepted "a:1"),
       .pointerMove ⟨1, none, ⟨1, 1⟩⟩]).1.localStrokeId = some "a:1" ∧
    (runEvents (setEnabled createCanvasController true)
      [.pointerDown ⟨1, some 0, ⟨0, 0⟩⟩, .ack 1 (.accepted "a:1"),
       .pointerMove ⟨1, none, ⟨1, 1⟩⟩]).1.pendingStrokeToken = 0 ∧
    shouldHandlePointer (runEvents (setEnabled createCanvasController true)
      [.pointerDown ⟨1, some 0, ⟨0, 0⟩⟩, .ack 1 (.accepted "a:1"),
       .pointerMove ⟨1, none, ⟨1, 1⟩⟩]).1 ⟨1, some 0, ⟨1, 1⟩⟩ = true ∧
    (onPointerCancel (runEvents (setEnabled createCanvasController true)
      [.pointerDown ⟨1, some 0, ⟨0, 0⟩⟩, .ack 1 (.accepted "a:1"),
       .pointerMove ⟨1, none, ⟨1, 1⟩⟩]).1 ⟨1, some 0, ⟨1, 1⟩⟩).2 = [] ∧
    (onPointerCancel (runEvents (setEnabled createCanvasController true)
      [.pointerDown ⟨1, some 0, ⟨0, 0⟩⟩, .ack 1 (.accepted "a:1"),
       .pointerMove ⟨1, none, ⟨1, 1⟩⟩]).1 ⟨1, some 0, ⟨1, 1⟩⟩).1.localStrokeId
      = some "a:1" ∧
    (onPointerUp (runEvents (setEnabled createCanvasController true)
      [.pointerDown ⟨1, some 0, ⟨0, 0⟩⟩, .ack 1 (.accepted "a:1"),
       .pointerMove ⟨1, none, ⟨1, 1⟩⟩]).1 ⟨1, some 0, ⟨1, 1⟩⟩).2
      = [Request.strokeEnd "a:1"] ∧
    (onPointerUp (runEvents (setEnabled createCanvasController true)
      [.pointerDown ⟨1, some 0, ⟨0, 0⟩⟩, .ack 1 (.accepted "a:1"),
       .pointerMove ⟨1, none, ⟨1, 1⟩⟩]).1 ⟨1, some 0, ⟨1, 1⟩⟩).1.localStrokeId = none := by
  refine ⟨?_, by decide, by decide, by decide, by decide, by decide, by decide, by decide⟩
  intro c ev
  by_cases hs : shouldHandlePointer c ev = true <;> simp [onPointerCancel, hs]

end CanvasController
